import Mathlib

/-!
Multiplication engine of `bigint.c`.

Shallow embedding of the word-level multiplication routines of
`src/main/c/bigint.c` and proofs about them.

Memory is word addressed: a C pointer `jint *p` is a base address and `p[i]`
is the cell `p + i`.  A cell holds the bit pattern of a `jint`, represented by
its unsigned value; `p[i] & LONG_MASK` reads that value and `(jint)v` keeps the
low 32 bits of `v`.  `unsigned long` accumulators are reduced modulo `2 ^ 64`,
the signed accumulator of the combination step of `karatsuba` is an `Int`
(its magnitude stays below `2 ^ 35`, far from the 64-bit range).
-/

namespace BigInt

/-- Word-addressed memory. -/
abbrev Mem := Nat → Nat

/-- Constant `const jlong LONG_MASK = 0xFFFFFFFFL` (line 19). -/
def LONG_MASK : Nat := 0xFFFFFFFF

/-- Constant `const jint OFF = 1` (line 244). -/
def OFF : Nat := 1

/-- Read `p[i] & LONG_MASK`: the unsigned value of the 32-bit word stored in a cell. -/
def rd (m : Mem) (a : Nat) : Nat := m a % 2 ^ 32

/-- Store `p[i] = (jint)v`: store the low 32 bits of `v`. -/
def wr (m : Mem) (a v : Nat) : Mem := fun i => if i = a then v % 2 ^ 32 else m i

/-- Little-endian base-`2 ^ 32` value of the `n` words starting at address `a`. -/
def value (m : Mem) (a : Nat) : Nat → Nat
  | 0 => 0
  | n + 1 => rd m a + 2 ^ 32 * value m (a + 1) n

/-- The loop `z[j] = (jint)(carry += x0 * (y[k] & LONG_MASK)); carry >>= 32`
(lines 31-34 and 118-121), run `n` times from source address `src` and
destination address `dst`.  Returns the memory and the final carry. -/
def mulLoop (x0 : Nat) : Nat → Mem → Nat → Nat → Nat → Mem × Nat
  | 0, m, _, _, carry => (m, carry)
  | n + 1, m, src, dst, carry =>
    let t := (carry + x0 * rd m src) % 2 ^ 64
    mulLoop x0 n (wr m dst t) (src + 1) (dst + 1) (t / 2 ^ 32)

/-- The loop
`z[k] = (jint)(carry += x0 * (y[j] & LONG_MASK) + (z[k] & LONG_MASK)); carry >>= 32`
(lines 39-42, 71-74, 127-130 and 331-335). -/
def mulAccLoop (x0 : Nat) : Nat → Mem → Nat → Nat → Nat → Mem × Nat
  | 0, m, _, _, carry => (m, carry)
  | n + 1, m, src, dst, carry =>
    let t := (carry + x0 * rd m src + rd m dst) % 2 ^ 64
    mulAccLoop x0 n (wr m dst t) (src + 1) (dst + 1) (t / 2 ^ 32)

/-- The outer loop of `nativeMulQuad` (lines 37-45): `n` rows starting at row `i`. -/
def quadRows (x y z ylen : Nat) : Nat → Mem → Nat → Mem
  | 0, m, _ => m
  | n + 1, m, i =>
    let x0 := rd m (x + i)
    let r := mulAccLoop x0 ylen m (y + 1) (z + i) 0
    quadRows x y z ylen n (wr r.1 (z + (i + ylen)) r.2) (i + 1)

/-- Function `Java_org_libj_math_BigIntMultiplication_nativeMulQuad` (lines 21-50). -/
def nativeMulQuad (m : Mem) (x xlen y ylen z : Nat) : Mem :=
  let x0 := rd m (x + 1)
  let r := mulLoop x0 ylen m (y + 1) (z + 1) 0
  let m1 := wr r.1 (z + (ylen + 1)) r.2
  quadRows x y z ylen (xlen - 1) m1 2

/-- First loop of `nativeMulQuadInline` (lines 62-65):
`y[j] = (jint)(carry += x0 * ((y[k] = y[j]) & LONG_MASK)); carry >>= 32`. -/
def inlineFirst (x0 : Nat) : Nat → Mem → Nat → Nat → Nat → Mem × Nat
  | 0, m, _, _, carry => (m, carry)
  | n + 1, m, j, k, carry =>
    let v := m j
    let t := (carry + x0 * (v % 2 ^ 32)) % 2 ^ 64
    inlineFirst x0 n (wr (wr m k v) j t) (j + 1) (k + 1) (t / 2 ^ 32)

/-- The outer loop of `nativeMulQuadInline` (lines 69-77); `zl` is `zlen + 1`. -/
def inlineRows (x y ylen zl : Nat) : Nat → Mem → Nat → Mem
  | 0, m, _ => m
  | n + 1, m, i =>
    let x0 := rd m (x + i)
    let r := mulAccLoop x0 ylen m (y + zl) (y + i) 0
    inlineRows x y ylen zl n (wr r.1 (y + (i + ylen)) r.2) (i + 1)

/-- Function `Java_org_libj_math_BigIntMultiplication_nativeMulQuadInline` (lines 52-81). -/
def nativeMulQuadInline (m : Mem) (x xlen y ylen zlen : Nat) : Mem :=
  let x0 := rd m (x + 1)
  let zl := zlen + 1
  let r := inlineFirst x0 ylen m (y + 1) (y + zl) 0
  let m1 := wr r.1 (y + (zl + ylen)) (r.1 (y + (ylen + 1)))
  let m2 := wr m1 (y + (ylen + 1)) r.2
  inlineRows x y ylen zl (xlen - 1) m2 2

/-- Rows of the base case of `karatsuba` (lines 124-133). -/
def kbaseRows (x y z yoffoff len : Nat) : Nat → Mem → Nat → Nat → Nat → Mem
  | 0, m, _, _, _ => m
  | n + 1, m, i, l, mm =>
    let x0 := rd m (x + i)
    let r := mulAccLoop x0 len m (y + yoffoff) (z + mm) 0
    kbaseRows x y z yoffoff len n (wr r.1 (z + l) r.2) (i + 1) (l + 1) (mm + 1)

/-- Base case `len <= 32` of `karatsuba` (lines 115-133). -/
def kbase (m : Mem) (x xoffoff y yoffoff z zoff len : Nat) : Mem :=
  let zoffl := zoff + len
  let x0 := rd m (x + xoffoff)
  let r := mulLoop x0 len m (y + yoffoff) (z + zoff) 0
  let m1 := wr r.1 (z + zoffl) r.2
  kbaseRows x y z yoffoff len (len - 1) m1 (xoffoff + 1) (zoffl + 1) (zoff + 1)

/-- Memory together with the allocation frontier: every live block lies below `brk`. -/
structure Heap where
  mem : Mem
  brk : Nat

/-- Call `calloc(n, sizeof(jint))`: a fresh zeroed block of `n` words at address `h.brk`. -/
def calloc (h : Heap) (n : Nat) : Heap :=
  ⟨fun a => if h.brk ≤ a ∧ a < h.brk + n then 0 else h.mem a, h.brk + n⟩

/-- The loop
`tmp[i] = (jint)(carry += (x[j] & LONG_MASK) + (x[k] & LONG_MASK)); carry >>= 32`
(lines 161-164 and 173-176). -/
def addLoop : Nat → Mem → Nat → Nat → Nat → Nat → Mem × Nat
  | 0, m, _, _, _, carry => (m, carry)
  | n + 1, m, dst, s1, s2, carry =>
    let t := (carry + (rd m s1 + rd m s2)) % 2 ^ 64
    addLoop n (wr m dst t) (dst + 1) (s1 + 1) (s2 + 1) (t / 2 ^ 32)

/-- Lines 166-170 (and 178-182): `if ((len & 1) != 0) tmp[top] = x[src];`
then `if (carry != 0 && ++tmp[top] == 0) ++tmp[top + 1];`. -/
def sumTop (m : Mem) (len carry top src : Nat) : Mem :=
  let m1 := if len % 2 ≠ 0 then wr m top (m src) else m
  if carry ≠ 0 then
    let m2 := wr m1 top (rd m1 top + 1)
    if rd m2 top = 0 then wr m2 (top + 1) (rd m2 (top + 1) + 1) else m2
  else m1

/-- Call `memcpy(dst, src, n * sizeof(jint))` on non-overlapping blocks. -/
def memcpy (m : Mem) (dst src n : Nat) : Mem :=
  fun a => if dst ≤ a ∧ a < dst + n then m (src + (a - dst)) else m a

/-- Cast `(jint)v` for a signed 64-bit `v`. -/
def low32 (v : Int) : Nat := (v % 2 ^ 32).toNat

/-- First accumulation loop of the combination step (lines 220-223):
`z[j] = (jint)(x0 += z[j] + tmp[i] - tmp[k] - tmp[l]); x0 >>= 32`. -/
def combA : Nat → Mem → Int → Nat → Nat → Nat → Nat → Mem × Int
  | 0, m, x0, _, _, _, _ => (m, x0)
  | n + 1, m, x0, j, i, k, l =>
    let v : Int := x0 + ((rd m j : Int) + (rd m i : Int) - (rd m k : Int) - (rd m l : Int))
    combA n (wr m j (low32 v)) (v / 2 ^ 32) (j + 1) (i + 1) (k + 1) (l + 1)

/-- Second accumulation loop (lines 225-228):
`z[j] = (jint)(x0 += z[j] + tmp[i] - tmp[k]); x0 >>= 32`. -/
def combB : Nat → Mem → Int → Nat → Nat → Nat → Mem × Int
  | 0, m, x0, _, _, _ => (m, x0)
  | n + 1, m, x0, j, i, k =>
    let v : Int := x0 + ((rd m j : Int) + (rd m i : Int) - (rd m k : Int))
    combB n (wr m j (low32 v)) (v / 2 ^ 32) (j + 1) (i + 1) (k + 1)

/-- Third accumulation loop (lines 230-233):
`z[j] = (jint)(x0 += z[j] + tmp[i]); x0 >>= 32`. -/
def combC : Nat → Mem → Int → Nat → Nat → Mem × Int
  | 0, m, x0, _, _ => (m, x0)
  | n + 1, m, x0, j, i =>
    let v : Int := x0 + ((rd m j : Int) + (rd m i : Int))
    combC n (wr m j (low32 v)) (v / 2 ^ 32) (j + 1) (i + 1)

/-- The loop `while (++z[j++] == 0);` (line 239); `none` when the fuel runs out. -/
def ripple : Nat → Mem → Nat → Option Mem
  | 0, _, _ => none
  | fuel + 1, m, a =>
    let m1 := wr m a (rd m a + 1)
    if rd m1 a = 0 then ripple fuel m1 (a + 1) else some m1

/-- Lines 161-170 (operand `x`) and 173-182 (operand `y`): the sum of the `b` low
words at `src` and the high words at `src + b`, written at `dst`; the carry goes
into the word at `dst + b`, which for an odd `len` first receives the top word. -/
def ksum (m : Mem) (len b dst src : Nat) : Mem :=
  let s := addLoop b m dst src (src + b) 0
  sumTop s.1 len s.2 (dst + b) (src + b * 2)

/-- The scratch arena chosen at lines 143-157. -/
structure Arena where
  tmpoff : Nat
  x2offl_b2 : Nat
  y2offl_b2 : Nat
  zlength : Nat
  tmp : Nat
  heap : Heap

/-- Lines 141-157: carve the arena out of the tail of `z` when `parallel == 0` and
`zlength` is large enough, allocate it with `calloc` otherwise. -/
def arena (h : Heap) (z zoff zlen zlength len parallel : Nat) : Arena :=
  let b := len / 2
  let ll := len * 2
  let l_b := len - b
  let l_b2 := l_b * 2
  let j := ll + l_b2 + 2
  let k := j + l_b2
  let i := zoff + zlen
  if parallel = 0 ∧ zlength ≥ i + k + 1 then
    ⟨i, j + i, k + i, zlength, z, h⟩
  else
    ⟨0, j, k, k + 2, h.brk, calloc h (k + 2)⟩

/-- The combination step (lines 217-239): copy the low and the high product into
`z`, add the middle term with the three accumulation loops, then ripple the
residual carry. -/
def kcombine (fuel : Nat) (m : Mem) (z zoff tmp tmpoff len b r : Nat) : Option Mem :=
  let b2 := b * 2
  let ll := len * 2
  let l_b2 := (len - b) * 2
  let tmpoffl_b2 := tmpoff + l_b2
  let tmpoffrr := tmpoff + r * 2
  let tmpoffbb := tmpoff + b2
  let tmpoffrrbb := tmpoffrr + b2
  let m3 := memcpy m (z + zoff) (tmp + tmpoffrr) ll
  let cA := combA b2 m3 0 (z + (zoff + b)) (tmp + tmpoff) (tmp + tmpoffrrbb) (tmp + tmpoffrr)
  let nB := tmpoffl_b2 - tmpoffbb
  let cB := combB nB cA.1 cA.2 (z + (zoff + b + b2)) (tmp + tmpoffbb) (tmp + (tmpoffrrbb + b2))
  let nC := (tmpoffrr - 1) - (tmpoffbb + nB)
  let cC := combC nC cB.1 cB.2 (z + (zoff + b + b2 + nB)) (tmp + (tmpoffbb + nB))
  if cC.2 ≠ 0 then ripple fuel cC.1 (z + (zoff + b + b2 + nB + nC)) else some cC.1

/-- Function `karatsuba` (lines 107-241).  The first argument bounds the recursion depth
and the length of the final ripple; `none` means the bound was too small.
With `parallel > 0` the three sub-calls made through `karatsubaThread`
(lines 194-214) are joined before the combination step; they are run here one
after the other, each to completion.  `free` is a no-op. -/
def karatsuba : Nat → Heap → Nat → Nat → Nat → Nat → Nat → Nat → Nat → Nat → Nat → Nat → Nat →
    Option Heap
  | 0, h, x, xoff, y, yoff, z, zoff, _, _, off, len, _ =>
    if len ≤ 32 then some ⟨kbase h.mem x (xoff + off) y (yoff + off) z zoff len, h.brk⟩
    else none
  | fuel + 1, h, x, xoff, y, yoff, z, zoff, zlen, zlength, off, len, parallel =>
    let xoffoff := xoff + off
    let yoffoff := yoff + off
    if len ≤ 32 then
      some ⟨kbase h.mem x xoffoff y yoffoff z zoff len, h.brk⟩
    else
      let b := len / 2
      let b2 := b * 2
      let l_b := len - b
      let l_b2 := l_b * 2
      let ar := arena h z zoff zlen zlength len parallel
      let tmp := ar.tmp
      let y2offl_b := ar.x2offl_b2 + l_b
      let y2offl_b1 := y2offl_b + 1
      let m1 := ksum ar.heap.mem len b (tmp + ar.x2offl_b2) (x + xoffoff)
      let m2 := ksum m1 len b (tmp + y2offl_b1) (y + yoffoff)
      let tmpoffl_b2 := ar.tmpoff + l_b2
      let tmplen := tmpoffl_b2 + l_b2 + 3
      let r := l_b + (if rd m2 (tmp + y2offl_b) ≠ 0 ∨ rd m2 (tmp + ar.y2offl_b2) ≠ 0 then 1 else 0)
      let tmpoffrr := ar.tmpoff + r * 2
      let tmpoffrrbb := tmpoffrr + b2
      let p := parallel - 1
      match karatsuba fuel ⟨m2, ar.heap.brk⟩ tmp ar.x2offl_b2 tmp y2offl_b1 tmp ar.tmpoff tmplen
          ar.zlength 0 r p with
      | none => none
      | some h1 =>
      match karatsuba fuel h1 x xoff y yoff tmp tmpoffrr tmplen ar.zlength off b p with
      | none => none
      | some h2 =>
      match karatsuba fuel h2 x xoff y yoff tmp tmpoffrrbb tmplen ar.zlength (off + b) l_b p with
      | none => none
      | some h3 =>
        match kcombine fuel h3.mem z zoff tmp ar.tmpoff len b r with
        | none => none
        | some m4 => some ⟨m4, h3.brk⟩
  termination_by structural fuel => fuel

/-- Function `Java_org_libj_math_BigIntMultiplication_nativeSquareKaratsuba` (lines 247-265).
With `yCopy` the operand is first copied into a fresh block of `len + OFF` words. -/
def nativeSquareKaratsuba (fuel : Nat) (h : Heap) (x len z zlen zlength parallel : Nat)
    (yCopy : Bool) : Option Heap :=
  if yCopy then
    let h1 := calloc h (len + OFF)
    let y := h.brk
    let h2 : Heap := ⟨memcpy h1.mem y x (len + OFF), h1.brk⟩
    karatsuba fuel h2 x OFF y OFF z OFF zlen zlength 0 len parallel
  else
    karatsuba fuel h x OFF x OFF z OFF zlen zlength 0 len parallel

/-- Function `mulAdd` (lines 327-338): returns the memory and the carry word. -/
def mulAdd (m : Mem) (x from_ to_ mul z zoff : Nat) : Mem × Nat :=
  let tLong := mul % 2 ^ 32
  let r := mulAccLoop tLong (to_ - from_) m (x + from_) (z + zoff) 0
  (r.1, r.2 % 2 ^ 32)

/-- The ripple loop of `addOne` (lines 351-358): `n` is the remaining value of
`mlen`, `p` the current `xoff`. -/
def addOneLoop (x xlen : Nat) : Nat → Mem → Nat → Mem × Nat
  | 0, m, _ => (m, 1)
  | n + 1, m, p =>
    if p + 1 = xlen then (m, 1)
    else
      let m1 := wr m (x + (p + 1)) (rd m (x + (p + 1)) + 1)
      if rd m1 (x + (p + 1)) ≠ 0 then (m1, 0) else addOneLoop x xlen n m1 (p + 1)

/-- Function `addOne` (lines 343-361): returns the memory and the carry out. -/
def addOne (m : Mem) (x xoff xlen mlen carry : Nat) : Mem × Nat :=
  let p := xoff + mlen
  let t := (rd m (x + p) + carry % 2 ^ 32) % 2 ^ 64
  let m1 := wr m (x + p) t
  if t / 2 ^ 32 = 0 then (m1, 0) else addOneLoop x xlen mlen m1 p

/-- The loop of `primitiveLeftShift` (lines 315-319): `cnt` iterations remain,
`e` is the current value of `end` and `c` the word last read. -/
def shiftLoop (a n n2 : Nat) : Nat → Mem → Nat → Nat → Mem
  | 0, m, _, _ => m
  | cnt + 1, m, e, c =>
    let i := (c * 2 ^ n) % 2 ^ 32
    let c1 := rd m (a + (e - 1))
    shiftLoop a n n2 cnt (wr m (a + e) (i ||| (c1 / 2 ^ n2))) (e - 1) c1

/-- Function `primitiveLeftShift` (lines 309-322). -/
def primitiveLeftShift (m : Mem) (a start end_ n : Nat) : Mem :=
  if end_ ≤ start ∨ n = 0 then m
  else
    let n2 := 32 - n
    let e := end_ - 1
    let c := rd m (a + e)
    let m1 := shiftLoop a n n2 (e - start) m e c
    wr m1 (a + start) (rd m1 (a + start) * 2 ^ n)

/-- First loop of `squareToLen` (lines 288-294): `cnt` words remain, the next
one is `x[i]`, `j` is the output index and `x0` the previous product. -/
def sqDiag (x z : Nat) : Nat → Mem → Nat → Nat → Nat → Mem
  | 0, m, _, _, _ => m
  | cnt + 1, m, i, j, x0 =>
    let k := ((x0 % 2 ^ 32) * 2 ^ 31) % 2 ^ 32
    let w := rd m (x + i)
    let p := (w * w) % 2 ^ 64
    let m1 := wr m (z + (j - 1)) (k ||| (p / 2 ^ 33))
    let m2 := wr m1 (z + (j - 2)) (p / 2)
    sqDiag x z cnt m2 (i - 1) (j - 2) p

/-- Second loop of `squareToLen` (lines 297-301): `cnt` iterations remain;
`xend` and `zend` are `xlen` and `zlen` after lines 284-285. -/
def sqOff (x z xend zend : Nat) : Nat → Mem → Nat → Nat → Nat → Mem
  | 0, m, _, _, _ => m
  | cnt + 1, m, i, j, off =>
    let k := m (x + i)
    let r := mulAdd m x (i + 1) xend k z (off + 1)
    let s := addOne r.1 z off zend j r.2
    sqOff x z xend zend cnt s.1 (i + 1) (j - 1) (off + 2)

/-- Function `squareToLen` (lines 280-306). -/
def squareToLen (m : Mem) (x xoff xlen z zoff zlen : Nat) : Mem :=
  let xend := xlen + xoff
  let zend := zlen + zoff
  let m1 := sqDiag x z (xend - xoff) m (xend - 1) zend 0
  let m2 := sqOff x z xend zend (xend - xoff) m1 xoff (xend - xoff) zoff
  let m3 := primitiveLeftShift m2 z zoff zend 1
  wr m3 (z + zoff) (rd m3 (z + zoff) ||| (rd m3 (x + xoff) &&& 1))

/-- Generic form of the row loops of `nativeMulQuad`, `nativeMulQuadInline` and the
`karatsuba` base case: `n` rows, the next multiplier word at address `xa`, the
multiplicand at `src`, the current output window at `dst`. -/
def rowsG (src len : Nat) : Nat → Mem → Nat → Nat → Mem
  | 0, m, _, _ => m
  | n + 1, m, xa, dst =>
    let x0 := rd m xa
    let r := mulAccLoop x0 len m src dst 0
    rowsG src len n (wr r.1 (dst + len) r.2) (xa + 1) (dst + 1)

/-- Sum of the squares of `n` words, word `t` weighted by `2 ^ (64 * t)`. -/
def sqsum (m : Mem) (a : Nat) : Nat → Nat
  | 0 => 0
  | n + 1 => sqsum m a n + 2 ^ (64 * n) * (rd m (a + n) * rd m (a + n))

/-- Sum of the cross products `w_s * w_u * 2 ^ (32 * (s + u))`, `s < u < n`. -/
def crossW (m : Mem) (a : Nat) : Nat → Nat
  | 0 => 0
  | n + 1 => 2 ^ 32 * (rd m a * value m (a + 1) n) + 2 ^ 64 * crossW m (a + 1) n

/-- The combination step up to the final ripple (lines 217-233): the memory and the
signed residual `x0` after the `memcpy` and the three accumulation loops. -/
def kloops (m : Mem) (z zoff tmp tmpoff len b r : Nat) : Mem × Int :=
  let b2 := b * 2
  let ll := len * 2
  let l_b2 := (len - b) * 2
  let tmpoffl_b2 := tmpoff + l_b2
  let tmpoffrr := tmpoff + r * 2
  let tmpoffbb := tmpoff + b2
  let tmpoffrrbb := tmpoffrr + b2
  let m3 := memcpy m (z + zoff) (tmp + tmpoffrr) ll
  let cA := combA b2 m3 0 (z + (zoff + b)) (tmp + tmpoff) (tmp + tmpoffrrbb) (tmp + tmpoffrr)
  let nB := tmpoffl_b2 - tmpoffbb
  let cB := combB nB cA.1 cA.2 (z + (zoff + b + b2)) (tmp + tmpoffbb) (tmp + (tmpoffrrbb + b2))
  let nC := (tmpoffrr - 1) - (tmpoffbb + nB)
  combC nC cB.1 cB.2 (z + (zoff + b + b2 + nB)) (tmp + (tmpoffbb + nB))

/-- Specification of `karatsuba` on operands that hold the same words, with the
scratch arena allocated (not carved out of `z`). -/
def KSq (fuel : Nat) : Prop :=
  ∀ (h : Heap) (x xoff y yoff z zoff zlen zlength off len parallel : Nat),
    1 ≤ len → len * 2 ≤ fuel →
    (parallel = 0 → 32 < len →
      zlength < zoff + zlen + (len * 2 + (len - len / 2) * 2 + 2 + (len - len / 2) * 2) + 1) →
    (x + (xoff + off) + len ≤ z + zoff ∨ z + zoff + len * 2 ≤ x + (xoff + off)) →
    (y + (yoff + off) + len ≤ z + zoff ∨ z + zoff + len * 2 ≤ y + (yoff + off)) →
    x + (xoff + off) + len ≤ h.brk → y + (yoff + off) + len ≤ h.brk →
    z + zoff + len * 2 ≤ h.brk →
    (∀ t, t < len → rd h.mem (x + (xoff + off) + t) = rd h.mem (y + (yoff + off) + t)) →
    ∃ h', karatsuba fuel h x xoff y yoff z zoff zlen zlength off len parallel = some h'
      ∧ value h'.mem (z + zoff) (len * 2)
          = value h.mem (x + (xoff + off)) len * value h.mem (y + (yoff + off)) len
      ∧ (∀ a, a < h.brk → (a < z + zoff ∨ z + zoff + len * 2 ≤ a) → h'.mem a = h.mem a)
      ∧ h.brk ≤ h'.brk

/-- Word `t` of the range ending at `end_`, shifted right by `n` bits: the low bits
come from the word itself, the high bits from the next higher word of the range. -/
def shiftRightWord (m : Mem) (a end_ n t : Nat) : Nat :=
  rd m (a + t) / 2 ^ n + (if t + 1 < end_ then rd m (a + (t + 1)) % 2 ^ n * 2 ^ (32 - n) else 0)

/-- Operands `x = [1, 0]` at base 0 and `y = [0xFFFFFFFF]` at base 10 (both 1-based),
every other cell, the output buffer at base 20 included, holds 7. -/
def memC1 : Mem := fun a =>
  if a = 1 then 1 else if a = 2 then 0 else if a = 11 then 4294967295 else 7

/-- The operand `x = [0xFFFFFFFF]` at address 1; every other cell holds 5. -/
def memC3 : Mem := fun a => if a = 1 then 4294967295 else 5

/-- Forty words `0xFFFFFFFF` at addresses 1..40 (the operand of a squaring, `OFF = 1`). -/
def memC4 : Mem := fun a => if 1 ≤ a ∧ a ≤ 40 then 4294967295 else 0

/-- Words `x = [3, 4]` at addresses 0, 1 and `z = [5, 0xFFFFFFFF]` at 10, 11. -/
def memC7 : Mem := fun a =>
  if a = 0 then 3 else if a = 1 then 4 else if a = 10 then 5 else if a = 11 then 4294967295 else 0

/-- The two-word number `[0xFFFFFFFF, 0]` at addresses 0, 1. -/
def memC8 : Mem := fun a => if a = 0 then 4294967295 else 0

/-- The two-word number `[0xFFFFFFFF, 0xFFFFFFFF, 7]` at addresses 0, 1, 2. -/
def memC8w : Mem := fun a => if a = 0 then 4294967295 else if a = 1 then 4294967295 else 7

/-- The two words `[0x80000001, 3]` at addresses 0, 1; every other cell holds 9. -/
def memC9 : Mem := fun a => if a = 0 then 2147483649 else if a = 1 then 3 else 9

/-- Operands `x = [3, 5]` at 1, 2 and `y = [7, 0xFFFFFFFF]` at 11, 12. -/
def memC10 : Mem := fun a =>
  if a = 1 then 3 else if a = 2 then 5 else if a = 11 then 7 else if a = 12 then 4294967295 else 0

/-- Operands of 34 words: `x = 1` at base 0, `y` at base 100 with `y[16] = 1` and
`y[33] = 0xFFFFFFFF`; all other cells are zero. -/
def memK34 : Mem := fun a =>
  if a = 0 then 1 else if a = 116 then 1 else if a = 133 then 4294967295 else 0

/-- All-zero operands; two stale words `1` in the tail of the output buffer at base 200
(cells 389 and 407). -/
def memDirty : Mem := fun a => if a = 389 then 1 else if a = 407 then 1 else 0

/-- Words `x = [0xFFFFFFFF, 0xFFFFFFFF]` at addresses 0, 1 and
`z = [0xFFFFFFFF, 0xFFFFFFFF, 5]` at addresses 10, 11, 12. -/
def memC12 : Mem := fun a =>
  if a = 0 then 4294967295 else if a = 1 then 4294967295 else
  if a = 10 then 4294967295 else if a = 11 then 4294967295 else if a = 12 then 5 else 0

/-- Operands `x = [3, 5]` at addresses 1, 2 and `y = [7, 0xFFFFFFFF]` at 11, 12;
every other cell holds 9. -/
def memC13 : Mem := fun a =>
  if a = 1 then 3 else if a = 2 then 5 else if a = 11 then 7 else if a = 12 then 4294967295 else 9

/-- The memory of `squareToLen` when line 304 is reached: after the diagonal pass
(lines 288-294) and the off-diagonal sweeps (lines 297-301). -/
def squareSweeps (m : Mem) (x xoff xlen z zoff zlen : Nat) : Mem :=
  let xend := xlen + xoff
  let zend := zlen + zoff
  let m1 := sqDiag x z (xend - xoff) m (xend - 1) zend 0
  sqOff x z xend zend (xend - xoff) m1 xoff (xend - xoff) zoff

/-- The second loop of `squareToLen` (lines 297-301) with the values returned by
its calls of `addOne`, which the code discards, collected in call order. -/
def sqOffRets (x z xend zend : Nat) : Nat → Mem → Nat → Nat → Nat → List Nat
  | 0, _, _, _, _ => []
  | cnt + 1, m, i, j, off =>
    let k := m (x + i)
    let r := mulAdd m x (i + 1) xend k z (off + 1)
    let s := addOne r.1 z off zend j r.2
    s.2 :: sqOffRets x z xend zend cnt s.1 (i + 1) (j - 1) (off + 2)

/-- The values returned by the calls `addOne(z, off, zlen, j, k)` of `squareToLen`,
in call order (lines 284-301). -/
def squareToLenCarries (m : Mem) (x xoff xlen z zoff zlen : Nat) : List Nat :=
  let xend := xlen + xoff
  let zend := zlen + zoff
  let m1 := sqDiag x z (xend - xoff) m (xend - 1) zend 0
  sqOffRets x z xend zend (xend - xoff) m1 xoff (xend - xoff) zoff

/-- The operand `x = [0xFFFFFFFF, 0xFFFFFFFF]` at addresses 1, 2; every other cell
holds 5. -/
def memC16 : Mem := fun a => if a = 1 then 4294967295 else if a = 2 then 4294967295 else 5

/-- Line 186: the length `r` chosen for the middle multiply, read off the sums in
the arena (`tmp[y2offl_b]` with `y2offl_b = x2offl_b2 + l_b`, and `tmp[y2offl_b2]`). -/
def middleLen (m2 : Mem) (tmp x2offl_b2 y2offl_b2 l_b : Nat) : Nat :=
  l_b + (if rd m2 (tmp + (x2offl_b2 + l_b)) ≠ 0 ∨ rd m2 (tmp + y2offl_b2) ≠ 0 then 1 else 0)

/-- The memory after the two operand sums (lines 159-182) of the top-level call of
`karatsuba` on `memK34` (`len = 34`, `b = 17`, operands at 0 and 100, freshly
allocated arena). -/
def sumsK34 : Mem :=
  let ar := arena ⟨memK34, 400⟩ 200 0 68 68 34 0
  ksum (ksum ar.heap.mem 34 17 (ar.tmp + ar.x2offl_b2) (0 + (0 + 0))) 34 17
    (ar.tmp + (ar.x2offl_b2 + 17 + 1)) (100 + (0 + 0))

/-- A scratch arena at address 100 for `len = 33`, `b = 16`, `r = 17`, holding
`m = 4` in its first word, `p0 = 1` at offset `2r = 34` and `p1 = 1` at offset
`2r + 2b = 66`: the three products for `x_low = x_high = y_low = y_high = 1`. -/
def memC15 : Mem := fun a => if a = 100 then 4 else if a = 134 then 1 else if a = 166 then 1 else 0

/-- A memory with finitely many non-zero cells: every cell from some address on
holds 0. -/
def FiniteMem (m : Mem) : Prop := ∃ N, ∀ a, N ≤ a → m a = 0

theorem rd_lt (m : Mem) (a : Nat) : rd m a < 2 ^ 32 := by
  unfold rd; exact Nat.mod_lt _ (by norm_num)

theorem rd_wr_same (m : Mem) (a v : Nat) : rd (wr m a v) a = v % 2 ^ 32 := by
  simp [rd, wr]

theorem wr_other (m : Mem) (a v b : Nat) (h : b ≠ a) : wr m a v b = m b := by
  simp [wr, h]

theorem rd_wr_other (m : Mem) (a v b : Nat) (h : b ≠ a) : rd (wr m a v) b = rd m b := by
  simp [rd, wr, h]

theorem rd_of_eq (m m' : Mem) (a b : Nat) (h : m' b = m a) : rd m' b = rd m a := by
  unfold rd; rw [h]

theorem value_zero (m : Mem) (a : Nat) : value m a 0 = 0 := rfl

theorem value_succ (m : Mem) (a n : Nat) :
    value m a (n + 1) = rd m a + 2 ^ 32 * value m (a + 1) n := rfl

/-- Values of equal word ranges are equal. -/
theorem value_congr (m m' : Mem) (a a' : Nat) :
    ∀ n, (∀ i, i < n → rd m' (a' + i) = rd m (a + i)) → value m' a' n = value m a n := by
  intro n
  induction n generalizing a a' with
  | zero => intro _; rfl
  | succ n ih =>
    intro h
    rw [value_succ, value_succ, ih (a + 1) (a' + 1), (by simpa using h 0 (Nat.succ_pos n) : rd m' a' = rd m a)]
    intro i hi
    have := h (i + 1) (by omega)
    rw [show a' + 1 + i = a' + (i + 1) by omega, show a + 1 + i = a + (i + 1) by omega]
    exact this

theorem value_frame (m m' : Mem) (a n : Nat) (h : ∀ b, a ≤ b → b < a + n → m' b = m b) :
    value m' a n = value m a n := by
  apply value_congr
  intro i hi
  unfold rd
  rw [h (a + i) (by omega) (by omega)]

theorem value_lt (m : Mem) (a : Nat) : ∀ n, value m a n < 2 ^ (32 * n) := by
  intro n
  induction n generalizing a with
  | zero => simp [value]
  | succ n ih =>
    rw [value_succ]
    have h1 := rd_lt m a
    have h2 := ih (a + 1)
    have h3 : (2:ℕ) ^ (32 * (n + 1)) = 2 ^ 32 * 2 ^ (32 * n) := by
      rw [← pow_add]; congr 1; ring
    rw [h3]
    have : 2 ^ 32 * (value m (a + 1) n + 1) ≤ 2 ^ 32 * 2 ^ (32 * n) := Nat.mul_le_mul_left _ h2
    omega

/-- Splitting a value into a low and a high part. -/
theorem value_split (m : Mem) (a p q : Nat) :
    value m a (p + q) = value m a p + 2 ^ (32 * p) * value m (a + p) q := by
  induction p generalizing a with
  | zero => simp [value]
  | succ p ih =>
    rw [show p + 1 + q = (p + q) + 1 by omega, value_succ, value_succ, ih (a + 1)]
    rw [show a + 1 + p = a + (p + 1) by omega]
    have h3 : (2:ℕ) ^ (32 * (p + 1)) = 2 ^ 32 * 2 ^ (32 * p) := by
      rw [← pow_add]; congr 1; ring
    rw [h3]; ring

theorem value_one (m : Mem) (a : Nat) : value m a 1 = rd m a := by
  simp [value]

/-- Appending one high word. -/
theorem value_snoc (m : Mem) (a n : Nat) :
    value m a (n + 1) = value m a n + 2 ^ (32 * n) * rd m (a + n) := by
  rw [value_split, value_one]

/-- Words are determined by the value. -/
theorem value_inj (m m' : Mem) (a a' : Nat) :
    ∀ n, value m' a' n = value m a n → ∀ i, i < n → rd m' (a' + i) = rd m (a + i) := by
  intro n
  induction n generalizing a a' with
  | zero => intro _ i hi; omega
  | succ n ih =>
    intro h i hi
    rw [value_succ, value_succ] at h
    have h1 := rd_lt m a
    have h2 := rd_lt m' a'
    have e1 : rd m' a' = rd m a := by omega
    have e2 : value m' (a' + 1) n = value m (a + 1) n := by omega
    cases i with
    | zero => simpa using e1
    | succ i =>
      have := ih (a + 1) (a' + 1) e2 i (by omega)
      rw [show a' + (i + 1) = a' + 1 + i by omega, show a + (i + 1) = a + 1 + i by omega]
      exact this

theorem pow_succ32 (n : Nat) : (2:ℕ) ^ (32 * (n + 1)) = 2 ^ 32 * 2 ^ (32 * n) := by
  rw [← pow_add]; congr 1; ring

/-- A 32x32-bit product plus two words fits in 64 bits. -/
theorem mac_lt (c a b z : Nat) (hc : c < 2 ^ 32) (ha : a < 2 ^ 32) (hb : b < 2 ^ 32)
    (hz : z < 2 ^ 32) : c + a * b + z < 2 ^ 64 := by
  have h : a * b ≤ (2 ^ 32 - 1) * (2 ^ 32 - 1) := Nat.mul_le_mul (by omega) (by omega)
  norm_num at h hc ha hb hz ⊢
  omega

theorem mulAccLoop_spec (x0 : Nat) (hx0 : x0 < 2 ^ 32) :
    ∀ n (m : Mem) (src dst carry : Nat), carry < 2 ^ 32 → (src + n ≤ dst ∨ dst + n ≤ src) →
      value (mulAccLoop x0 n m src dst carry).1 dst n
          + (mulAccLoop x0 n m src dst carry).2 * 2 ^ (32 * n)
        = value m dst n + x0 * value m src n + carry
      ∧ (mulAccLoop x0 n m src dst carry).2 < 2 ^ 32
      ∧ ∀ a, (a < dst ∨ dst + n ≤ a) → (mulAccLoop x0 n m src dst carry).1 a = m a := by
  intro n
  induction n with
  | zero =>
    intro m src dst carry hc _
    simpa [mulAccLoop, value] using hc
  | succ n ih =>
    intro m src dst carry hc hd
    have hs := rd_lt m src
    have hz := rd_lt m dst
    have hlt := mac_lt carry x0 (rd m src) (rd m dst) hc hx0 hs hz
    have ht : (carry + x0 * rd m src + rd m dst) % 2 ^ 64 = carry + x0 * rd m src + rd m dst :=
      Nat.mod_eq_of_lt hlt
    simp only [mulAccLoop, ht]
    set t := carry + x0 * rd m src + rd m dst with htdef
    have hq : t / 2 ^ 32 < 2 ^ 32 := by
      rw [Nat.div_lt_iff_lt_mul (by norm_num)]
      calc t < 2 ^ 64 := hlt
        _ = 2 ^ 32 * 2 ^ 32 := by norm_num
    obtain ⟨e, hcar, hfr⟩ := ih (wr m dst t) (src + 1) (dst + 1) (t / 2 ^ 32) hq (by omega)
    refine ⟨?_, hcar, ?_⟩
    · rw [value_succ, value_succ, value_succ, pow_succ32]
      have f1 : rd (mulAccLoop x0 n (wr m dst t) (src + 1) (dst + 1) (t / 2 ^ 32)).1 dst = t % 2 ^ 32 := by
        unfold rd
        rw [hfr dst (by omega)]
        simp [wr]
      have f2 : value (wr m dst t) (dst + 1) n = value m (dst + 1) n :=
        value_frame _ _ _ _ (fun b hb1 hb2 => wr_other m dst t b (by omega))
      have f3 : value (wr m dst t) (src + 1) n = value m (src + 1) n :=
        value_frame _ _ _ _ (fun b hb1 hb2 => wr_other m dst t b (by omega))
      rw [f2, f3] at e
      rw [f1]
      have hdm := Nat.mod_add_div t (2 ^ 32)
      generalize value (mulAccLoop x0 n (wr m dst t) (src + 1) (dst + 1) (t / 2 ^ 32)).1 (dst + 1) n = V at e ⊢
      generalize (mulAccLoop x0 n (wr m dst t) (src + 1) (dst + 1) (t / 2 ^ 32)).2 = C at e ⊢
      generalize value m (dst + 1) n = Z at e ⊢
      generalize value m (src + 1) n = S at e ⊢
      generalize t / 2 ^ 32 = q at e hdm ⊢
      generalize t % 2 ^ 32 = s at hdm ⊢
      rw [htdef] at hdm
      generalize (2:ℕ) ^ (32 * n) = P at e ⊢
      zify at e hdm ⊢
      linear_combination (2 ^ 32 : ℤ) * e + hdm
    · intro a ha
      rw [hfr a (by omega)]
      exact wr_other m dst t a (by omega)

theorem mulLoop_spec (x0 : Nat) (hx0 : x0 < 2 ^ 32) :
    ∀ n (m : Mem) (src dst carry : Nat), carry < 2 ^ 32 → (src + n ≤ dst ∨ dst + n ≤ src) →
      value (mulLoop x0 n m src dst carry).1 dst n
          + (mulLoop x0 n m src dst carry).2 * 2 ^ (32 * n)
        = x0 * value m src n + carry
      ∧ (mulLoop x0 n m src dst carry).2 < 2 ^ 32
      ∧ ∀ a, (a < dst ∨ dst + n ≤ a) → (mulLoop x0 n m src dst carry).1 a = m a := by
  intro n
  induction n with
  | zero =>
    intro m src dst carry hc _
    simpa [mulLoop, value] using hc
  | succ n ih =>
    intro m src dst carry hc hd
    have hs := rd_lt m src
    have hlt := mac_lt carry x0 (rd m src) 0 hc hx0 hs (by norm_num)
    have ht : (carry + x0 * rd m src) % 2 ^ 64 = carry + x0 * rd m src :=
      Nat.mod_eq_of_lt (by omega)
    simp only [mulLoop, ht]
    set t := carry + x0 * rd m src with htdef
    have hq : t / 2 ^ 32 < 2 ^ 32 := by
      rw [Nat.div_lt_iff_lt_mul (by norm_num)]
      calc t < 2 ^ 64 := by omega
        _ = 2 ^ 32 * 2 ^ 32 := by norm_num
    obtain ⟨e, hcar, hfr⟩ := ih (wr m dst t) (src + 1) (dst + 1) (t / 2 ^ 32) hq (by omega)
    refine ⟨?_, hcar, ?_⟩
    · rw [value_succ, value_succ, pow_succ32]
      have f1 : rd (mulLoop x0 n (wr m dst t) (src + 1) (dst + 1) (t / 2 ^ 32)).1 dst = t % 2 ^ 32 := by
        unfold rd
        rw [hfr dst (by omega)]
        simp [wr]
      have f3 : value (wr m dst t) (src + 1) n = value m (src + 1) n :=
        value_frame _ _ _ _ (fun b hb1 hb2 => wr_other m dst t b (by omega))
      rw [f3] at e
      rw [f1]
      have hdm := Nat.mod_add_div t (2 ^ 32)
      generalize value (mulLoop x0 n (wr m dst t) (src + 1) (dst + 1) (t / 2 ^ 32)).1 (dst + 1) n = V at e ⊢
      generalize (mulLoop x0 n (wr m dst t) (src + 1) (dst + 1) (t / 2 ^ 32)).2 = C at e ⊢
      generalize value m (src + 1) n = S at e ⊢
      generalize t / 2 ^ 32 = q at e hdm ⊢
      generalize t % 2 ^ 32 = s at hdm ⊢
      rw [htdef] at hdm
      generalize (2:ℕ) ^ (32 * n) = P at e ⊢
      zify at e hdm ⊢
      linear_combination (2 ^ 32 : ℤ) * e + hdm
    · intro a ha
      rw [hfr a (by omega)]
      exact wr_other m dst t a (by omega)

theorem quadRows_eq (x y z ylen : Nat) :
    ∀ n m i, quadRows x y z ylen n m i = rowsG (y + 1) ylen n m (x + i) (z + i) := by
  intro n
  induction n with
  | zero => intro m i; rfl
  | succ n ih =>
    intro m i
    simp only [quadRows, rowsG, ih]
    rw [show z + (i + ylen) = z + i + ylen by omega, show x + (i + 1) = x + i + 1 by omega,
      show z + (i + 1) = z + i + 1 by omega]

theorem inlineRows_eq (x y ylen zl : Nat) :
    ∀ n m i, inlineRows x y ylen zl n m i = rowsG (y + zl) ylen n m (x + i) (y + i) := by
  intro n
  induction n with
  | zero => intro m i; rfl
  | succ n ih =>
    intro m i
    simp only [inlineRows, rowsG, ih]
    rw [show y + (i + ylen) = y + i + ylen by omega, show x + (i + 1) = x + i + 1 by omega,
      show y + (i + 1) = y + i + 1 by omega]

theorem kbaseRows_eq (x y z yoffoff len : Nat) :
    ∀ n m i mm, kbaseRows x y z yoffoff len n m i (mm + len) mm
      = rowsG (y + yoffoff) len n m (x + i) (z + mm) := by
  intro n
  induction n with
  | zero => intro m i mm; rfl
  | succ n ih =>
    intro m i mm
    simp only [kbaseRows, rowsG]
    rw [show mm + len + 1 = mm + 1 + len by omega, ih]
    rw [show z + (mm + len) = z + mm + len by omega, show x + (i + 1) = x + i + 1 by omega,
      show z + (mm + 1) = z + mm + 1 by omega]

/-- One accumulating row: multiply-accumulate then store the carry word. -/
theorem row_step (x0 : Nat) (hx0 : x0 < 2 ^ 32) (len : Nat) (m : Mem) (src dst : Nat)
    (hd : src + len ≤ dst ∨ dst + len + 1 ≤ src) :
    value (wr (mulAccLoop x0 len m src dst 0).1 (dst + len) (mulAccLoop x0 len m src dst 0).2)
        dst (len + 1) = value m dst len + x0 * value m src len
    ∧ ∀ a, (a < dst ∨ dst + len + 1 ≤ a) →
        wr (mulAccLoop x0 len m src dst 0).1 (dst + len) (mulAccLoop x0 len m src dst 0).2 a = m a := by
  obtain ⟨e, hc, hfr⟩ := mulAccLoop_spec x0 hx0 len m src dst 0 (by norm_num) (by omega)
  constructor
  · rw [value_snoc, rd_wr_same, Nat.mod_eq_of_lt hc]
    rw [value_frame (mulAccLoop x0 len m src dst 0).1 _ dst len
      (fun b hb1 hb2 => wr_other _ _ _ b (by omega))]
    simp only [Nat.add_zero] at e
    rw [← e]; ring
  · intro a ha
    rw [wr_other _ _ _ a (by omega)]
    exact hfr a (by omega)

/-- The first row: multiply then store the carry word. -/
theorem first_row (x0 : Nat) (hx0 : x0 < 2 ^ 32) (len : Nat) (m : Mem) (src dst : Nat)
    (hd : src + len ≤ dst ∨ dst + len + 1 ≤ src) :
    value (wr (mulLoop x0 len m src dst 0).1 (dst + len) (mulLoop x0 len m src dst 0).2)
        dst (len + 1) = x0 * value m src len
    ∧ ∀ a, (a < dst ∨ dst + len + 1 ≤ a) →
        wr (mulLoop x0 len m src dst 0).1 (dst + len) (mulLoop x0 len m src dst 0).2 a = m a := by
  obtain ⟨e, hc, hfr⟩ := mulLoop_spec x0 hx0 len m src dst 0 (by norm_num) (by omega)
  constructor
  · rw [value_snoc, rd_wr_same, Nat.mod_eq_of_lt hc]
    rw [value_frame (mulLoop x0 len m src dst 0).1 _ dst len
      (fun b hb1 hb2 => wr_other _ _ _ b (by omega))]
    simp only [Nat.add_zero] at e
    rw [← e]; ring
  · intro a ha
    rw [wr_other _ _ _ a (by omega)]
    exact hfr a (by omega)

/-- The row loop adds `value x * value y`, shifted by the `k` rows already done. -/
theorem rowsG_spec (src len zb : Nat) :
    ∀ n (m : Mem) (xa k : Nat),
      (xa + n ≤ zb + k ∨ zb + k + n + len ≤ xa) →
      (src + len ≤ zb + k ∨ zb + k + n + len ≤ src) →
      value (rowsG src len n m xa (zb + k)) zb (k + n + len)
        = value m zb (k + len) + 2 ^ (32 * k) * (value m xa n * value m src len)
      ∧ ∀ a, (a < zb + k ∨ zb + k + n + len ≤ a) → rowsG src len n m xa (zb + k) a = m a := by
  intro n
  induction n with
  | zero =>
    intro m xa k _ _
    simp [rowsG, value]
  | succ n ih =>
    intro m xa k hx hs
    simp only [rowsG]
    obtain ⟨e1, f1⟩ := row_step (rd m xa) (rd_lt m xa) len m src (zb + k) (by omega)
    generalize wr (mulAccLoop (rd m xa) len m src (zb + k) 0).1 (zb + k + len)
      (mulAccLoop (rd m xa) len m src (zb + k) 0).2 = m1 at e1 f1
    obtain ⟨e2, f2⟩ := ih m1 (xa + 1) (k + 1) (by omega) (by omega)
    rw [show zb + (k + 1) = zb + k + 1 by omega] at e2 f2
    constructor
    · rw [show k + (n + 1) + len = k + 1 + n + len by omega, e2]
      have g1 : value m1 (xa + 1) n = value m (xa + 1) n :=
        value_frame _ _ _ _ (fun b hb1 hb2 => f1 b (by omega))
      have g2 : value m1 src len = value m src len :=
        value_frame _ _ _ _ (fun b hb1 hb2 => f1 b (by omega))
      have g3 : value m1 zb k = value m zb k :=
        value_frame _ _ _ _ (fun b hb1 hb2 => f1 b (by omega))
      rw [g1, g2, show k + 1 + len = k + (len + 1) by omega, value_split m1 zb k (len + 1), e1, g3,
        value_split m zb k len, value_succ m xa n, pow_succ32]
      ring
    · intro a ha
      rw [f2 a (by omega)]
      exact f1 a (by omega)

theorem mulAdd_spec (m : Mem) (x from_ to_ mul z zoff : Nat)
    (hd : x + from_ + (to_ - from_) ≤ z + zoff ∨ z + zoff + (to_ - from_) ≤ x + from_) :
    value (mulAdd m x from_ to_ mul z zoff).1 (z + zoff) (to_ - from_)
        + (mulAdd m x from_ to_ mul z zoff).2 * 2 ^ (32 * (to_ - from_))
      = value m (z + zoff) (to_ - from_) + value m (x + from_) (to_ - from_) * (mul % 2 ^ 32)
    ∧ (mulAdd m x from_ to_ mul z zoff).2 < 2 ^ 32
    ∧ ∀ a, (a < z + zoff ∨ z + zoff + (to_ - from_) ≤ a) →
        (mulAdd m x from_ to_ mul z zoff).1 a = m a := by
  have hmul : mul % 2 ^ 32 < 2 ^ 32 := Nat.mod_lt _ (by norm_num)
  obtain ⟨e, hc, hfr⟩ := mulAccLoop_spec (mul % 2 ^ 32) hmul (to_ - from_) m (x + from_)
    (z + zoff) 0 (by norm_num) hd
  simp only [mulAdd]
  rw [Nat.mod_eq_of_lt hc]
  refine ⟨?_, hc, hfr⟩
  rw [e]; ring

theorem nativeMulQuad_spec (m : Mem) (x xlen y ylen z : Nat) (hxlen : 1 ≤ xlen)
    (hx : x + xlen < z + 1 ∨ z + xlen + ylen < x + 1)
    (hy : y + ylen < z + 1 ∨ z + xlen + ylen < y + 1) :
    value (nativeMulQuad m x xlen y ylen z) (z + 1) (xlen + ylen)
      = value m (x + 1) xlen * value m (y + 1) ylen
    ∧ ∀ a, (a < z + 1 ∨ z + 1 + xlen + ylen ≤ a) → nativeMulQuad m x xlen y ylen z a = m a := by
  obtain ⟨e1, f1⟩ := first_row (rd m (x + 1)) (rd_lt _ _) ylen m (y + 1) (z + 1) (by omega)
  simp only [nativeMulQuad, quadRows_eq]
  rw [show z + (ylen + 1) = z + 1 + ylen by omega]
  generalize wr (mulLoop (rd m (x + 1)) ylen m (y + 1) (z + 1) 0).1 (z + 1 + ylen)
    (mulLoop (rd m (x + 1)) ylen m (y + 1) (z + 1) 0).2 = m1 at e1 f1
  obtain ⟨e2, f2⟩ := rowsG_spec (y + 1) ylen (z + 1) (xlen - 1) m1 (x + 2) 1 (by omega) (by omega)
  rw [show z + 1 + 1 = z + 2 by omega] at e2 f2
  constructor
  · rw [show xlen + ylen = 1 + (xlen - 1) + ylen by omega, e2]
    have g1 : value m1 (x + 2) (xlen - 1) = value m (x + 2) (xlen - 1) :=
      value_frame _ _ _ _ (fun b hb1 hb2 => f1 b (by omega))
    have g2 : value m1 (y + 1) ylen = value m (y + 1) ylen :=
      value_frame _ _ _ _ (fun b hb1 hb2 => f1 b (by omega))
    rw [g1, g2, show 1 + ylen = ylen + 1 by omega, e1]
    obtain ⟨n, rfl⟩ : ∃ n, xlen = n + 1 := ⟨xlen - 1, by omega⟩
    rw [value_succ m (x + 1) n, show x + 1 + 1 = x + 2 by omega]
    simp only [Nat.add_sub_cancel]
    ring
  · intro a ha
    rw [f2 a (by omega)]
    exact f1 a (by omega)

theorem kbase_spec (m : Mem) (x xoffoff y yoffoff z zoff len : Nat) (hlen : 1 ≤ len)
    (hx : x + xoffoff + len ≤ z + zoff ∨ z + zoff + 2 * len ≤ x + xoffoff)
    (hy : y + yoffoff + len ≤ z + zoff ∨ z + zoff + 2 * len ≤ y + yoffoff) :
    value (kbase m x xoffoff y yoffoff z zoff len) (z + zoff) (2 * len)
      = value m (x + xoffoff) len * value m (y + yoffoff) len
    ∧ ∀ a, (a < z + zoff ∨ z + zoff + 2 * len ≤ a) →
        kbase m x xoffoff y yoffoff z zoff len a = m a := by
  obtain ⟨e1, f1⟩ := first_row (rd m (x + xoffoff)) (rd_lt _ _) len m (y + yoffoff) (z + zoff)
    (by omega)
  simp only [kbase]
  rw [show zoff + len + 1 = zoff + 1 + len by omega, kbaseRows_eq,
    show z + (zoff + len) = z + zoff + len by omega]
  generalize wr (mulLoop (rd m (x + xoffoff)) len m (y + yoffoff) (z + zoff) 0).1 (z + zoff + len)
    (mulLoop (rd m (x + xoffoff)) len m (y + yoffoff) (z + zoff) 0).2 = m1 at e1 f1
  obtain ⟨e2, f2⟩ := rowsG_spec (y + yoffoff) len (z + zoff) (len - 1) m1 (x + (xoffoff + 1)) 1
    (by omega) (by omega)
  rw [show z + zoff + 1 = z + (zoff + 1) by omega] at e2 f2
  constructor
  · rw [show 2 * len = 1 + (len - 1) + len by omega, e2]
    have g1 : value m1 (x + (xoffoff + 1)) (len - 1) = value m (x + (xoffoff + 1)) (len - 1) :=
      value_frame _ _ _ _ (fun b hb1 hb2 => f1 b (by omega))
    have g2 : value m1 (y + yoffoff) len = value m (y + yoffoff) len :=
      value_frame _ _ _ _ (fun b hb1 hb2 => f1 b (by omega))
    rw [g1, g2, show 1 + len = len + 1 by omega, e1]
    obtain ⟨n, rfl⟩ : ∃ n, len = n + 1 := ⟨len - 1, by omega⟩
    rw [value_succ m (x + xoffoff) n, show x + xoffoff + 1 = x + (xoffoff + 1) by omega]
    simp only [Nat.add_sub_cancel]
    ring
  · intro a ha
    rw [f2 a (by omega)]
    exact f1 a (by omega)

theorem inlineFirst_spec (x0 : Nat) (hx0 : x0 < 2 ^ 32) :
    ∀ n (m : Mem) (j k carry : Nat), carry < 2 ^ 32 → j + n ≤ k →
      value (inlineFirst x0 n m j k carry).1 j n + (inlineFirst x0 n m j k carry).2 * 2 ^ (32 * n)
        = x0 * value m j n + carry
      ∧ (inlineFirst x0 n m j k carry).2 < 2 ^ 32
      ∧ (∀ i, i < n → rd (inlineFirst x0 n m j k carry).1 (k + i) = rd m (j + i))
      ∧ ∀ a, (a < j ∨ j + n ≤ a) → (a < k ∨ k + n ≤ a) →
          (inlineFirst x0 n m j k carry).1 a = m a := by
  intro n
  induction n with
  | zero =>
    intro m j k carry hc _
    refine ⟨by simp [inlineFirst, value], by simpa [inlineFirst] using hc, ?_, ?_⟩
    · intro i hi; omega
    · intro a _ _; rfl
  | succ n ih =>
    intro m j k carry hc hjk
    have hs : m j % 2 ^ 32 < 2 ^ 32 := Nat.mod_lt _ (by norm_num)
    have hlt := mac_lt carry x0 (m j % 2 ^ 32) 0 hc hx0 hs (by norm_num)
    have ht : (carry + x0 * (m j % 2 ^ 32)) % 2 ^ 64 = carry + x0 * (m j % 2 ^ 32) :=
      Nat.mod_eq_of_lt (by omega)
    simp only [inlineFirst, ht]
    set t := carry + x0 * (m j % 2 ^ 32) with htdef
    have hq : t / 2 ^ 32 < 2 ^ 32 := by
      rw [Nat.div_lt_iff_lt_mul (by norm_num)]
      calc t < 2 ^ 64 := by omega
        _ = 2 ^ 32 * 2 ^ 32 := by norm_num
    set m1 := wr (wr m k (m j)) j t with hm1
    have hm1o : ∀ b, b ≠ j → b ≠ k → m1 b = m b := by
      intro b h1 h2
      rw [hm1, wr_other _ _ _ b h1, wr_other _ _ _ b h2]
    obtain ⟨e, hcar, hcp, hfr⟩ := ih m1 (j + 1) (k + 1) (t / 2 ^ 32) hq (by omega)
    refine ⟨?_, hcar, ?_, ?_⟩
    · rw [value_succ, value_succ, pow_succ32]
      have f1 : rd (inlineFirst x0 n m1 (j + 1) (k + 1) (t / 2 ^ 32)).1 j = t % 2 ^ 32 := by
        unfold rd
        rw [hfr j (by omega) (by omega), hm1]
        simp [wr]
      have f3 : value m1 (j + 1) n = value m (j + 1) n :=
        value_frame _ _ _ _ (fun b hb1 hb2 => hm1o b (by omega) (by omega))
      rw [f3] at e
      rw [f1]
      have hdm := Nat.mod_add_div t (2 ^ 32)
      generalize value (inlineFirst x0 n m1 (j + 1) (k + 1) (t / 2 ^ 32)).1 (j + 1) n = V at e ⊢
      generalize (inlineFirst x0 n m1 (j + 1) (k + 1) (t / 2 ^ 32)).2 = C at e ⊢
      generalize value m (j + 1) n = S at e ⊢
      generalize t / 2 ^ 32 = q at e hdm ⊢
      generalize t % 2 ^ 32 = s at hdm ⊢
      rw [htdef] at hdm
      unfold rd
      generalize (2:ℕ) ^ (32 * n) = P at e ⊢
      zify at e hdm ⊢
      linear_combination (2 ^ 32 : ℤ) * e + hdm
    · intro i hi
      cases i with
      | zero =>
        unfold rd
        simp only [Nat.add_zero]
        rw [hfr k (by omega) (by omega), hm1, wr_other _ _ _ k (by omega)]
        simp [wr]
      | succ i =>
        rw [show k + (i + 1) = k + 1 + i by omega, hcp i (by omega)]
        unfold rd
        rw [hm1o _ (by omega) (by omega), show j + 1 + i = j + (i + 1) by omega]
    · intro a ha1 ha2
      rw [hfr a (by omega) (by omega)]
      exact hm1o a (by omega) (by omega)

theorem nativeMulQuadInline_spec (m : Mem) (x xlen y ylen zlen : Nat) (hxlen : 1 ≤ xlen)
    (hz : xlen + ylen ≤ zlen)
    (hx : x + xlen < y ∨ y + zlen + ylen + 2 ≤ x + 1) :
    value (nativeMulQuadInline m x xlen y ylen zlen) (y + 1) (xlen + ylen)
      = value m (x + 1) xlen * value m (y + 1) ylen
    ∧ ∀ i, i < ylen → rd (nativeMulQuadInline m x xlen y ylen zlen) (y + zlen + 1 + i)
        = rd m (y + 1 + i) := by
  obtain ⟨e1, hc1, hcp1, hf1⟩ := inlineFirst_spec (rd m (x + 1)) (rd_lt _ _) ylen m (y + 1)
    (y + (zlen + 1)) 0 (by norm_num) (by omega)
  simp only [nativeMulQuadInline, inlineRows_eq]
  generalize inlineFirst (rd m (x + 1)) ylen m (y + 1) (y + (zlen + 1)) 0 = r at e1 hc1 hcp1 hf1
  set m2 := wr (wr r.1 (y + (zlen + 1 + ylen)) (r.1 (y + (ylen + 1)))) (y + (ylen + 1)) r.2
    with hm2
  have hm2o : ∀ b, b ≠ y + (ylen + 1) → b ≠ y + (zlen + 1 + ylen) → m2 b = r.1 b := by
    intro b h1 h2
    rw [hm2, wr_other _ _ _ b h1, wr_other _ _ _ b h2]
  have hcopy : ∀ i, i < ylen → rd m2 (y + (zlen + 1) + i) = rd m (y + 1 + i) := by
    intro i hi
    rw [← hcp1 i hi]
    unfold rd
    rw [hm2o _ (by omega) (by omega)]
  have hY : value m2 (y + (zlen + 1)) ylen = value m (y + 1) ylen :=
    value_congr _ _ _ _ _ hcopy
  have hX : value m2 (x + 2) (xlen - 1) = value m (x + 2) (xlen - 1) := by
    apply value_frame
    intro b hb1 hb2
    rw [hm2o b (by omega) (by omega)]
    exact hf1 b (by omega) (by omega)
  have hfirst : value m2 (y + 1) (ylen + 1) = rd m (x + 1) * value m (y + 1) ylen := by
    rw [value_snoc, hm2, show y + 1 + ylen = y + (ylen + 1) by omega, rd_wr_same,
      Nat.mod_eq_of_lt hc1]
    rw [value_frame r.1 _ (y + 1) ylen (fun b hb1 hb2 => by
      rw [wr_other _ _ _ b (by omega), wr_other _ _ _ b (by omega)])]
    simp only [Nat.add_zero] at e1
    rw [← e1]; ring
  obtain ⟨e2, f2⟩ := rowsG_spec (y + (zlen + 1)) ylen (y + 1) (xlen - 1) m2 (x + 2) 1
    (by omega) (by omega)
  rw [show y + 1 + 1 = y + 2 by omega] at e2 f2
  constructor
  · rw [show xlen + ylen = 1 + (xlen - 1) + ylen by omega, e2, hX, hY,
      show 1 + ylen = ylen + 1 by omega, hfirst]
    obtain ⟨n, rfl⟩ : ∃ n, xlen = n + 1 := ⟨xlen - 1, by omega⟩
    rw [value_succ m (x + 1) n, show x + 1 + 1 = x + 2 by omega]
    simp only [Nat.add_sub_cancel]
    ring
  · intro i hi
    unfold rd
    rw [f2 _ (by omega)]
    have := hcopy i hi
    unfold rd at this
    rw [show y + zlen + 1 + i = y + (zlen + 1) + i by omega]
    exact this

theorem addOneLoop_spec (x xlen : Nat) :
    ∀ n (m : Mem) (p c : Nat), p < xlen → c = min n (xlen - p - 1) →
      value (addOneLoop x xlen n m p).1 (x + (p + 1)) c + (addOneLoop x xlen n m p).2 * 2 ^ (32 * c)
        = value m (x + (p + 1)) c + 1
      ∧ (addOneLoop x xlen n m p).2 ≤ 1
      ∧ ∀ a, (a < x + (p + 1) ∨ x + (p + 1) + c ≤ a) → (addOneLoop x xlen n m p).1 a = m a := by
  intro n
  induction n with
  | zero =>
    intro m p c hp hc
    have : c = 0 := by omega
    subst this
    simp [addOneLoop, value]
  | succ n ih =>
    intro m p c hp hc
    simp only [addOneLoop]
    by_cases h1 : p + 1 = xlen
    · have : c = 0 := by omega
      subst this
      simp [h1, value]
    · rw [if_neg h1]
      obtain ⟨c', rfl⟩ : ∃ c', c = c' + 1 := ⟨c - 1, by omega⟩
      have hw := rd_lt m (x + (p + 1))
      set m1 := wr m (x + (p + 1)) (rd m (x + (p + 1)) + 1) with hm1
      have hrest : value m1 (x + (p + 1) + 1) c' = value m (x + (p + 1) + 1) c' :=
        value_frame _ _ _ _ (fun b hb1 hb2 => wr_other _ _ _ b (by omega))
      have hrd : rd m1 (x + (p + 1)) = (rd m (x + (p + 1)) + 1) % 2 ^ 32 := rd_wr_same _ _ _
      by_cases h2 : rd m1 (x + (p + 1)) ≠ 0
      · rw [if_pos h2]
        refine ⟨?_, by norm_num, ?_⟩
        · rw [value_succ, value_succ, hrest]
          have : rd m1 (x + (p + 1)) = rd m (x + (p + 1)) + 1 := by
            rw [hrd] at h2 ⊢
            omega
          rw [this]; ring
        · intro a ha
          exact wr_other _ _ _ a (by omega)
      · rw [if_neg h2]
        have h2' : rd m1 (x + (p + 1)) = 0 := by simpa using h2
        obtain ⟨e, hle, hfr⟩ := ih m1 (p + 1) c' (by omega) (by omega)
        refine ⟨?_, hle, ?_⟩
        · rw [value_succ, value_succ, pow_succ32]
          rw [show x + (p + 1) + 1 = x + (p + 1 + 1) by omega] at hrest ⊢
          rw [hrest] at e
          have f1 : rd (addOneLoop x xlen n m1 (p + 1)).1 (x + (p + 1)) = 0 := by
            unfold rd
            rw [hfr _ (by omega)]
            exact h2'
          have f2 : rd m (x + (p + 1)) = 2 ^ 32 - 1 := by
            rw [hrd] at h2'
            omega
          rw [f1, f2]
          generalize value (addOneLoop x xlen n m1 (p + 1)).1 (x + (p + 1 + 1)) c' = V at e ⊢
          generalize (addOneLoop x xlen n m1 (p + 1)).2 = C at e ⊢
          generalize value m (x + (p + 1 + 1)) c' = S at e ⊢
          generalize (2:ℕ) ^ (32 * c') = P at e ⊢
          norm_num
          zify at e ⊢
          linear_combination (4294967296 : ℤ) * e
        · intro a ha
          rw [hfr a (by omega)]
          exact wr_other _ _ _ a (by omega)

theorem addOne_spec (m : Mem) (x xoff xlen mlen carry w : Nat) (h : xoff + mlen < xlen)
    (hw : w = min (mlen + 1) (xlen - (xoff + mlen))) :
    value (addOne m x xoff xlen mlen carry).1 (x + (xoff + mlen)) w
        + (addOne m x xoff xlen mlen carry).2 * 2 ^ (32 * w)
      = value m (x + (xoff + mlen)) w + carry % 2 ^ 32
    ∧ (addOne m x xoff xlen mlen carry).2 ≤ 1
    ∧ ∀ a, (a < x + (xoff + mlen) ∨ x + (xoff + mlen) + w ≤ a) →
        (addOne m x xoff xlen mlen carry).1 a = m a := by
  obtain ⟨c, rfl⟩ : ∃ c, w = c + 1 := ⟨w - 1, by omega⟩
  have hr := rd_lt m (x + (xoff + mlen))
  have hcw : carry % 2 ^ 32 < 2 ^ 32 := Nat.mod_lt _ (by norm_num)
  have ht : (rd m (x + (xoff + mlen)) + carry % 2 ^ 32) % 2 ^ 64
      = rd m (x + (xoff + mlen)) + carry % 2 ^ 32 := Nat.mod_eq_of_lt (by omega)
  simp only [addOne, ht]
  set t := rd m (x + (xoff + mlen)) + carry % 2 ^ 32 with htdef
  set m1 := wr m (x + (xoff + mlen)) t with hm1
  have hrest : value m1 (x + (xoff + mlen) + 1) c = value m (x + (xoff + mlen) + 1) c :=
    value_frame _ _ _ _ (fun b hb1 hb2 => wr_other _ _ _ b (by omega))
  have hrd : rd m1 (x + (xoff + mlen)) = t % 2 ^ 32 := rd_wr_same _ _ _
  by_cases h1 : t / 2 ^ 32 = 0
  · rw [if_pos h1]
    refine ⟨?_, by norm_num, ?_⟩
    · rw [value_succ, value_succ, hrest, hrd]
      have : t % 2 ^ 32 = t := by omega
      rw [this, htdef]; ring
    · intro a ha
      exact wr_other _ _ _ a (by omega)
  · rw [if_neg h1]
    obtain ⟨e, hle, hfr⟩ := addOneLoop_spec x xlen mlen m1 (xoff + mlen) c h (by omega)
    refine ⟨?_, hle, ?_⟩
    · rw [value_succ, value_succ, pow_succ32]
      rw [show x + (xoff + mlen) + 1 = x + (xoff + mlen + 1) by omega] at hrest ⊢
      rw [hrest] at e
      have f1 : rd (addOneLoop x xlen mlen m1 (xoff + mlen)).1 (x + (xoff + mlen)) = t % 2 ^ 32 := by
        unfold rd
        rw [hfr _ (by omega)]
        exact hrd
      have f2 : t % 2 ^ 32 + 2 ^ 32 = t := by omega
      rw [f1]
      generalize value (addOneLoop x xlen mlen m1 (xoff + mlen)).1 (x + (xoff + mlen + 1)) c = V at e ⊢
      generalize (addOneLoop x xlen mlen m1 (xoff + mlen)).2 = C at e ⊢
      generalize value m (x + (xoff + mlen + 1)) c = S at e ⊢
      generalize (2:ℕ) ^ (32 * c) = P at e ⊢
      rw [htdef] at f2
      generalize t % 2 ^ 32 = s at f2 ⊢
      zify at e f2 ⊢
      linear_combination (4294967296 : ℤ) * e + f2
    · intro a ha
      rw [hfr a (by omega)]
      exact wr_other _ _ _ a (by omega)

/-- Shifting a word left by `n` bits: the low 32 bits and the bits shifted out. -/
theorem word_shift (w n : Nat) (hn : n ≤ 32) :
    w * 2 ^ n % 2 ^ 32 + 2 ^ 32 * (w / 2 ^ (32 - n)) = w * 2 ^ n := by
  have h32 : (2:ℕ) ^ 32 = 2 ^ (32 - n) * 2 ^ n := by
    rw [← pow_add]; congr 1; omega
  have hdiv : w * 2 ^ n / 2 ^ 32 = w / 2 ^ (32 - n) := by
    rw [h32]; exact Nat.mul_div_mul_right _ _ (by positivity)
  rw [← hdiv]
  exact Nat.mod_add_div _ _

/-- The `|` of a left-shifted word and the bits shifted out of the next lower word is a sum. -/
theorem shl_or (c q n : Nat) (hn : n ≤ 32) (hq : q < 2 ^ n) :
    ((c * 2 ^ n) % 2 ^ 32 ||| q) % 2 ^ 32 = (c * 2 ^ n) % 2 ^ 32 + q := by
  have h32 : (2:ℕ) ^ 32 = 2 ^ (32 - n) * 2 ^ n := by
    rw [← pow_add]; congr 1; omega
  have h1 : (c * 2 ^ n) % 2 ^ 32 = 2 ^ n * (c % 2 ^ (32 - n)) := by
    rw [h32, Nat.mul_mod_mul_right]; ring
  rw [h1, ← Nat.mul_add_lt_is_or hq]
  apply Nat.mod_eq_of_lt
  have h2 : c % 2 ^ (32 - n) < 2 ^ (32 - n) := Nat.mod_lt _ (by positivity)
  calc 2 ^ n * (c % 2 ^ (32 - n)) + q < 2 ^ n * (c % 2 ^ (32 - n)) + 2 ^ n := by omega
    _ = 2 ^ n * (c % 2 ^ (32 - n) + 1) := by ring
    _ ≤ 2 ^ n * 2 ^ (32 - n) := Nat.mul_le_mul_left _ h2
    _ = 2 ^ 32 := by rw [h32]; ring

theorem shr_lt (w n : Nat) (h : w < 2 ^ 32) (hn : n ≤ 32) : w / 2 ^ (32 - n) < 2 ^ n := by
  rw [Nat.div_lt_iff_lt_mul (by positivity), ← pow_add]
  rw [show n + (32 - n) = 32 by omega]; exact h

theorem shiftLoop_spec (a n : Nat) (hn : n ≤ 32) :
    ∀ cnt (m : Mem) (e c : Nat), cnt ≤ e → c = rd m (a + e) →
      (∀ t, e - cnt < t → t ≤ e →
        rd (shiftLoop a n (32 - n) cnt m e c) (a + t)
          = (rd m (a + t) * 2 ^ n) % 2 ^ 32 + rd m (a + (t - 1)) / 2 ^ (32 - n))
      ∧ ∀ b, (b ≤ a + (e - cnt) ∨ a + e < b) → shiftLoop a n (32 - n) cnt m e c b = m b := by
  intro cnt
  induction cnt with
  | zero =>
    intro m e c _ _
    constructor
    · intro t h1 h2; omega
    · intro b _; rfl
  | succ cnt ih =>
    intro m e c he hc
    simp only [shiftLoop]
    set q := rd m (a + (e - 1)) / 2 ^ (32 - n) with hq
    set m1 := wr m (a + e) ((c * 2 ^ n) % 2 ^ 32 ||| q) with hm1
    have hqlt : q < 2 ^ n := shr_lt _ _ (rd_lt _ _) hn
    have hc1 : rd m (a + (e - 1)) = rd m1 (a + (e - 1)) := by
      rw [hm1, rd_wr_other _ _ _ _ (by omega)]
    obtain ⟨hw, hfr⟩ := ih m1 (e - 1) (rd m (a + (e - 1))) (by omega) hc1
    constructor
    · intro t h1 h2
      by_cases hte : t = e
      · subst hte
        have hfe := hfr (a + t) (by omega)
        have : rd (shiftLoop a n (32 - n) cnt m1 (t - 1) (rd m (a + (t - 1)))) (a + t)
            = rd m1 (a + t) := rd_of_eq _ _ _ _ hfe
        rw [this, hm1, rd_wr_same, shl_or c q n hn hqlt, hc]
      · rw [hw t (by omega) (by omega), hm1, rd_wr_other _ _ _ _ (by omega),
          rd_wr_other _ _ _ _ (by omega)]
    · intro b hb
      rw [hfr b (by omega), hm1]
      exact wr_other _ _ _ b (by omega)

/-- Word-level description of the result of `primitiveLeftShift`. -/
theorem primitiveLeftShift_words (m : Mem) (a start end_ n : Nat) (hse : start < end_)
    (hn1 : 1 ≤ n) (hn : n ≤ 32) :
    rd (primitiveLeftShift m a start end_ n) (a + start) = (rd m (a + start) * 2 ^ n) % 2 ^ 32
    ∧ (∀ t, start < t → t < end_ →
        rd (primitiveLeftShift m a start end_ n) (a + t)
          = (rd m (a + t) * 2 ^ n) % 2 ^ 32 + rd m (a + (t - 1)) / 2 ^ (32 - n))
    ∧ ∀ b, (b < a + start ∨ a + end_ ≤ b) → primitiveLeftShift m a start end_ n b = m b := by
  have hcond : ¬ (end_ ≤ start ∨ n = 0) := by omega
  simp only [primitiveLeftShift, if_neg hcond]
  obtain ⟨hw, hfr⟩ := shiftLoop_spec a n hn (end_ - 1 - start) m (end_ - 1) (rd m (a + (end_ - 1)))
    (by omega) rfl
  set m1 := shiftLoop a n (32 - n) (end_ - 1 - start) m (end_ - 1) (rd m (a + (end_ - 1))) with hm1
  refine ⟨?_, ?_, ?_⟩
  · rw [rd_wr_same]
    have hfe := hfr (a + start) (by omega)
    have : rd m1 (a + start) = rd m (a + start) := rd_of_eq _ _ _ _ hfe
    rw [this]
  · intro t h1 h2
    rw [rd_wr_other _ _ _ _ (by omega)]
    exact hw t (by omega) (by omega)
  · intro b hb
    rw [wr_other _ _ _ _ (by omega)]
    exact hfr b (by omega)

/-- Value-level consequence of the word-level description of a left shift. -/
theorem shift_value (n : Nat) (hn : n ≤ 32) (m m' : Mem) (base : Nat) :
    ∀ len, rd m' base = (rd m base * 2 ^ n) % 2 ^ 32 →
      (∀ t, 0 < t → t < len + 1 →
        rd m' (base + t) = (rd m (base + t) * 2 ^ n) % 2 ^ 32 + rd m (base + (t - 1)) / 2 ^ (32 - n)) →
      value m' base (len + 1) + 2 ^ (32 * (len + 1)) * (rd m (base + len) / 2 ^ (32 - n))
        = value m base (len + 1) * 2 ^ n := by
  intro len
  induction len with
  | zero =>
    intro h0 _
    simp only [value_one, Nat.add_zero, Nat.zero_add, Nat.mul_one, h0]
    exact word_shift _ _ hn
  | succ len ih =>
    intro h0 ht
    have e := ih h0 (fun t h1 h2 => ht t h1 (by omega))
    have hw := ht (len + 1) (by omega) (by omega)
    rw [show len + 1 - 1 = len by omega] at hw
    have hs := word_shift (rd m (base + (len + 1))) n hn
    rw [value_snoc m' base (len + 1), value_snoc m base (len + 1), hw, pow_succ32 (len + 1)]
    generalize value m' base (len + 1) = V at e ⊢
    generalize value m base (len + 1) = S at e ⊢
    generalize rd m (base + (len + 1)) * 2 ^ n % 2 ^ 32 = lo at hs ⊢
    generalize rd m (base + (len + 1)) / 2 ^ (32 - n) = hi at hs ⊢
    generalize rd m (base + len) / 2 ^ (32 - n) = hi0 at e ⊢
    generalize rd m (base + (len + 1)) = w at hs ⊢
    generalize (2:ℕ) ^ (32 * (len + 1)) = P at e ⊢
    generalize (2:ℕ) ^ n = N at e hs ⊢
    zify at e hs ⊢
    linear_combination e + (P : ℤ) * hs

theorem primitiveLeftShift_value (m : Mem) (a start end_ n : Nat) (hse : start < end_)
    (hn1 : 1 ≤ n) (hn : n ≤ 32) :
    value (primitiveLeftShift m a start end_ n) (a + start) (end_ - start)
        + 2 ^ (32 * (end_ - start)) * (rd m (a + (end_ - 1)) / 2 ^ (32 - n))
      = value m (a + start) (end_ - start) * 2 ^ n := by
  obtain ⟨h0, ht, _⟩ := primitiveLeftShift_words m a start end_ n hse hn1 hn
  obtain ⟨len, hlen⟩ : ∃ len, end_ - start = len + 1 := ⟨end_ - start - 1, by omega⟩
  have := shift_value n hn m (primitiveLeftShift m a start end_ n) (a + start) len h0 (by
    intro t h1 h2
    rw [show a + start + t = a + (start + t) by omega, ht (start + t) (by omega) (by omega),
      show a + start + (t - 1) = a + (start + t - 1) by omega])
  rw [hlen, show a + (end_ - 1) = a + start + len by omega]
  exact this

theorem sqsum_congr (m m' : Mem) (a : Nat) :
    ∀ n, (∀ i, i < n → rd m' (a + i) = rd m (a + i)) → sqsum m' a n = sqsum m a n := by
  intro n
  induction n with
  | zero => intro _; rfl
  | succ n ih =>
    intro h
    simp only [sqsum]
    rw [ih (fun i hi => h i (by omega)), h n (by omega)]

theorem crossW_congr (m m' : Mem) :
    ∀ n a, (∀ i, i < n → rd m' (a + i) = rd m (a + i)) → crossW m' a n = crossW m a n := by
  intro n
  induction n with
  | zero => intro _ _; rfl
  | succ n ih =>
    intro a h
    simp only [crossW]
    rw [ih (a + 1) (fun i hi => by
      rw [show a + 1 + i = a + (i + 1) by omega]; exact h (i + 1) (by omega))]
    rw [value_congr m m' (a + 1) (a + 1) n (fun i hi => by
      rw [show a + 1 + i = a + (i + 1) by omega]; exact h (i + 1) (by omega))]
    have := h 0 (by omega)
    simp only [Nat.add_zero] at this
    rw [this]

theorem sqsum_head (m : Mem) :
    ∀ n a, sqsum m a (n + 1) = rd m a * rd m a + 2 ^ 64 * sqsum m (a + 1) n := by
  intro n
  induction n with
  | zero => intro a; simp [sqsum]
  | succ n ih =>
    intro a
    rw [sqsum, ih a, sqsum, show a + 1 + n = a + (n + 1) by omega,
      show (2:ℕ) ^ (64 * (n + 1)) = 2 ^ 64 * 2 ^ (64 * n) by rw [← pow_add]; congr 1; ring]
    ring

/-- The square of a multi-word value: diagonal terms plus twice the cross terms. -/
theorem sq_expand (m : Mem) :
    ∀ n a, value m a n * value m a n = sqsum m a n + 2 * crossW m a n := by
  intro n
  induction n with
  | zero => intro a; simp [value, sqsum, crossW]
  | succ n ih =>
    intro a
    rw [sqsum_head, crossW, value_succ]
    have e := ih (a + 1)
    generalize value m (a + 1) n = V at e ⊢
    generalize sqsum m (a + 1) n = S at e ⊢
    generalize crossW m (a + 1) n = C at e ⊢
    generalize rd m a = w
    zify at e ⊢
    linear_combination (2 ^ 64 : ℤ) * e

theorem pow64 (n : Nat) : (2:ℕ) ^ (32 * (2 * n)) = 2 ^ (64 * n) := by
  congr 1; ring

theorem sqDiag_spec (x z xoff zb : Nat) :
    ∀ cnt (m : Mem) (i j x0 : Nat), (1 ≤ cnt → i + 1 = xoff + cnt) → j = zb + 2 * cnt →
      (x + xoff + cnt ≤ z + zb ∨ z + zb + 2 * cnt ≤ x + xoff) →
      value (sqDiag x z cnt m i j x0) (z + zb) (2 * cnt)
        = (sqsum m (x + xoff) cnt + 2 ^ (64 * cnt) * (x0 % 2)) / 2
      ∧ ∀ a, (a < z + zb ∨ z + zb + 2 * cnt ≤ a) → sqDiag x z cnt m i j x0 a = m a := by
  intro cnt
  induction cnt with
  | zero =>
    intro m i j x0 _ _ _
    refine ⟨?_, fun a _ => rfl⟩
    simp only [sqDiag, value, sqsum, Nat.mul_zero, pow_zero, Nat.one_mul, Nat.zero_add]
    omega
  | succ cnt ih =>
    intro m i j x0 hi hj hd
    have hi' : i = xoff + cnt := by omega
    subst hi' hj
    simp only [sqDiag]
    set w := rd m (x + (xoff + cnt)) with hw
    have hwlt : w < 2 ^ 32 := rd_lt _ _
    have hplt : w * w < 2 ^ 64 := by
      have := mac_lt 0 w w 0 (by norm_num) hwlt hwlt (by norm_num)
      omega
    rw [Nat.mod_eq_of_lt hplt]
    set p := w * w with hp
    set k := (x0 % 2 ^ 32) * 2 ^ 31 % 2 ^ 32 with hk
    have hk2 : k = 2 ^ 31 * (x0 % 2) := by omega
    have hor : (k ||| p / 2 ^ 33) = k + p / 2 ^ 33 := by
      rw [hk2]
      exact (Nat.mul_add_lt_is_or (by omega) _).symm
    rw [hor]
    set m1 := wr m (z + (zb + 2 * (cnt + 1) - 1)) (k + p / 2 ^ 33) with hm1
    set m2 := wr m1 (z + (zb + 2 * (cnt + 1) - 2)) (p / 2) with hm2
    have hm2o : ∀ b, b ≠ z + (zb + 2 * cnt) → b ≠ z + (zb + 2 * cnt + 1) → m2 b = m b := by
      intro b h1 h2
      rw [hm2, wr_other _ _ _ b (by omega), hm1, wr_other _ _ _ b (by omega)]
    obtain ⟨e, hfr⟩ := ih m2 (xoff + cnt - 1) (zb + 2 * (cnt + 1) - 2) p (by omega) (by omega)
      (by omega)
    have hS : sqsum m2 (x + xoff) cnt = sqsum m (x + xoff) cnt :=
      sqsum_congr _ _ _ _ (fun t ht => rd_of_eq _ _ _ _ (hm2o _ (by omega) (by omega)))
    rw [hS] at e
    generalize sqDiag x z cnt m2 (xoff + cnt - 1) (zb + 2 * (cnt + 1) - 2) p = R at e hfr ⊢
    constructor
    · rw [show 2 * (cnt + 1) = 2 * cnt + 1 + 1 by ring, value_snoc, value_snoc, e]
      have f0 : rd R (z + zb + 2 * cnt) = (p / 2) % 2 ^ 32 := by
        rw [rd_of_eq _ _ _ _ (hfr _ (by omega)), hm2,
          show z + zb + 2 * cnt = z + (zb + 2 * (cnt + 1) - 2) by omega, rd_wr_same]
      have f1 : rd R (z + zb + (2 * cnt + 1)) = k + p / 2 ^ 33 := by
        rw [rd_of_eq _ _ _ _ (hfr _ (by omega)), hm2, rd_wr_other _ _ _ _ (by omega), hm1,
          show z + zb + (2 * cnt + 1) = z + (zb + 2 * (cnt + 1) - 1) by omega, rd_wr_same]
        apply Nat.mod_eq_of_lt
        omega
      rw [f0, f1, sqsum, show x + xoff + cnt = x + (xoff + cnt) by omega, ← hw, ← hp, hk2]
      rw [show 32 * (2 * cnt + 1) = 32 * (2 * cnt) + 32 by ring, pow_add, pow64,
        show 64 * (cnt + 1) = 64 * cnt + 64 by ring, pow_add]
      generalize sqsum m (x + xoff) cnt = S
      generalize (2:ℕ) ^ (64 * cnt) = P
      have hpd := Nat.div_add_mod p 2
      have e1 : P * p = 2 * (P * (p / 2)) + P * (p % 2) := by
        conv_lhs => rw [← hpd]
        ring
      have e2 : P * (p / 2 % 2 ^ 32) + P * 2 ^ 32 * (2 ^ 31 * (x0 % 2) + p / 2 ^ 33)
          = P * (p / 2) + 2 ^ 63 * (P * (x0 % 2)) := by
        have : p / 2 = p / 2 % 2 ^ 32 + 2 ^ 32 * (p / 2 ^ 33) := by omega
        conv_rhs => rw [this]
        ring
      have e3 : P * 2 ^ 64 * (x0 % 2) = 2 ^ 64 * (P * (x0 % 2)) := by ring
      rw [Nat.add_assoc, e2, e1, e3]
      generalize P * (p / 2) = u
      generalize P * (p % 2) = v
      generalize P * (x0 % 2) = t
      omega
    · intro a ha
      rw [hfr a (by omega)]
      exact hm2o a (by omega) (by omega)

theorem sqOff_spec (x z xend zend : Nat) :
    ∀ cnt (m : Mem) (i off : Nat), xend = i + cnt → zend = off + 2 * cnt →
      (x + i + cnt ≤ z + off ∨ z + off + 2 * cnt ≤ x + i) →
      value m (z + off) (2 * cnt) + crossW m (x + i) cnt < 2 ^ (32 * (2 * cnt)) →
      value (sqOff x z xend zend cnt m i cnt off) (z + off) (2 * cnt)
        = value m (z + off) (2 * cnt) + crossW m (x + i) cnt
      ∧ ∀ a, (a < z + off ∨ z + off + 2 * cnt ≤ a) → sqOff x z xend zend cnt m i cnt off a = m a := by
  intro cnt
  induction cnt with
  | zero =>
    intro m i off _ _ _ _
    exact ⟨by simp [sqOff, value, crossW], fun a _ => rfl⟩
  | succ cnt ih =>
    intro m i off hxe hze hd hb
    simp only [sqOff]
    obtain ⟨e1, hc1, f1⟩ := mulAdd_spec m x (i + 1) xend (m (x + i)) z (off + 1) (by omega)
    rw [show xend - (i + 1) = cnt by omega] at e1 f1
    generalize mulAdd m x (i + 1) xend (m (x + i)) z (off + 1) = r at e1 hc1 f1 ⊢
    obtain ⟨e2, hc2, f2⟩ := addOne_spec r.1 z off zend (cnt + 1) r.2 (cnt + 1) (by omega) (by omega)
    rw [Nat.mod_eq_of_lt hc1] at e2
    generalize addOne r.1 z off zend (cnt + 1) r.2 = s at e2 hc2 f2 ⊢
    rw [Nat.add_sub_cancel]
    -- the window after this iteration
    have hA : z + (off + 1) = z + off + 1 := by omega
    have hP : z + (off + (cnt + 1)) = z + off + (cnt + 1) := by omega
    rw [hA] at e1 f1
    rw [hP] at e2 f2
    have g1 : value s.1 (z + off) (cnt + 1) = value r.1 (z + off) (cnt + 1) :=
      value_frame _ _ _ _ (fun b hb1 hb2 => f2 b (by omega))
    have g2 : rd r.1 (z + off) = rd m (z + off) := rd_of_eq _ _ _ _ (f1 _ (by omega))
    have g3 : value r.1 (z + off + (cnt + 1)) (cnt + 1) = value m (z + off + (cnt + 1)) (cnt + 1) :=
      value_frame _ _ _ _ (fun b hb1 hb2 => f1 b (by omega))
    have hw2 : 2 * (cnt + 1) = (cnt + 1) + (cnt + 1) := by ring
    have hpw : (2:ℕ) ^ (32 * (2 * (cnt + 1))) = 2 ^ (32 * (cnt + 1)) * 2 ^ (32 * (cnt + 1)) := by
      rw [show 32 * (2 * (cnt + 1)) = 32 * (cnt + 1) + 32 * (cnt + 1) by ring, pow_add]
    have hstep : value s.1 (z + off) (2 * (cnt + 1)) + s.2 * 2 ^ (32 * (2 * (cnt + 1)))
        = value m (z + off) (2 * (cnt + 1))
          + 2 ^ 32 * (rd m (x + i) * value m (x + (i + 1)) cnt) := by
      have hv : ∀ mm : Mem, value mm (z + off) (2 * (cnt + 1)) = value mm (z + off) (cnt + 1)
          + 2 ^ (32 * (cnt + 1)) * value mm (z + off + (cnt + 1)) (cnt + 1) := fun mm =>
        (congrArg (value mm (z + off)) hw2).trans (value_split mm (z + off) (cnt + 1) (cnt + 1))
      rw [hv s.1, hv m, g1, value_succ r.1, value_succ m, g2, hpw, pow_succ32]
      rw [g3] at e2
      have hk : m (x + i) % 2 ^ 32 = rd m (x + i) := rfl
      rw [hk] at e1
      generalize value s.1 (z + off + (cnt + 1)) (cnt + 1) = V2 at e2 ⊢
      generalize value m (z + off + (cnt + 1)) (cnt + 1) = M2 at e2 ⊢
      generalize value r.1 (z + off + 1) cnt = V1 at e1 ⊢
      generalize value m (z + off + 1) cnt = M1 at e1 ⊢
      generalize value m (x + (i + 1)) cnt = T at e1 ⊢
      generalize rd m (x + i) = w at e1 ⊢
      generalize rd m (z + off) = w0
      rw [pow_succ32] at e2
      generalize (2:ℕ) ^ (32 * cnt) = P at e1 e2 ⊢
      zify at e1 e2 ⊢
      linear_combination (2 ^ 32 : ℤ) * e1 + (2 ^ 32 * (P : ℤ)) * e2
    have hcr : crossW m (x + i) (cnt + 1)
        = 2 ^ 32 * (rd m (x + i) * value m (x + (i + 1)) cnt) + 2 ^ 64 * crossW m (x + (i + 1)) cnt := by
      rw [crossW, show x + i + 1 = x + (i + 1) by omega]
    rw [hcr] at hb ⊢
    have hs0 : s.2 = 0 := by
      rcases Nat.le_one_iff_eq_zero_or_eq_one.mp hc2 with h | h
      · exact h
      · rw [h] at hstep
        omega
    rw [hs0] at hstep
    simp only [Nat.zero_mul, Nat.add_zero] at hstep
    have hxs : ∀ t, t < cnt → rd s.1 (x + (i + 1) + t) = rd m (x + (i + 1) + t) := by
      intro t ht
      apply rd_of_eq
      rw [f2 _ (by omega), f1 _ (by omega)]
    have hC : crossW s.1 (x + (i + 1)) cnt = crossW m (x + (i + 1)) cnt := crossW_congr _ _ _ _ hxs
    have hsplit : value s.1 (z + off) (2 * (cnt + 1))
        = value s.1 (z + off) 2 + 2 ^ 64 * value s.1 (z + (off + 2)) (2 * cnt) := by
      rw [show 2 * (cnt + 1) = 2 + 2 * cnt by ring, value_split,
        show z + off + 2 = z + (off + 2) by omega]
    have hpw2 : (2:ℕ) ^ (32 * (2 * (cnt + 1))) = 2 ^ 64 * 2 ^ (32 * (2 * cnt)) := by
      rw [show 32 * (2 * (cnt + 1)) = 64 + 32 * (2 * cnt) by ring, pow_add]
    obtain ⟨e3, f3⟩ := ih s.1 (i + 1) (off + 2) (by omega) (by omega) (by omega) (by
      rw [hC]
      rw [hpw2] at hb
      have : 2 ^ 64 * (value s.1 (z + (off + 2)) (2 * cnt) + crossW m (x + (i + 1)) cnt)
          < 2 ^ 64 * 2 ^ (32 * (2 * cnt)) := by
        calc 2 ^ 64 * (value s.1 (z + (off + 2)) (2 * cnt) + crossW m (x + (i + 1)) cnt)
            ≤ value s.1 (z + off) 2 + 2 ^ 64 * value s.1 (z + (off + 2)) (2 * cnt)
              + 2 ^ 64 * crossW m (x + (i + 1)) cnt := by
              rw [Nat.mul_add]; omega
          _ < 2 ^ 64 * 2 ^ (32 * (2 * cnt)) := by
              rw [← hsplit, hstep]; omega
      exact Nat.lt_of_mul_lt_mul_left this)
    rw [hC] at e3
    generalize sqOff x z xend zend cnt s.1 (i + 1) cnt (off + 2) = R at e3 f3 ⊢
    constructor
    · have hsplitR : value R (z + off) (2 * (cnt + 1))
          = value R (z + off) 2 + 2 ^ 64 * value R (z + (off + 2)) (2 * cnt) := by
        rw [show 2 * (cnt + 1) = 2 + 2 * cnt by ring, value_split,
          show z + off + 2 = z + (off + 2) by omega]
      have hlow : value R (z + off) 2 = value s.1 (z + off) 2 :=
        value_frame _ _ _ _ (fun b hb1 hb2 => f3 b (by omega))
      rw [hsplitR, hlow, e3]
      rw [hsplit] at hstep
      generalize rd m (x + i) * value m (x + (i + 1)) cnt = D at hstep ⊢
      omega
    · intro a ha
      rw [f3 a (by omega), f2 a (by omega), f1 a (by omega)]

theorem sq_parity (w V : Nat) : ((w + 2 ^ 32 * V) * (w + 2 ^ 32 * V)) % 2 = w % 2 := by
  have ha : (w + 2 ^ 32 * V) % 2 = w % 2 := by omega
  rw [Nat.mul_mod, ha]
  rcases Nat.mod_two_eq_zero_or_one w with h | h <;> rw [h]

theorem squareToLen_spec (m : Mem) (x xoff xlen z zoff : Nat) (hlen : 1 ≤ xlen)
    (hd : x + xoff + xlen ≤ z + zoff ∨ z + zoff + 2 * xlen ≤ x + xoff) :
    value (squareToLen m x xoff xlen z zoff (2 * xlen)) (z + zoff) (2 * xlen)
      = value m (x + xoff) xlen * value m (x + xoff) xlen
    ∧ ∀ a, (a < z + zoff ∨ z + zoff + 2 * xlen ≤ a) →
        squareToLen m x xoff xlen z zoff (2 * xlen) a = m a := by
  simp only [squareToLen]
  rw [show xlen + xoff - xoff = xlen by omega]
  -- diagonal pass
  obtain ⟨e1, f1⟩ := sqDiag_spec x z xoff zoff xlen m (xlen + xoff - 1) (2 * xlen + zoff) 0
    (by omega) (by omega) hd
  generalize sqDiag x z xlen m (xlen + xoff - 1) (2 * xlen + zoff) 0 = m1 at e1 f1 ⊢
  simp only [Nat.zero_mod, Nat.mul_zero, Nat.add_zero] at e1
  have hx1 : ∀ t, t < xlen → rd m1 (x + xoff + t) = rd m (x + xoff + t) :=
    fun t ht => rd_of_eq _ _ _ _ (f1 _ (by omega))
  have hV1 : value m1 (x + xoff) xlen = value m (x + xoff) xlen := value_congr _ _ _ _ _ hx1
  have hC1 : crossW m1 (x + xoff) xlen = crossW m (x + xoff) xlen := crossW_congr _ _ _ _ hx1
  -- the square and its bound
  have hsq := sq_expand m xlen (x + xoff)
  have hxlt := value_lt m (x + xoff) xlen
  have hsqlt : value m (x + xoff) xlen * value m (x + xoff) xlen < 2 ^ (32 * (2 * xlen)) := by
    rw [show 32 * (2 * xlen) = 32 * xlen + 32 * xlen by ring, pow_add]
    exact Nat.mul_lt_mul'' hxlt hxlt
  generalize value m (x + xoff) xlen * value m (x + xoff) xlen = SQ at hsq hsqlt ⊢
  -- off-diagonal pass
  obtain ⟨e2, f2⟩ := sqOff_spec x z (xlen + xoff) (2 * xlen + zoff) xlen m1 xoff zoff (by omega)
    (by omega) hd (by rw [e1, hC1]; omega)
  generalize sqOff x z (xlen + xoff) (2 * xlen + zoff) xlen m1 xoff xlen zoff = m2 at e2 f2 ⊢
  rw [e1, hC1] at e2
  have e2' : value m2 (z + zoff) (2 * xlen) = SQ / 2 := by omega
  -- doubling
  have e3 := primitiveLeftShift_value m2 z zoff (2 * xlen + zoff) 1 (by omega) (by norm_num)
    (by norm_num)
  obtain ⟨_, _, f3⟩ := primitiveLeftShift_words m2 z zoff (2 * xlen + zoff) 1 (by omega)
    (by norm_num) (by norm_num)
  generalize primitiveLeftShift m2 z zoff (2 * xlen + zoff) 1 = m3 at e3 f3 ⊢
  rw [show 2 * xlen + zoff - zoff = 2 * xlen by omega, e2'] at e3
  have h3lt := value_lt m3 (z + zoff) (2 * xlen)
  have e3' : value m3 (z + zoff) (2 * xlen) = SQ / 2 * 2 := by
    generalize rd m2 (z + (2 * xlen + zoff - 1)) / 2 ^ (32 - 1) = hi at e3
    generalize (2:ℕ) ^ (32 * (2 * xlen)) = P at e3 hsqlt h3lt
    rcases Nat.eq_zero_or_pos hi with h | h
    · rw [h] at e3; simpa using e3
    · exfalso
      have : P * 1 ≤ P * hi := Nat.mul_le_mul_left _ h
      omega
  -- restoring the low bit
  have hx0 : rd m3 (x + xoff) = rd m (x + xoff) := by
    apply rd_of_eq
    rw [f3 _ (by omega), f2 _ (by omega), f1 _ (by omega)]
  obtain ⟨n, rfl⟩ : ∃ n, xlen = n + 1 := ⟨xlen - 1, by omega⟩
  have hpar : SQ % 2 = rd m (x + xoff) % 2 := by
    have hv := value_succ m (x + xoff) n
    have : SQ = (rd m (x + xoff) + 2 ^ 32 * value m (x + xoff + 1) n)
        * (rd m (x + xoff) + 2 ^ 32 * value m (x + xoff + 1) n) := by
      rw [← hv, sq_expand, hsq]
    rw [this]
    exact sq_parity _ _
  rw [show 2 * (n + 1) = 2 * n + 1 + 1 by ring] at e3' h3lt ⊢
  rw [value_succ] at e3' ⊢
  have hw0 := rd_lt m3 (z + zoff)
  have heven : rd m3 (z + zoff) % 2 = 0 := by omega
  have hbit : rd m3 (z + zoff) ||| (rd m3 (x + xoff) &&& 1)
      = rd m3 (z + zoff) + rd m (x + xoff) % 2 := by
    rw [hx0, Nat.and_one_is_mod]
    have h2 : rd m3 (z + zoff) = 2 ^ 1 * (rd m3 (z + zoff) / 2) := by omega
    rw [h2]
    exact (Nat.mul_add_lt_is_or (Nat.mod_lt _ (by norm_num)) _).symm
  rw [hbit]
  constructor
  · rw [rd_wr_same, value_frame m3 _ (z + zoff + 1) (2 * n + 1)
      (fun b hb1 hb2 => wr_other _ _ _ b (by omega))]
    rw [Nat.mod_eq_of_lt (by omega)]
    omega
  · intro a ha
    rw [wr_other _ _ _ a (by omega), f3 a (by omega), f2 a (by omega), f1 a (by omega)]

theorem addLoop_spec :
    ∀ n (m : Mem) (dst s1 s2 carry : Nat), carry ≤ 1 →
      (s1 + n ≤ dst ∨ dst + n ≤ s1) → (s2 + n ≤ dst ∨ dst + n ≤ s2) →
      value (addLoop n m dst s1 s2 carry).1 dst n + (addLoop n m dst s1 s2 carry).2 * 2 ^ (32 * n)
        = value m s1 n + value m s2 n + carry
      ∧ (addLoop n m dst s1 s2 carry).2 ≤ 1
      ∧ ∀ a, (a < dst ∨ dst + n ≤ a) → (addLoop n m dst s1 s2 carry).1 a = m a := by
  intro n
  induction n with
  | zero =>
    intro m dst s1 s2 carry hc _ _
    simpa [addLoop, value] using hc
  | succ n ih =>
    intro m dst s1 s2 carry hc hd1 hd2
    have h1 := rd_lt m s1
    have h2 := rd_lt m s2
    have ht : (carry + (rd m s1 + rd m s2)) % 2 ^ 64 = carry + (rd m s1 + rd m s2) :=
      Nat.mod_eq_of_lt (by omega)
    simp only [addLoop, ht]
    set t := carry + (rd m s1 + rd m s2) with htdef
    have hq : t / 2 ^ 32 ≤ 1 := by omega
    obtain ⟨e, hcar, hfr⟩ := ih (wr m dst t) (dst + 1) (s1 + 1) (s2 + 1) (t / 2 ^ 32) hq
      (by omega) (by omega)
    refine ⟨?_, hcar, ?_⟩
    · rw [value_succ, value_succ, value_succ, pow_succ32]
      have f1 : rd (addLoop n (wr m dst t) (dst + 1) (s1 + 1) (s2 + 1) (t / 2 ^ 32)).1 dst
          = t % 2 ^ 32 := by
        rw [rd_of_eq _ _ _ _ (hfr dst (by omega)), rd_wr_same]
      have f2 : value (wr m dst t) (s1 + 1) n = value m (s1 + 1) n :=
        value_frame _ _ _ _ (fun b hb1 hb2 => wr_other m dst t b (by omega))
      have f3 : value (wr m dst t) (s2 + 1) n = value m (s2 + 1) n :=
        value_frame _ _ _ _ (fun b hb1 hb2 => wr_other m dst t b (by omega))
      rw [f2, f3] at e
      rw [f1]
      have hdm := Nat.mod_add_div t (2 ^ 32)
      generalize value (addLoop n (wr m dst t) (dst + 1) (s1 + 1) (s2 + 1) (t / 2 ^ 32)).1
        (dst + 1) n = V at e ⊢
      generalize (addLoop n (wr m dst t) (dst + 1) (s1 + 1) (s2 + 1) (t / 2 ^ 32)).2 = C at e ⊢
      generalize value m (s1 + 1) n = S1 at e ⊢
      generalize value m (s2 + 1) n = S2 at e ⊢
      generalize t / 2 ^ 32 = q at e hdm ⊢
      generalize t % 2 ^ 32 = s at hdm ⊢
      rw [htdef] at hdm
      generalize (2:ℕ) ^ (32 * n) = P at e ⊢
      zify at e hdm ⊢
      linear_combination (2 ^ 32 : ℤ) * e + hdm
    · intro a ha
      rw [hfr a (by omega)]
      exact wr_other m dst t a (by omega)

theorem sumTop_even (m : Mem) (len carry top src : Nat) (hc : carry ≤ 1) (hp : len % 2 = 0)
    (h0 : rd m top = 0) :
    rd (sumTop m len carry top src) top = carry
    ∧ ∀ a, a ≠ top → sumTop m len carry top src a = m a := by
  have hne : ¬ (len % 2 ≠ 0) := by omega
  rcases Nat.le_one_iff_eq_zero_or_eq_one.mp hc with rfl | rfl
  · simp only [sumTop, if_neg hne, ne_eq, not_true_eq_false, if_false]
    exact ⟨h0, fun a _ => trivial⟩
  · have h10 : (1:ℕ) ≠ 0 := by norm_num
    simp only [sumTop, if_neg hne, if_pos h10]
    have hr : rd (wr m top (rd m top + 1)) top = 1 := by
      rw [rd_wr_same, h0]; norm_num
    have hz : ¬ (rd (wr m top (rd m top + 1)) top = 0) := by rw [hr]; norm_num
    rw [if_neg hz]
    exact ⟨hr, fun a ha => wr_other _ _ _ a ha⟩

theorem sumTop_odd (m : Mem) (len carry top src : Nat) (hc : carry ≤ 1) (hp : len % 2 = 1)
    (h1 : rd m (top + 1) = 0) :
    rd (sumTop m len carry top src) top + 2 ^ 32 * rd (sumTop m len carry top src) (top + 1)
      = rd m src + carry
    ∧ ∀ a, a ≠ top → a ≠ top + 1 → sumTop m len carry top src a = m a := by
  have hne : len % 2 ≠ 0 := by omega
  have hsrc : rd m src < 2 ^ 32 := rd_lt _ _
  have hw1 : rd (wr m top (m src)) top = rd m src := by rw [rd_wr_same]; rfl
  have hw2 : rd (wr m top (m src)) (top + 1) = 0 := by
    rw [rd_wr_other _ _ _ _ (by omega), h1]
  rcases Nat.le_one_iff_eq_zero_or_eq_one.mp hc with rfl | rfl
  · simp only [sumTop, if_pos hne, ne_eq, not_true_eq_false, if_false]
    refine ⟨by rw [hw1, hw2]; omega, fun a ha _ => wr_other _ _ _ a ha⟩
  · have h10 : (1:ℕ) ≠ 0 := by norm_num
    simp only [sumTop, if_pos hne, if_pos h10]
    rw [hw1]
    set m2 := wr (wr m top (m src)) top (rd m src + 1) with hm2
    have hr2 : rd m2 top = (rd m src + 1) % 2 ^ 32 := rd_wr_same _ _ _
    have hr2' : rd m2 (top + 1) = 0 := by
      rw [hm2, rd_wr_other _ _ _ _ (by omega), hw2]
    have hm2o : ∀ a, a ≠ top → m2 a = m a := fun a ha => by
      rw [hm2, wr_other _ _ _ a ha, wr_other _ _ _ a ha]
    by_cases hz : rd m2 top = 0
    · rw [if_pos hz]
      refine ⟨?_, fun a ha ha' => ?_⟩
      · have e1 : rd (wr m2 (top + 1) (rd m2 (top + 1) + 1)) top = rd m2 top :=
          rd_wr_other _ _ _ _ (by omega)
        have e2 : rd (wr m2 (top + 1) (rd m2 (top + 1) + 1)) (top + 1) = 1 := by
          rw [rd_wr_same, hr2']; norm_num
        rw [e1, e2, hz]
        rw [hr2] at hz
        omega
      · rw [wr_other _ _ _ a ha', hm2o a ha]
    · rw [if_neg hz]
      refine ⟨?_, fun a ha _ => hm2o a ha⟩
      rw [hr2', hr2]
      rw [hr2] at hz
      omega

theorem low32_spec (v : Int) : ((low32 v : Nat) : Int) + 2 ^ 32 * (v / 2 ^ 32) = v := by
  unfold low32
  rw [Int.toNat_of_nonneg (Int.emod_nonneg _ (by norm_num))]
  exact Int.emod_add_ediv v (2 ^ 32)

theorem low32_lt (v : Int) : low32 v < 2 ^ 32 := by
  unfold low32
  have h1 := Int.emod_lt_of_pos v (show (0:Int) < 2 ^ 32 by norm_num)
  have h2 := Int.emod_nonneg v (show (2:Int) ^ 32 ≠ 0 by norm_num)
  omega

theorem pow_succ32_int (n : Nat) : (2:ℤ) ^ (32 * (n + 1)) = 2 ^ 32 * 2 ^ (32 * n) := by
  rw [show 32 * (n + 1) = 32 + 32 * n by ring, pow_add]

theorem combA_spec :
    ∀ n (m : Mem) (x0 : Int) (j i k l : Nat),
      (i + n ≤ j ∨ j + n ≤ i) → (k + n ≤ j ∨ j + n ≤ k) → (l + n ≤ j ∨ j + n ≤ l) →
      (value (combA n m x0 j i k l).1 j n : Int) + (combA n m x0 j i k l).2 * 2 ^ (32 * n)
        = x0 + value m j n + value m i n - value m k n - value m l n
      ∧ ∀ a, (a < j ∨ j + n ≤ a) → (combA n m x0 j i k l).1 a = m a := by
  intro n
  induction n with
  | zero =>
    intro m x0 j i k l _ _ _
    simp [combA, value]
  | succ n ih =>
    intro m x0 j i k l hi hk hl
    simp only [combA]
    set v : Int := x0 + ((rd m j : Int) + (rd m i : Int) - (rd m k : Int) - (rd m l : Int)) with hv
    obtain ⟨e, hfr⟩ := ih (wr m j (low32 v)) (v / 2 ^ 32) (j + 1) (i + 1) (k + 1) (l + 1)
      (by omega) (by omega) (by omega)
    constructor
    · rw [value_succ, value_succ, value_succ, value_succ, value_succ, pow_succ32_int]
      have f1 : rd (combA n (wr m j (low32 v)) (v / 2 ^ 32) (j + 1) (i + 1) (k + 1) (l + 1)).1 j
          = low32 v := by
        rw [rd_of_eq _ _ _ _ (hfr j (by omega)), rd_wr_same, Nat.mod_eq_of_lt (low32_lt v)]
      have g : ∀ s, (s + n + 1 ≤ j ∨ j + n + 1 ≤ s) →
          value (wr m j (low32 v)) (s + 1) n = value m (s + 1) n := fun s hs =>
        value_frame _ _ _ _ (fun b hb1 hb2 => wr_other _ _ _ b (by omega))
      have gj : value (wr m j (low32 v)) (j + 1) n = value m (j + 1) n :=
        value_frame _ _ _ _ (fun b hb1 hb2 => wr_other _ _ _ b (by omega))
      rw [g i (by omega), g k (by omega), g l (by omega), gj] at e
      rw [f1]
      have hl32 := low32_spec v
      generalize value (combA n (wr m j (low32 v)) (v / 2 ^ 32) (j + 1) (i + 1) (k + 1) (l + 1)).1
        (j + 1) n = V at e ⊢
      generalize (combA n (wr m j (low32 v)) (v / 2 ^ 32) (j + 1) (i + 1) (k + 1) (l + 1)).2 = C at e ⊢
      generalize low32 v = lo at hl32 ⊢
      generalize v / 2 ^ 32 = q at e hl32 ⊢
      rw [hv] at hl32
      push_cast
      generalize (2:ℤ) ^ (32 * n) = P at e ⊢
      linear_combination (2 ^ 32 : ℤ) * e + hl32
    · intro a ha
      rw [hfr a (by omega)]
      exact wr_other _ _ _ a (by omega)

theorem combB_spec :
    ∀ n (m : Mem) (x0 : Int) (j i k : Nat),
      (i + n ≤ j ∨ j + n ≤ i) → (k + n ≤ j ∨ j + n ≤ k) →
      (value (combB n m x0 j i k).1 j n : Int) + (combB n m x0 j i k).2 * 2 ^ (32 * n)
        = x0 + value m j n + value m i n - value m k n
      ∧ ∀ a, (a < j ∨ j + n ≤ a) → (combB n m x0 j i k).1 a = m a := by
  intro n
  induction n with
  | zero =>
    intro m x0 j i k _ _
    simp [combB, value]
  | succ n ih =>
    intro m x0 j i k hi hk
    simp only [combB]
    set v : Int := x0 + ((rd m j : Int) + (rd m i : Int) - (rd m k : Int)) with hv
    obtain ⟨e, hfr⟩ := ih (wr m j (low32 v)) (v / 2 ^ 32) (j + 1) (i + 1) (k + 1)
      (by omega) (by omega)
    constructor
    · rw [value_succ, value_succ, value_succ, value_succ, pow_succ32_int]
      have f1 : rd (combB n (wr m j (low32 v)) (v / 2 ^ 32) (j + 1) (i + 1) (k + 1)).1 j
          = low32 v := by
        rw [rd_of_eq _ _ _ _ (hfr j (by omega)), rd_wr_same, Nat.mod_eq_of_lt (low32_lt v)]
      have g : ∀ s, (s + n + 1 ≤ j ∨ j + n + 1 ≤ s) →
          value (wr m j (low32 v)) (s + 1) n = value m (s + 1) n := fun s hs =>
        value_frame _ _ _ _ (fun b hb1 hb2 => wr_other _ _ _ b (by omega))
      have gj : value (wr m j (low32 v)) (j + 1) n = value m (j + 1) n :=
        value_frame _ _ _ _ (fun b hb1 hb2 => wr_other _ _ _ b (by omega))
      rw [g i (by omega), g k (by omega), gj] at e
      rw [f1]
      have hl32 := low32_spec v
      generalize value (combB n (wr m j (low32 v)) (v / 2 ^ 32) (j + 1) (i + 1) (k + 1)).1
        (j + 1) n = V at e ⊢
      generalize (combB n (wr m j (low32 v)) (v / 2 ^ 32) (j + 1) (i + 1) (k + 1)).2 = C at e ⊢
      generalize low32 v = lo at hl32 ⊢
      generalize v / 2 ^ 32 = q at e hl32 ⊢
      rw [hv] at hl32
      push_cast
      generalize (2:ℤ) ^ (32 * n) = P at e ⊢
      linear_combination (2 ^ 32 : ℤ) * e + hl32
    · intro a ha
      rw [hfr a (by omega)]
      exact wr_other _ _ _ a (by omega)

theorem combC_spec :
    ∀ n (m : Mem) (x0 : Int) (j i : Nat),
      (i + n ≤ j ∨ j + n ≤ i) →
      (value (combC n m x0 j i).1 j n : Int) + (combC n m x0 j i).2 * 2 ^ (32 * n)
        = x0 + value m j n + value m i n
      ∧ ∀ a, (a < j ∨ j + n ≤ a) → (combC n m x0 j i).1 a = m a := by
  intro n
  induction n with
  | zero =>
    intro m x0 j i _
    simp [combC, value]
  | succ n ih =>
    intro m x0 j i hi
    simp only [combC]
    set v : Int := x0 + ((rd m j : Int) + (rd m i : Int)) with hv
    obtain ⟨e, hfr⟩ := ih (wr m j (low32 v)) (v / 2 ^ 32) (j + 1) (i + 1) (by omega)
    constructor
    · rw [value_succ, value_succ, value_succ, pow_succ32_int]
      have f1 : rd (combC n (wr m j (low32 v)) (v / 2 ^ 32) (j + 1) (i + 1)).1 j = low32 v := by
        rw [rd_of_eq _ _ _ _ (hfr j (by omega)), rd_wr_same, Nat.mod_eq_of_lt (low32_lt v)]
      have g : ∀ s, (s + n + 1 ≤ j ∨ j + n + 1 ≤ s) →
          value (wr m j (low32 v)) (s + 1) n = value m (s + 1) n := fun s hs =>
        value_frame _ _ _ _ (fun b hb1 hb2 => wr_other _ _ _ b (by omega))
      have gj : value (wr m j (low32 v)) (j + 1) n = value m (j + 1) n :=
        value_frame _ _ _ _ (fun b hb1 hb2 => wr_other _ _ _ b (by omega))
      rw [g i (by omega), gj] at e
      rw [f1]
      have hl32 := low32_spec v
      generalize value (combC n (wr m j (low32 v)) (v / 2 ^ 32) (j + 1) (i + 1)).1 (j + 1) n = V at e ⊢
      generalize (combC n (wr m j (low32 v)) (v / 2 ^ 32) (j + 1) (i + 1)).2 = C at e ⊢
      generalize low32 v = lo at hl32 ⊢
      generalize v / 2 ^ 32 = q at e hl32 ⊢
      rw [hv] at hl32
      push_cast
      generalize (2:ℤ) ^ (32 * n) = P at e ⊢
      linear_combination (2 ^ 32 : ℤ) * e + hl32
    · intro a ha
      rw [hfr a (by omega)]
      exact wr_other _ _ _ a (by omega)

/-- The final ripple adds one to a number that is not all ones, within its words. -/
theorem ripple_spec :
    ∀ n (fuel : Nat) (m : Mem) (a : Nat), n ≤ fuel → value m a n + 1 < 2 ^ (32 * n) →
      ∃ m', ripple fuel m a = some m' ∧ value m' a n = value m a n + 1
        ∧ ∀ b, (b < a ∨ a + n ≤ b) → m' b = m b := by
  intro n
  induction n with
  | zero =>
    intro fuel m a _ h
    simp [value] at h
  | succ n ih =>
    intro fuel m a hf h
    obtain ⟨f, rfl⟩ : ∃ f, fuel = f + 1 := ⟨fuel - 1, by omega⟩
    simp only [ripple]
    have hw := rd_lt m a
    have hr : rd (wr m a (rd m a + 1)) a = (rd m a + 1) % 2 ^ 32 := rd_wr_same _ _ _
    have hrest : value (wr m a (rd m a + 1)) (a + 1) n = value m (a + 1) n :=
      value_frame _ _ _ _ (fun b hb1 hb2 => wr_other _ _ _ b (by omega))
    rw [value_succ, pow_succ32] at h
    by_cases hz : rd (wr m a (rd m a + 1)) a = 0
    · rw [if_pos hz]
      have hw1 : rd m a = 2 ^ 32 - 1 := by rw [hr] at hz; omega
      obtain ⟨m', hm', e, hfr⟩ := ih f (wr m a (rd m a + 1)) (a + 1) (by omega) (by
        rw [hrest]
        generalize value m (a + 1) n = V at h
        generalize (2:ℕ) ^ (32 * n) = P at h
        omega)
      refine ⟨m', hm', ?_, fun b hb => ?_⟩
      · rw [value_succ, value_succ, e, hrest, rd_of_eq _ _ _ _ (hfr a (by omega)), hz, hw1]
        omega
      · rw [hfr b (by omega)]
        exact wr_other _ _ _ b (by omega)
    · rw [if_neg hz]
      refine ⟨_, rfl, ?_, fun b hb => wr_other _ _ _ b (by omega)⟩
      rw [value_succ, value_succ, hrest, hr]
      rw [hr] at hz
      omega

theorem memcpy_rd (m : Mem) (dst src n i : Nat) (hi : i < n) :
    rd (memcpy m dst src n) (dst + i) = rd m (src + i) := by
  apply rd_of_eq
  unfold memcpy
  rw [if_pos ⟨by omega, by omega⟩, Nat.add_sub_cancel_left]

theorem memcpy_other (m : Mem) (dst src n a : Nat) (ha : a < dst ∨ dst + n ≤ a) :
    memcpy m dst src n a = m a := by
  unfold memcpy
  rw [if_neg (by omega)]

theorem memcpy_value (m : Mem) (dst src n : Nat) :
    value (memcpy m dst src n) dst n = value m src n :=
  value_congr _ _ _ _ _ (fun i hi => memcpy_rd m dst src n i hi)

/-- The three accumulation loops of the combination step, taken together. -/
theorem comb_chain (m3 : Mem) (A0 Tm K Lp b d e : Nat)
    (hT : Tm + (b * 2 + 2 * d + e) ≤ A0 ∨ A0 + (b * 2 + 2 * d + e) ≤ Tm)
    (hK : K + (b * 2 + 2 * d) ≤ A0 ∨ A0 + (b * 2 + 2 * d + e) ≤ K)
    (hL : Lp + b * 2 ≤ A0 ∨ A0 + (b * 2 + 2 * d + e) ≤ Lp) :
    (value (combC e (combB (2 * d) (combA (b * 2) m3 0 A0 Tm K Lp).1
              (combA (b * 2) m3 0 A0 Tm K Lp).2 (A0 + b * 2) (Tm + b * 2) (K + b * 2)).1
            (combB (2 * d) (combA (b * 2) m3 0 A0 Tm K Lp).1
              (combA (b * 2) m3 0 A0 Tm K Lp).2 (A0 + b * 2) (Tm + b * 2) (K + b * 2)).2
            (A0 + b * 2 + 2 * d) (Tm + b * 2 + 2 * d)).1 A0 (b * 2 + 2 * d + e) : Int)
        + (combC e (combB (2 * d) (combA (b * 2) m3 0 A0 Tm K Lp).1
              (combA (b * 2) m3 0 A0 Tm K Lp).2 (A0 + b * 2) (Tm + b * 2) (K + b * 2)).1
            (combB (2 * d) (combA (b * 2) m3 0 A0 Tm K Lp).1
              (combA (b * 2) m3 0 A0 Tm K Lp).2 (A0 + b * 2) (Tm + b * 2) (K + b * 2)).2
            (A0 + b * 2 + 2 * d) (Tm + b * 2 + 2 * d)).2 * 2 ^ (32 * (b * 2 + 2 * d + e))
      = value m3 A0 (b * 2 + 2 * d + e) + value m3 Tm (b * 2 + 2 * d + e)
          - value m3 K (b * 2 + 2 * d) - value m3 Lp (b * 2)
    ∧ ∀ a, (a < A0 ∨ A0 + (b * 2 + 2 * d + e) ≤ a) →
        (combC e (combB (2 * d) (combA (b * 2) m3 0 A0 Tm K Lp).1
              (combA (b * 2) m3 0 A0 Tm K Lp).2 (A0 + b * 2) (Tm + b * 2) (K + b * 2)).1
            (combB (2 * d) (combA (b * 2) m3 0 A0 Tm K Lp).1
              (combA (b * 2) m3 0 A0 Tm K Lp).2 (A0 + b * 2) (Tm + b * 2) (K + b * 2)).2
            (A0 + b * 2 + 2 * d) (Tm + b * 2 + 2 * d)).1 a = m3 a := by
  obtain ⟨eA, fA⟩ := combA_spec (b * 2) m3 0 A0 Tm K Lp (by omega) (by omega) (by omega)
  generalize combA (b * 2) m3 0 A0 Tm K Lp = cA at eA fA ⊢
  obtain ⟨eB, fB⟩ := combB_spec (2 * d) cA.1 cA.2 (A0 + b * 2) (Tm + b * 2) (K + b * 2)
    (by omega) (by omega)
  generalize combB (2 * d) cA.1 cA.2 (A0 + b * 2) (Tm + b * 2) (K + b * 2) = cB at eB fB ⊢
  obtain ⟨eC, fC⟩ := combC_spec e cB.1 cB.2 (A0 + b * 2 + 2 * d) (Tm + b * 2 + 2 * d) (by omega)
  generalize combC e cB.1 cB.2 (A0 + b * 2 + 2 * d) (Tm + b * 2 + 2 * d) = cC at eC fC ⊢
  have sp : ∀ (mm : Mem) (a : Nat), value mm a (b * 2 + 2 * d + e)
      = value mm a (b * 2) + 2 ^ (32 * (b * 2)) * value mm (a + b * 2) (2 * d)
        + 2 ^ (32 * (b * 2 + 2 * d)) * value mm (a + b * 2 + 2 * d) e := by
    intro mm a
    rw [value_split mm a (b * 2 + 2 * d) e, value_split mm a (b * 2) (2 * d),
      Nat.add_assoc a (b * 2) (2 * d)]
  have sp2 : ∀ (mm : Mem) (a : Nat), value mm a (b * 2 + 2 * d)
      = value mm a (b * 2) + 2 ^ (32 * (b * 2)) * value mm (a + b * 2) (2 * d) :=
    fun mm a => value_split mm a (b * 2) (2 * d)
  -- frames
  have c1 : value cC.1 A0 (b * 2) = value cA.1 A0 (b * 2) :=
    value_frame _ _ _ _ (fun x h1 h2 => by rw [fC x (by omega), fB x (by omega)])
  have c2 : value cC.1 (A0 + b * 2) (2 * d) = value cB.1 (A0 + b * 2) (2 * d) :=
    value_frame _ _ _ _ (fun x h1 h2 => fC x (by omega))
  have a2 : value cA.1 (A0 + b * 2) (2 * d) = value m3 (A0 + b * 2) (2 * d) :=
    value_frame _ _ _ _ (fun x h1 h2 => fA x (by omega))
  have a3 : value cA.1 (Tm + b * 2) (2 * d) = value m3 (Tm + b * 2) (2 * d) :=
    value_frame _ _ _ _ (fun x h1 h2 => fA x (by omega))
  have a4 : value cA.1 (K + b * 2) (2 * d) = value m3 (K + b * 2) (2 * d) :=
    value_frame _ _ _ _ (fun x h1 h2 => fA x (by omega))
  have b3 : value cB.1 (A0 + b * 2 + 2 * d) e = value m3 (A0 + b * 2 + 2 * d) e :=
    value_frame _ _ _ _ (fun x h1 h2 => by rw [fB x (by omega), fA x (by omega)])
  have b4 : value cB.1 (Tm + b * 2 + 2 * d) e = value m3 (Tm + b * 2 + 2 * d) e :=
    value_frame _ _ _ _ (fun x h1 h2 => by rw [fB x (by omega), fA x (by omega)])
  rw [a2, a3, a4] at eB
  rw [b3, b4] at eC
  constructor
  · rw [sp cC.1 A0, sp m3 A0, sp m3 Tm, sp2 m3 K, c1, c2]
    push_cast
    rw [show 32 * (b * 2 + 2 * d + e) = 32 * (b * 2) + 32 * (2 * d) + 32 * e by ring,
      show 32 * (b * 2 + 2 * d) = 32 * (b * 2) + 32 * (2 * d) by ring, pow_add, pow_add, pow_add]
    linear_combination eA + (2 ^ (32 * (b * 2)) : ℤ) * eB
      + (2 ^ (32 * (b * 2)) * 2 ^ (32 * (2 * d)) : ℤ) * eC
  · intro a ha
    rw [fC a (by omega), fB a (by omega), fA a (by omega)]

theorem ripple_bound (Wb Wc Wn lo win win' mid hi : Nat)
    (htot : lo + Wb * win + Wb * Wc * hi + Wb * mid < Wb * Wc * Wn)
    (eN : win' + Wc = win + mid) : hi + 1 < Wn := by
  by_contra hge
  push_neg at hge
  have h1 : Wb * Wc * Wn ≤ Wb * Wc * (hi + 1) := Nat.mul_le_mul_left _ hge
  have h2 : Wb * (win' + Wc) = Wb * (win + mid) := by rw [eN]
  nlinarith [h1, h2, htot]

set_option maxHeartbeats 1000000 in
/-- The combination step in normalised parameters: `len = 2 * b + d`, `r = b + d + e`;
the residual carry before the final ripple is 0 or 1. -/
theorem kcombine_full (fuel : Nat) (m : Mem) (z zoff tmp tmpoff b d e : Nat)
    (hd : d ≤ 1) (he : e ≤ 1) (hb1 : 1 ≤ b)
    (hdis : tmp + tmpoff + ((b + d + e) * 2 + (b * 2 + d) * 2) ≤ z + zoff
      ∨ z + zoff + (b * 2 + d) * 2 ≤ tmp + tmpoff)
    (hfuel : (b * 2 + d) * 2 ≤ fuel + 1)
    (M P0 P1 : Nat)
    (hMv : value m (tmp + tmpoff) (b * 2 + 2 * d + e) = M)
    (hP0 : value m (tmp + (tmpoff + (b + d + e) * 2)) (b * 2) = P0)
    (hP1 : value m (tmp + (tmpoff + (b + d + e) * 2 + b * 2)) (b * 2 + 2 * d) = P1)
    (hmid : P0 + P1 ≤ M)
    (hM : M < 2 ^ (32 * (b * 2 + 2 * d + e)))
    (hfit : P0 + 2 ^ (32 * (b * 2)) * P1 + 2 ^ (32 * b) * (M - P0 - P1)
      < 2 ^ (32 * ((b * 2 + d) * 2))) :
    (∃ m', kcombine fuel m z zoff tmp tmpoff (b * 2 + d) b (b + d + e) = some m'
      ∧ value m' (z + zoff) ((b * 2 + d) * 2) + 2 ^ (32 * b) * (P0 + P1)
          = P0 + 2 ^ (32 * (b * 2)) * P1 + 2 ^ (32 * b) * M
      ∧ ∀ a, (a < z + zoff ∨ z + zoff + (b * 2 + d) * 2 ≤ a) → m' a = m a)
    ∧ ((kloops m z zoff tmp tmpoff (b * 2 + d) b (b + d + e)).2 = 0
      ∨ (kloops m z zoff tmp tmpoff (b * 2 + d) b (b + d + e)).2 = 1) := by
  simp only [kcombine, kloops]
  have hnB : tmpoff + (b * 2 + d - b) * 2 - (tmpoff + b * 2) = 2 * d := by omega
  rw [hnB]
  have hnC : tmpoff + (b + d + e) * 2 - 1 - (tmpoff + b * 2 + 2 * d) = e := by omega
  rw [hnC]
  rw [show z + (zoff + b + b * 2) = z + (zoff + b) + b * 2 by omega,
    show tmp + (tmpoff + b * 2) = tmp + tmpoff + b * 2 by omega,
    show tmp + (tmpoff + (b + d + e) * 2 + b * 2 + b * 2)
      = tmp + (tmpoff + (b + d + e) * 2 + b * 2) + b * 2 by omega,
    show z + (zoff + b + b * 2 + 2 * d) = z + (zoff + b) + b * 2 + 2 * d by omega,
    show tmp + (tmpoff + b * 2 + 2 * d) = tmp + tmpoff + b * 2 + 2 * d by omega]
  set m3 := memcpy m (z + zoff) (tmp + (tmpoff + (b + d + e) * 2)) ((b * 2 + d) * 2) with hm3
  have f3 : ∀ a, (a < z + zoff ∨ z + zoff + (b * 2 + d) * 2 ≤ a) → m3 a = m a :=
    fun a ha => memcpy_other _ _ _ _ a ha
  have e3 : value m3 (z + zoff) ((b * 2 + d) * 2) = P0 + 2 ^ (32 * (b * 2)) * P1 := by
    rw [hm3, memcpy_value, show (b * 2 + d) * 2 = b * 2 + (b * 2 + 2 * d) by ring, value_split,
      hP0, show tmp + (tmpoff + (b + d + e) * 2) + b * 2
        = tmp + (tmpoff + (b + d + e) * 2 + b * 2) by omega, hP1]
  obtain ⟨eC, fC⟩ := comb_chain m3 (z + (zoff + b)) (tmp + tmpoff)
    (tmp + (tmpoff + (b + d + e) * 2 + b * 2)) (tmp + (tmpoff + (b + d + e) * 2)) b d e
    (by omega) (by omega) (by omega)
  generalize combC e _ _ (z + (zoff + b) + b * 2 + 2 * d) (tmp + tmpoff + b * 2 + 2 * d) = cC
    at eC fC ⊢
  -- the tmp operands are not touched by the memcpy
  rw [value_frame m m3 (tmp + tmpoff) _ (fun x h1 h2 => f3 x (by omega)), hMv,
    value_frame m m3 (tmp + (tmpoff + (b + d + e) * 2 + b * 2)) _ (fun x h1 h2 => f3 x (by omega)),
    hP1,
    value_frame m m3 (tmp + (tmpoff + (b + d + e) * 2)) _ (fun x h1 h2 => f3 x (by omega)),
    hP0] at eC
  -- split the output into low part, window and high part
  set cnt := b * 2 + 2 * d + e with hcnt
  set nr := (b * 2 + d) * 2 - b - cnt with hnr
  have hlen2 : (b * 2 + d) * 2 = b + (cnt + nr) := by omega
  have sp : ∀ mm : Mem, value mm (z + zoff) ((b * 2 + d) * 2)
      = value mm (z + zoff) b + 2 ^ (32 * b) * value mm (z + (zoff + b)) cnt
        + 2 ^ (32 * b) * 2 ^ (32 * cnt) * value mm (z + (zoff + b) + cnt) nr := by
    intro mm
    rw [hlen2, value_split mm (z + zoff) b (cnt + nr), value_split mm (z + zoff + b) cnt nr,
      show z + zoff + b = z + (zoff + b) by omega]
    ring
  have hpw : (2:ℕ) ^ (32 * ((b * 2 + d) * 2)) = 2 ^ (32 * b) * 2 ^ (32 * cnt) * 2 ^ (32 * nr) := by
    rw [hlen2, show 32 * (b + (cnt + nr)) = 32 * b + 32 * cnt + 32 * nr by ring, pow_add, pow_add]
  have hlo : value cC.1 (z + zoff) b = value m3 (z + zoff) b :=
    value_frame _ _ _ _ (fun x h1 h2 => fC x (by omega))
  have hhi : value cC.1 (z + (zoff + b) + cnt) nr = value m3 (z + (zoff + b) + cnt) nr :=
    value_frame _ _ _ _ (fun x h1 h2 => fC x (by omega))
  have hwlt := value_lt cC.1 (z + (zoff + b)) cnt
  have hw3lt := value_lt m3 (z + (zoff + b)) cnt
  have e3' := e3
  rw [sp m3] at e3'
  rw [hpw] at hfit
  -- name the quantities
  generalize hWb : (2:ℕ) ^ (32 * b) = Wb at *
  generalize hWc : (2:ℕ) ^ (32 * cnt) = Wc at *
  generalize hWn : (2:ℕ) ^ (32 * nr) = Wn at *
  generalize hW2 : (2:ℕ) ^ (32 * (b * 2)) = W2 at *
  have hWbpos : 0 < Wb := by rw [← hWb]; positivity
  have hWcpos : 0 < Wc := by rw [← hWc]; positivity
  generalize hlo3 : value m3 (z + zoff) b = lo at *
  generalize hwin3 : value m3 (z + (zoff + b)) cnt = win at *
  generalize hhi3 : value m3 (z + (zoff + b) + cnt) nr = hi at *
  generalize hwinC : value cC.1 (z + (zoff + b)) cnt = win' at *
  obtain ⟨mid, hmidv⟩ : ∃ mid, M = P0 + P1 + mid := ⟨M - (P0 + P1), by omega⟩
  have hmsub : M - P0 - P1 = mid := by omega
  rw [hmsub] at hfit
  have hmidlt : mid < Wc := by omega
  rw [show ((2:ℤ) ^ (32 * cnt)) = (Wc : ℤ) by rw [← hWc]; push_cast; rfl] at eC
  have eC' : (win' : ℤ) + cC.2 * Wc = win + mid := by
    rw [hmidv] at eC; push_cast at eC; linarith
  -- the residual carry is 0 or 1
  have hx0 : cC.2 = 0 ∨ cC.2 = 1 := by
    have h1 : (0:ℤ) ≤ cC.2 := by
      by_contra hneg
      push_neg at hneg
      have : cC.2 * (Wc : ℤ) ≤ -1 * Wc := by
        apply mul_le_mul_of_nonneg_right (by omega) (by positivity)
      have hw' : (win' : ℤ) < Wc := by exact_mod_cast hwlt
      have : (0:ℤ) ≤ (win : ℤ) + mid := by positivity
      linarith
    have h2 : cC.2 < 2 := by
      by_contra hge
      push_neg at hge
      have : (2:ℤ) * Wc ≤ cC.2 * (Wc : ℤ) := by
        apply mul_le_mul_of_nonneg_right hge (by positivity)
      have hw' : (win : ℤ) < Wc := by exact_mod_cast hw3lt
      have hm' : (mid : ℤ) < Wc := by exact_mod_cast hmidlt
      have : (0:ℤ) ≤ (win' : ℤ) := by positivity
      linarith
    omega
  -- total value
  have htot : lo + Wb * win + Wb * Wc * hi + Wb * mid < Wb * Wc * Wn := by
    rw [e3']; exact hfit
  refine ⟨?_, hx0⟩
  rcases hx0 with h0 | h1
  · have hne : ¬ (cC.2 ≠ 0) := by rw [h0]; norm_num
    rw [if_neg hne]
    refine ⟨cC.1, rfl, ?_, fun a ha => by rw [fC a (by omega), f3 a ha]⟩
    rw [sp cC.1, hlo, hhi, hwinC]
    rw [h0] at eC'
    have eN : win' = win + mid := by
      have : (win' : ℤ) = win + mid := by linarith
      exact_mod_cast this
    rw [eN, hmidv]
    zify at e3' ⊢
    linear_combination e3'
  · have hne : cC.2 ≠ 0 := by rw [h1]; norm_num
    rw [if_pos hne, show z + (zoff + b + b * 2 + 2 * d + e) = z + (zoff + b) + cnt by omega]
    rw [h1] at eC'
    have eN : win' + Wc = win + mid := by
      have : (win' : ℤ) + Wc = win + mid := by linarith
      exact_mod_cast this
    have hhi1 : hi + 1 < Wn := ripple_bound Wb Wc Wn lo win win' mid hi htot eN
    rw [← hhi, ← hWn] at hhi1
    obtain ⟨m', hm', er, fr⟩ := ripple_spec nr fuel cC.1 (z + (zoff + b) + cnt) (by omega) hhi1
    refine ⟨m', hm', ?_, fun a ha => by rw [fr a (by omega), fC a (by omega), f3 a ha]⟩
    have hlo' : value m' (z + zoff) b = lo := by
      rw [← hlo]
      exact value_frame _ _ _ _ (fun x h1 h2 => fr x (by omega))
    have hwin' : value m' (z + (zoff + b)) cnt = win' := by
      rw [← hwinC]
      exact value_frame _ _ _ _ (fun x h1 h2 => fr x (by omega))
    rw [sp m', hlo', hwin', er, hhi, hmidv]
    zify at e3' eN ⊢
    linear_combination e3' + (Wb : ℤ) * eN

/-- The combination step in normalised parameters: `len = 2 * b + d`, `r = b + d + e`. -/
theorem kcombine_core (fuel : Nat) (m : Mem) (z zoff tmp tmpoff b d e : Nat)
    (hd : d ≤ 1) (he : e ≤ 1) (hb1 : 1 ≤ b)
    (hdis : tmp + tmpoff + ((b + d + e) * 2 + (b * 2 + d) * 2) ≤ z + zoff
      ∨ z + zoff + (b * 2 + d) * 2 ≤ tmp + tmpoff)
    (hfuel : (b * 2 + d) * 2 ≤ fuel + 1)
    (M P0 P1 : Nat)
    (hMv : value m (tmp + tmpoff) (b * 2 + 2 * d + e) = M)
    (hP0 : value m (tmp + (tmpoff + (b + d + e) * 2)) (b * 2) = P0)
    (hP1 : value m (tmp + (tmpoff + (b + d + e) * 2 + b * 2)) (b * 2 + 2 * d) = P1)
    (hmid : P0 + P1 ≤ M)
    (hM : M < 2 ^ (32 * (b * 2 + 2 * d + e)))
    (hfit : P0 + 2 ^ (32 * (b * 2)) * P1 + 2 ^ (32 * b) * (M - P0 - P1)
      < 2 ^ (32 * ((b * 2 + d) * 2))) :
    ∃ m', kcombine fuel m z zoff tmp tmpoff (b * 2 + d) b (b + d + e) = some m'
      ∧ value m' (z + zoff) ((b * 2 + d) * 2) + 2 ^ (32 * b) * (P0 + P1)
          = P0 + 2 ^ (32 * (b * 2)) * P1 + 2 ^ (32 * b) * M
      ∧ ∀ a, (a < z + zoff ∨ z + zoff + (b * 2 + d) * 2 ≤ a) → m' a = m a :=
  (kcombine_full fuel m z zoff tmp tmpoff b d e hd he hb1 hdis hfuel M P0 P1 hMv hP0 hP1 hmid
    hM hfit).1

theorem ksum_spec (m : Mem) (b d dst src : Nat) (hd : d ≤ 1)
    (hz : ∀ t, b ≤ t → t ≤ b + d → rd m (dst + t) = 0)
    (hdis : src + (b * 2 + d) ≤ dst ∨ dst + (b + d + 1) ≤ src) :
    value (ksum m (b * 2 + d) b dst src) dst (b + d + 1)
      = value m src b + value m (src + b) (b + d)
    ∧ ∀ a, (a < dst ∨ dst + (b + d + 1) ≤ a) → ksum m (b * 2 + d) b dst src a = m a := by
  obtain ⟨e1, hc1, f1⟩ := addLoop_spec b m dst src (src + b) 0 (by norm_num) (by omega) (by omega)
  simp only [ksum]
  generalize addLoop b m dst src (src + b) 0 = s at e1 hc1 f1 ⊢
  simp only [Nat.add_zero] at e1
  rcases Nat.le_one_iff_eq_zero_or_eq_one.mp hd with rfl | rfl
  · -- even length
    have htop : rd s.1 (dst + b) = 0 := by
      rw [rd_of_eq _ _ _ _ (f1 _ (by omega))]; exact hz b (le_refl _) (by omega)
    obtain ⟨e2, f2⟩ := sumTop_even s.1 (b * 2 + 0) s.2 (dst + b) (src + b * 2) hc1 (by omega) htop
    generalize sumTop s.1 (b * 2 + 0) s.2 (dst + b) (src + b * 2) = R at e2 f2 ⊢
    constructor
    · rw [show b + 0 + 1 = b + 1 by rfl, value_snoc, e2,
        value_frame s.1 R dst b (fun a h1 h2 => f2 a (by omega))]
      simp only [Nat.add_zero]
      rw [← e1]; ring
    · intro a ha
      rw [f2 a (by omega), f1 a (by omega)]
  · -- odd length
    have htop : rd s.1 (dst + b + 1) = 0 := by
      rw [rd_of_eq _ _ _ _ (f1 _ (by omega))]
      exact hz (b + 1) (by omega) (le_refl _)
    obtain ⟨e2, f2⟩ := sumTop_odd s.1 (b * 2 + 1) s.2 (dst + b) (src + b * 2) hc1 (by omega) htop
    generalize sumTop s.1 (b * 2 + 1) s.2 (dst + b) (src + b * 2) = R at e2 f2 ⊢
    have hsrc : rd s.1 (src + b * 2) = rd m (src + b * 2) := rd_of_eq _ _ _ _ (f1 _ (by omega))
    rw [hsrc] at e2
    constructor
    · rw [show b + 1 + 1 = (b + 1) + 1 by rfl, value_snoc, value_snoc,
        value_frame s.1 R dst b (fun a h1 h2 => f2 a (by omega) (by omega)),
        value_snoc m (src + b) b, show src + b + b = src + b * 2 by ring,
        show dst + (b + 1) = dst + b + 1 by ring, pow_succ32]
      generalize rd R (dst + b) = t0 at e2 ⊢
      generalize rd R (dst + b + 1) = t1 at e2 ⊢
      generalize value s.1 dst b = V at e1 ⊢
      generalize (2:ℕ) ^ (32 * b) = P at e1 ⊢
      zify at e1 e2 ⊢
      linear_combination e1 + (P : ℤ) * e2
    · intro a ha
      rw [f2 a (by omega) (by omega), f1 a (by omega)]

/-- The two operand sums of lines 159-182 in a zeroed arena. -/
theorem ksums_spec (m0 : Mem) (X Y T J b d : Nat) (hd : d ≤ 1)
    (hz : ∀ a, T + J ≤ a → a < T + (J + (b + d) * 2 + 2) → rd m0 a = 0)
    (hX : X + (b * 2 + d) ≤ T) (hY : Y + (b * 2 + d) ≤ T) :
    value (ksum (ksum m0 (b * 2 + d) b (T + J) X) (b * 2 + d) b (T + (J + (b + d) + 1)) Y)
        (T + J) (b + d + 1) = value m0 X b + value m0 (X + b) (b + d)
    ∧ value (ksum (ksum m0 (b * 2 + d) b (T + J) X) (b * 2 + d) b (T + (J + (b + d) + 1)) Y)
        (T + (J + (b + d) + 1)) (b + d + 1) = value m0 Y b + value m0 (Y + b) (b + d)
    ∧ ∀ a, (a < T + J ∨ T + (J + (b + d) * 2 + 2) ≤ a) →
        ksum (ksum m0 (b * 2 + d) b (T + J) X) (b * 2 + d) b (T + (J + (b + d) + 1)) Y a = m0 a := by
  obtain ⟨e1, f1⟩ := ksum_spec m0 b d (T + J) X hd
    (fun t h1 h2 => hz _ (by omega) (by omega)) (by omega)
  generalize ksum m0 (b * 2 + d) b (T + J) X = m1 at e1 f1 ⊢
  obtain ⟨e2, f2⟩ := ksum_spec m1 b d (T + (J + (b + d) + 1)) Y hd
    (fun t h1 h2 => by
      rw [rd_of_eq _ _ _ _ (f1 _ (by omega))]
      exact hz _ (by omega) (by omega)) (by omega)
  generalize ksum m1 (b * 2 + d) b (T + (J + (b + d) + 1)) Y = m2 at e2 f2 ⊢
  refine ⟨?_, ?_, ?_⟩
  · rw [value_frame m1 m2 (T + J) (b + d + 1) (fun a h1 h2 => f2 a (by omega)), e1]
  · rw [e2, value_frame m0 m1 Y b (fun a h1 h2 => f1 a (by omega)),
      value_frame m0 m1 (Y + b) (b + d) (fun a h1 h2 => f1 a (by omega))]
  · intro a ha
    rw [f2 a (by omega), f1 a (by omega)]

/-- Line 186 when both sums have the same value: `r` words hold each sum. -/
theorem r_phase (m2 : Mem) (sx sy n S e : Nat) (c2 : Prop) [Decidable c2]
    (hx : value m2 sx (n + 1) = S) (hy : value m2 sy (n + 1) = S)
    (he : (if rd m2 (sx + n) ≠ 0 ∨ c2 then 1 else 0) = e) :
    e ≤ 1 ∧ value m2 sx (n + e) = S ∧ value m2 sy (n + e) = S
    ∧ ∀ t, t < n + e → rd m2 (sx + t) = rd m2 (sy + t) := by
  have hw : ∀ t, t < n + 1 → rd m2 (sx + t) = rd m2 (sy + t) :=
    value_inj m2 m2 sy sx (n + 1) (by rw [hx, hy])
  by_cases hc : rd m2 (sx + n) ≠ 0 ∨ c2
  · rw [if_pos hc] at he
    subst he
    exact ⟨le_refl _, hx, hy, hw⟩
  · rw [if_neg hc] at he
    subst he
    have h0 : rd m2 (sx + n) = 0 := by
      by_contra h; exact hc (Or.inl h)
    have h0' : rd m2 (sy + n) = 0 := by rw [← hw n (by omega)]; exact h0
    rw [value_snoc, h0] at hx
    rw [value_snoc, h0'] at hy
    exact ⟨by norm_num, by simpa using hx, by simpa using hy, fun t ht => hw t (by omega)⟩

/-- Arithmetic of the Karatsuba identity and its bounds. -/
theorem karatsuba_arith (Wb Wd xl xh yl yh : Nat) (hxl : xl < Wb) (hyl : yl < Wb)
    (hxh : xh < Wb * Wd) (hyh : yh < Wb * Wd) :
    xl * yl + xh * yh ≤ (xl + xh) * (yl + yh)
    ∧ xl * yl + Wb * Wb * (xh * yh) + Wb * ((xl + xh) * (yl + yh) - xl * yl - xh * yh)
        = (xl + Wb * xh) * (yl + Wb * yh)
    ∧ (xl + Wb * xh) * (yl + Wb * yh) < (Wb * (Wb * Wd)) * (Wb * (Wb * Wd)) := by
  have h1 : (xl + xh) * (yl + yh) = xl * yl + xh * yh + (xl * yh + xh * yl) := by ring
  refine ⟨by rw [h1]; omega, ?_, ?_⟩
  · rw [h1, show xl * yl + xh * yh + (xl * yh + xh * yl) - xl * yl - xh * yh = xl * yh + xh * yl
      by omega]
    ring
  · have hX : xl + Wb * xh < Wb * (Wb * Wd) := by
      have : Wb * (xh + 1) ≤ Wb * (Wb * Wd) := Nat.mul_le_mul_left _ hxh
      nlinarith
    have hY : yl + Wb * yh < Wb * (Wb * Wd) := by
      have : Wb * (yh + 1) ≤ Wb * (Wb * Wd) := Nat.mul_le_mul_left _ hyh
      nlinarith
    exact Nat.mul_lt_mul'' hX hY

theorem calloc_mem_zero (h : Heap) (n a : Nat) (h1 : h.brk ≤ a) (h2 : a < h.brk + n) :
    (calloc h n).mem a = 0 := by
  unfold calloc
  simp only
  rw [if_pos ⟨h1, h2⟩]

theorem calloc_mem_other (h : Heap) (n a : Nat) (h1 : a < h.brk) :
    (calloc h n).mem a = h.mem a := by
  unfold calloc
  simp only
  rw [if_neg (by omega)]

theorem calloc_brk (h : Heap) (n : Nat) : (calloc h n).brk = h.brk + n := rfl

set_option maxHeartbeats 2000000 in
theorem karatsuba_step (f : Nat) (ih : KSq f) : KSq (f + 1) := by
  intro h x xoff y yoff z zoff zlen zlength off len parallel hlen hfuel hfresh hxz hyz hxb hyb hzb heq
  by_cases hsmall : len ≤ 32
  · simp only [karatsuba, if_pos hsmall]
    obtain ⟨e, fr⟩ := kbase_spec h.mem x (xoff + off) y (yoff + off) z zoff len hlen (by omega)
      (by omega)
    refine ⟨_, rfl, ?_, ?_, le_refl _⟩
    · rw [show len * 2 = 2 * len by ring]; exact e
    · intro a _ ha; exact fr a (by omega)
  · obtain ⟨b, d, hd, rfl⟩ : ∃ b d, d ≤ 1 ∧ len = b * 2 + d :=
      ⟨len / 2, len % 2, by omega, by omega⟩
    have hb16 : 16 ≤ b := by omega
    have hdiv : (b * 2 + d) / 2 = b := by omega
    have hsub : b * 2 + d - b = b + d := by omega
    have har : arena h z zoff zlen zlength (b * 2 + d) parallel
        = ⟨0, (b * 2 + d) * 2 + (b + d) * 2 + 2, (b * 2 + d) * 2 + (b + d) * 2 + 2 + (b + d) * 2,
            (b * 2 + d) * 2 + (b + d) * 2 + 2 + (b + d) * 2 + 2, h.brk,
            calloc h ((b * 2 + d) * 2 + (b + d) * 2 + 2 + (b + d) * 2 + 2)⟩ := by
      unfold arena
      simp only [hdiv, hsub]
      rw [if_neg]
      intro hc
      have := hfresh hc.1 (by omega)
      rw [hdiv, hsub] at this
      omega
    simp only [karatsuba, if_neg hsmall, hdiv, hsub, har, calloc_brk]
    clear har hfresh
    -- names for the operands and the arena
    generalize hJ : (b * 2 + d) * 2 + (b + d) * 2 + 2 = J
    generalize hX : x + (xoff + off) = X at *
    generalize hY : y + (yoff + off) = Y at *
    generalize hT : h.brk = T at *
    have hz0 : ∀ a, T + J ≤ a → a < T + (J + (b + d) * 2 + 2) →
        rd (calloc h (J + (b + d) * 2 + 2)).mem a = 0 := by
      intro a h1 h2
      unfold rd
      rw [calloc_mem_zero h _ a (by omega) (by omega)]
      rfl
    have ho0 : ∀ a, a < T → (calloc h (J + (b + d) * 2 + 2)).mem a = h.mem a :=
      fun a ha => calloc_mem_other h _ a (by omega)
    generalize (calloc h (J + (b + d) * 2 + 2)).mem = m0 at hz0 ho0 ⊢
    -- the operand sums
    obtain ⟨sx, sy, fs⟩ := ksums_spec m0 X Y T J b d hd hz0 (by omega) (by omega)
    generalize ksum (ksum m0 (b * 2 + d) b (T + J) X) (b * 2 + d) b (T + (J + (b + d) + 1)) Y
      = m2 at sx sy fs ⊢
    -- both operands hold the same words
    obtain ⟨xl, hxl⟩ : ∃ xl, value h.mem X b = xl := ⟨_, rfl⟩
    obtain ⟨xh, hxh⟩ : ∃ xh, value h.mem (X + b) (b + d) = xh := ⟨_, rfl⟩
    have hyl : value h.mem Y b = xl := by
      rw [← hxl]
      exact value_congr _ _ _ _ _ (fun i hi => (heq i (by omega)).symm)
    have hyh : value h.mem (Y + b) (b + d) = xh := by
      rw [← hxh]
      exact value_congr _ _ _ _ _ (fun i hi => by
        rw [show Y + b + i = Y + (b + i) by omega, show X + b + i = X + (b + i) by omega]
        exact (heq (b + i) (by omega)).symm)
    have hXY : value h.mem Y (b * 2 + d) = value h.mem X (b * 2 + d) :=
      value_congr _ _ _ _ _ (fun i hi => (heq i hi).symm)
    have hXsplit : value h.mem X (b * 2 + d) = xl + 2 ^ (32 * b) * xh := by
      rw [show b * 2 + d = b + (b + d) by ring, value_split, hxl, hxh]
    have hxllt : xl < 2 ^ (32 * b) := by rw [← hxl]; exact value_lt _ _ _
    have hxhlt : xh < 2 ^ (32 * b) * 2 ^ (32 * d) := by
      rw [← hxh, ← pow_add, show 32 * b + 32 * d = 32 * (b + d) by ring]; exact value_lt _ _ _
    rw [value_frame h.mem m0 X b (fun a h1 h2 => ho0 a (by omega)), hxl,
      value_frame h.mem m0 (X + b) (b + d) (fun a h1 h2 => ho0 a (by omega)), hxh] at sx
    rw [value_frame h.mem m0 Y b (fun a h1 h2 => ho0 a (by omega)), hyl,
      value_frame h.mem m0 (Y + b) (b + d) (fun a h1 h2 => ho0 a (by omega)), hyh] at sy
    rw [hXY, hXsplit]
    clear hXY hXsplit
    -- the length of the middle product
    rw [show T + (J + (b + d)) = T + J + (b + d) by omega]
    generalize hedef : (if rd m2 (T + J + (b + d)) ≠ 0 ∨ rd m2 (T + (J + (b + d) * 2)) ≠ 0
      then 1 else 0) = e
    obtain ⟨he, rx, ry, rwd⟩ := r_phase m2 (T + J) (T + (J + (b + d) + 1)) (b + d) (xl + xh) e
      _ sx sy hedef
    have hMlt : (xl + xh) * (xl + xh) < 2 ^ (32 * (b * 2 + 2 * d + e)) := by
      rcases Nat.le_one_iff_eq_zero_or_eq_one.mp he with h0 | h1
      · have hs : xl + xh < 2 ^ (32 * (b + d)) := by
          rw [← rx, h0]; exact value_lt _ _ _
        rw [h0, show 32 * (b * 2 + 2 * d + 0) = 32 * (b + d) + 32 * (b + d) by ring, pow_add]
        exact Nat.mul_lt_mul'' hs hs
      · have hs : xl + xh < 2 * (2 ^ (32 * b) * 2 ^ (32 * d)) := by
          have : 2 ^ (32 * b) * 1 ≤ 2 ^ (32 * b) * 2 ^ (32 * d) :=
            Nat.mul_le_mul_left _ (Nat.one_le_two_pow)
          omega
        rw [h1, show 32 * (b * 2 + 2 * d + 1) = 32 + ((32 * b + 32 * d) + (32 * b + 32 * d)) by ring,
          pow_add, pow_add, pow_add]
        calc (xl + xh) * (xl + xh)
            < (2 * (2 ^ (32 * b) * 2 ^ (32 * d))) * (2 * (2 ^ (32 * b) * 2 ^ (32 * d))) :=
              Nat.mul_lt_mul'' hs hs
          _ ≤ 2 ^ 32 * (2 ^ (32 * b) * 2 ^ (32 * d) * (2 ^ (32 * b) * 2 ^ (32 * d))) := by
              have : (4:ℕ) ≤ 2 ^ 32 := by norm_num
              calc (2 * (2 ^ (32 * b) * 2 ^ (32 * d))) * (2 * (2 ^ (32 * b) * 2 ^ (32 * d)))
                  = 4 * (2 ^ (32 * b) * 2 ^ (32 * d) * (2 ^ (32 * b) * 2 ^ (32 * d))) := by ring
                _ ≤ _ := Nat.mul_le_mul_right _ this
    clear hedef sx sy
    have hF0 : ∀ a, a < T → m2 a = h.mem a := fun a ha => by
      rw [fs a (by omega), ho0 a ha]
    -- first sub-call: the middle product
    obtain ⟨h1, hk1, v1, fr1, hb1⟩ := ih ⟨m2, T + (J + (b + d) * 2 + 2)⟩ T J T (J + (b + d) + 1)
      T 0 (0 + (b + d) * 2 + (b + d) * 2 + 3) (J + (b + d) * 2 + 2) 0 (b + d + e) (parallel - 1)
      (by omega) (by omega) (by intro _ _; omega) (by omega) (by omega) (by simp only; omega)
      (by simp only; omega) (by simp only; omega)
      (by
        intro t ht
        simp only [Nat.add_zero]
        exact rwd t ht)
    rw [hk1]
    simp only [Nat.add_zero] at v1 fr1 hb1
    rw [rx, ry] at v1
    simp only []
    have hF1 : ∀ a, a < T → h1.mem a = h.mem a := fun a ha => by
      rw [fr1 a (by omega) (by omega), hF0 a ha]
    -- second sub-call: the low product
    obtain ⟨h2, hk2, v2, fr2, hb2⟩ := ih h1 x xoff y yoff T (0 + (b + d + e) * 2)
      (0 + (b + d) * 2 + (b + d) * 2 + 3) (J + (b + d) * 2 + 2) off b (parallel - 1)
      (by omega) (by omega) (by intro _ _; omega) (by omega) (by omega) (by omega) (by omega)
      (by omega)
      (by
        intro t ht
        rw [hX, hY, rd_of_eq _ _ _ _ (hF1 (X + t) (by omega)),
          rd_of_eq _ _ _ _ (hF1 (Y + t) (by omega))]
        exact heq t (by omega))
    rw [hk2]
    simp only []
    rw [hX, hY, value_frame h.mem h1.mem X b (fun a h1 h2 => hF1 a (by omega)), hxl,
      value_frame h.mem h1.mem Y b (fun a h1 h2 => hF1 a (by omega)), hyl] at v2
    have hF2 : ∀ a, a < T → h2.mem a = h.mem a := fun a ha => by
      rw [fr2 a (by omega) (by omega), hF1 a ha]
    -- third sub-call: the high product
    obtain ⟨h3, hk3, v3, fr3, hb3⟩ := ih h2 x xoff y yoff T (0 + (b + d + e) * 2 + b * 2)
      (0 + (b + d) * 2 + (b + d) * 2 + 3) (J + (b + d) * 2 + 2) (off + b) (b + d) (parallel - 1)
      (by omega) (by omega) (by intro _ _; omega) (by omega) (by omega) (by omega) (by omega)
      (by omega)
      (by
        intro t ht
        rw [show x + (xoff + (off + b)) = X + b by omega,
          show y + (yoff + (off + b)) = Y + b by omega,
          rd_of_eq _ _ _ _ (hF2 (X + b + t) (by omega)),
          rd_of_eq _ _ _ _ (hF2 (Y + b + t) (by omega)),
          show X + b + t = X + (b + t) by omega, show Y + b + t = Y + (b + t) by omega]
        exact heq (b + t) (by omega))
    rw [hk3]
    simp only []
    rw [show x + (xoff + (off + b)) = X + b by omega, show y + (yoff + (off + b)) = Y + b by omega,
      value_frame h.mem h2.mem (X + b) (b + d) (fun a h1 h2 => hF2 a (by omega)), hxh,
      value_frame h.mem h2.mem (Y + b) (b + d) (fun a h1 h2 => hF2 a (by omega)), hyh] at v3
    have hF3 : ∀ a, a < T → h3.mem a = h.mem a := fun a ha => by
      rw [fr3 a (by omega) (by omega), hF2 a ha]
    -- the three products as the combination step finds them
    have hM3 : value h3.mem (T + 0) ((b + d + e) * 2) = (xl + xh) * (xl + xh) := by
      rw [← v1]
      exact value_frame _ _ _ _ (fun a h1 h2 => by
        rw [fr3 a (by omega) (by omega), fr2 a (by omega) (by omega)])
    have hMv : value h3.mem (T + 0) (b * 2 + 2 * d + e) = (xl + xh) * (xl + xh) := by
      rw [show (b + d + e) * 2 = (b * 2 + 2 * d + e) + e by ring, value_split] at hM3
      have hlt := value_lt h3.mem (T + 0) (b * 2 + 2 * d + e)
      generalize value h3.mem (T + 0) (b * 2 + 2 * d + e) = V at hM3 hlt ⊢
      generalize value h3.mem (T + 0 + (b * 2 + 2 * d + e)) e = top at hM3
      generalize (xl + xh) * (xl + xh) = M at hM3 hMlt ⊢
      generalize (2:ℕ) ^ (32 * (b * 2 + 2 * d + e)) = P at hM3 hMlt hlt
      rcases Nat.eq_zero_or_pos top with h0 | hpos
      · rw [h0] at hM3; omega
      · exfalso
        have : P * 1 ≤ P * top := Nat.mul_le_mul_left _ hpos
        omega
    have hP0 : value h3.mem (T + (0 + (b + d + e) * 2)) (b * 2) = xl * xl := by
      rw [← v2]
      exact value_frame _ _ _ _ (fun a h1 h2 => fr3 a (by omega) (by omega))
    have hP1 : value h3.mem (T + (0 + (b + d + e) * 2 + b * 2)) (b * 2 + 2 * d) = xh * xh := by
      rw [← v3, show (b + d) * 2 = b * 2 + 2 * d by ring]
    obtain ⟨ha1, ha2, ha3⟩ := karatsuba_arith (2 ^ (32 * b)) (2 ^ (32 * d)) xl xh xl xh hxllt hxllt
      hxhlt hxhlt
    have hpw2 : (2:ℕ) ^ (32 * (b * 2)) = 2 ^ (32 * b) * 2 ^ (32 * b) := by
      rw [show 32 * (b * 2) = 32 * b + 32 * b by ring, pow_add]
    have hpwl : (2:ℕ) ^ (32 * ((b * 2 + d) * 2))
        = 2 ^ (32 * b) * (2 ^ (32 * b) * 2 ^ (32 * d)) * (2 ^ (32 * b) * (2 ^ (32 * b) * 2 ^ (32 * d))) := by
      rw [show 32 * ((b * 2 + d) * 2) = (32 * b + (32 * b + 32 * d)) + (32 * b + (32 * b + 32 * d))
        by ring, pow_add, pow_add, pow_add]
    obtain ⟨m4, hk4, v4, fr4⟩ := kcombine_core f h3.mem z zoff T 0 b d e hd he (by omega)
      (by omega) hfuel ((xl + xh) * (xl + xh)) (xl * xl) (xh * xh) hMv hP0 hP1 ha1 hMlt (by
        rw [hpw2, hpwl, ha2]; exact ha3)
    rw [hk4]
    simp only []
    refine ⟨_, rfl, ?_, ?_, ?_⟩
    · simp only []
      rw [hpw2] at v4
      rw [← ha2]
      generalize value m4 (z + zoff) ((b * 2 + d) * 2) = V at v4 ⊢
      generalize (2:ℕ) ^ (32 * b) = Wb at v4 ha1 ⊢
      generalize (xl + xh) * (xl + xh) = M at v4 ha1 ⊢
      generalize xl * xl = P0 at v4 ha1 ⊢
      generalize xh * xh = P1 at v4 ha1 ⊢
      obtain ⟨mid, rfl⟩ : ∃ mid, M = P0 + P1 + mid := ⟨M - (P0 + P1), by omega⟩
      rw [show P0 + P1 + mid - P0 - P1 = mid by omega]
      have : Wb * (P0 + P1 + mid) = Wb * (P0 + P1) + Wb * mid := by ring
      rw [this] at v4
      omega
    · intro a ha hza
      simp only []
      rw [fr4 a hza, hF3 a ha]
    · simp only []
      omega

theorem karatsuba_sq : ∀ fuel, KSq fuel := by
  intro fuel
  induction fuel with
  | zero =>
    intro h x xoff y yoff z zoff zlen zlength off len parallel hlen hfuel
    omega
  | succ f ih => exact karatsuba_step f ih

theorem shl_low (w q n : Nat) (hn : n ≤ 32) (hq : q < 2 ^ n) :
    (w * 2 ^ n % 2 ^ 32 + q) / 2 ^ n = w % 2 ^ (32 - n)
    ∧ (w * 2 ^ n % 2 ^ 32 + q) % 2 ^ n = q := by
  have h32 : (2:ℕ) ^ 32 = 2 ^ (32 - n) * 2 ^ n := by
    rw [← pow_add]; congr 1; omega
  have h1 : w * 2 ^ n % 2 ^ 32 = 2 ^ n * (w % 2 ^ (32 - n)) := by
    rw [h32, Nat.mul_mod_mul_right]; ring
  rw [h1]
  constructor
  · rw [Nat.add_comm, Nat.add_mul_div_left _ _ (by positivity), Nat.div_eq_of_lt hq, Nat.zero_add]
  · rw [Nat.add_comm, Nat.add_mul_mod_self_left, Nat.mod_eq_of_lt hq]

theorem primitiveLeftShift_roundtrip (m : Mem) (a start end_ n : Nat) (hse : start < end_)
    (hn1 : 1 ≤ n) (hn : n ≤ 32) (htop : rd m (a + (end_ - 1)) < 2 ^ (32 - n)) :
    ∀ t, start ≤ t → t < end_ →
      shiftRightWord (primitiveLeftShift m a start end_ n) a end_ n t = rd m (a + t) := by
  obtain ⟨h0, ht, _⟩ := primitiveLeftShift_words m a start end_ n hse hn1 hn
  have hword : ∀ t, start ≤ t → t < end_ → ∃ q, q < 2 ^ n ∧
      rd (primitiveLeftShift m a start end_ n) (a + t) = rd m (a + t) * 2 ^ n % 2 ^ 32 + q
      ∧ (start < t → q = rd m (a + (t - 1)) / 2 ^ (32 - n)) := by
    intro t h1 h2
    rcases Nat.eq_or_lt_of_le h1 with rfl | hlt
    · exact ⟨0, by positivity, by rw [h0, Nat.add_zero], fun h => absurd h (lt_irrefl _)⟩
    · exact ⟨_, shr_lt _ _ (rd_lt _ _) hn, ht t hlt h2, fun _ => rfl⟩
  intro t h1 h2
  unfold shiftRightWord
  obtain ⟨q, hq, hw, _⟩ := hword t h1 h2
  have hdm := Nat.mod_add_div (rd m (a + t)) (2 ^ (32 - n))
  rw [hw, (shl_low _ q n hn hq).1]
  by_cases hnext : t + 1 < end_
  · rw [if_pos hnext]
    obtain ⟨q', hq', hw', hq'v⟩ := hword (t + 1) (by omega) hnext
    rw [hw', (shl_low _ q' n hn hq').2, hq'v (by omega), Nat.add_sub_cancel]
    rw [Nat.mul_comm]; exact hdm
  · rw [if_neg hnext, Nat.add_zero]
    have : t = end_ - 1 := by omega
    rw [this]
    exact Nat.mod_eq_of_lt htop

theorem value_eq_mod (V V' P hi N : Nat) (h : V' + P * hi = V * N) (hlt : V' < P) :
    V' = V * N % P := by
  rw [← h, Nat.add_mul_mod_self_left, Nat.mod_eq_of_lt hlt]

/-- C1: for `xlen >= 1`, `ylen >= 1` and operands that do not overlap the output
words, after `nativeMulQuad` the value of `z[1..xlen+ylen]` is the product of the
values of `x[1..xlen]` and `y[1..ylen]`, whatever `z` held before. -/
theorem C1_nativeMulQuad_product (m : Mem) (x xlen y ylen z : Nat) (hxlen : 1 ≤ xlen)
    (hx : x + xlen < z + 1 ∨ z + xlen + ylen < x + 1)
    (hy : y + ylen < z + 1 ∨ z + xlen + ylen < y + 1) :
    value (nativeMulQuad m x xlen y ylen z) (z + 1) (xlen + ylen)
      = value m (x + 1) xlen * value m (y + 1) ylen :=
  (nativeMulQuad_spec m x xlen y ylen z hxlen hx hy).1

theorem C1_witness :
    (1 ≤ 2 ∧ (0 + 2 < 20 + 1 ∨ 20 + 2 + 1 < 0 + 1) ∧ (10 + 1 < 20 + 1 ∨ 20 + 2 + 1 < 10 + 1))
    ∧ value (nativeMulQuad memC1 0 2 10 1 20) (20 + 1) (2 + 1)
        = value memC1 (0 + 1) 2 * value memC1 (10 + 1) 1
    ∧ rd (nativeMulQuad memC1 0 2 10 1 20) 21 = 4294967295
    ∧ rd (nativeMulQuad memC1 0 2 10 1 20) 22 = 0
    ∧ rd (nativeMulQuad memC1 0 2 10 1 20) 23 = 0 :=
  ⟨by decide, C1_nativeMulQuad_product memC1 0 2 10 1 20 (by decide) (by decide)
    (by decide), by decide!, by decide!, by decide!⟩

/-- C3: for `xlen >= 1`, an operand that does not overlap the output words and
`zlen = 2*xlen`, `squareToLen` leaves in `z[zoff .. zoff+2*xlen)` the square of the
value of `x[xoff .. xoff+xlen)`, whatever `z` held before; these are the words
`nativeMulQuad` writes when both its operands hold the same `xlen` words; cells
outside the output range are unchanged. -/
theorem C3_squareToLen_square (m : Mem) (x xoff xlen z zoff : Nat) (mq : Mem) (xq zq : Nat)
    (hlen : 1 ≤ xlen)
    (hd : x + xoff + xlen ≤ z + zoff ∨ z + zoff + 2 * xlen ≤ x + xoff)
    (hop : ∀ i, i < xlen → rd mq (xq + 1 + i) = rd m (x + xoff + i))
    (hq : xq + xlen < zq + 1 ∨ zq + xlen + xlen < xq + 1) :
    value (squareToLen m x xoff xlen z zoff (2 * xlen)) (z + zoff) (2 * xlen)
      = value m (x + xoff) xlen ^ 2
    ∧ (∀ i, i < 2 * xlen → rd (squareToLen m x xoff xlen z zoff (2 * xlen)) (z + zoff + i)
        = rd (nativeMulQuad mq xq xlen xq xlen zq) (zq + 1 + i))
    ∧ ∀ a, (a < z + zoff ∨ z + zoff + 2 * xlen ≤ a) →
        squareToLen m x xoff xlen z zoff (2 * xlen) a = m a := by
  obtain ⟨e, hfr⟩ := squareToLen_spec m x xoff xlen z zoff hlen hd
  obtain ⟨eq, _⟩ := nativeMulQuad_spec mq xq xlen xq xlen zq hlen hq hq
  have hv : value mq (xq + 1) xlen = value m (x + xoff) xlen := value_congr _ _ _ _ _ hop
  refine ⟨by rw [e, sq], ?_, hfr⟩
  apply value_inj
  rw [e, show 2 * xlen = xlen + xlen by omega, eq, hv]

theorem C3_witness :
    (1 ≤ 1 ∧ (0 + 1 + 1 ≤ 10 + 0 ∨ 10 + 0 + 2 * 1 ≤ 0 + 1)
      ∧ (∀ i, i < 1 → rd memC3 (0 + 1 + i) = rd memC3 (0 + 1 + i))
      ∧ (0 + 1 < 20 + 1 ∨ 20 + 1 + 1 < 0 + 1))
    ∧ (value (squareToLen memC3 0 1 1 10 0 (2 * 1)) (10 + 0) (2 * 1)
        = value memC3 (0 + 1) 1 ^ 2
      ∧ (∀ i, i < 2 * 1 → rd (squareToLen memC3 0 1 1 10 0 (2 * 1)) (10 + 0 + i)
          = rd (nativeMulQuad memC3 0 1 0 1 20) (20 + 1 + i))
      ∧ ∀ a, (a < 10 + 0 ∨ 10 + 0 + 2 * 1 ≤ a) →
          squareToLen memC3 0 1 1 10 0 (2 * 1) a = memC3 a)
    ∧ rd (squareToLen memC3 0 1 1 10 0 2) 10 = 1
    ∧ rd (squareToLen memC3 0 1 1 10 0 2) 11 = 4294967294 :=
  ⟨⟨by decide, by decide, fun _ _ => rfl, by decide⟩,
   C3_squareToLen_square memC3 0 1 1 10 0 memC3 0 20 (by decide) (by decide)
     (fun _ _ => rfl) (by decide),
   by decide!, by decide!⟩

/-- C7: `mulAdd` on `n = to - from` words of `x` and of `z` that do not overlap
satisfies `value(z'[zoff..zoff+n)) + c * 2^(32n) = value(z[zoff..zoff+n)) +
value(x[from..to)) * mul` over the naturals (`mul` read as an unsigned 32-bit
word), the returned carry `c` is below `2^32`, and cells outside
`z[zoff..zoff+n)` are unchanged. -/
theorem C7_mulAdd_exact (m : Mem) (x from_ to_ mul z zoff : Nat)
    (hd : x + from_ + (to_ - from_) ≤ z + zoff ∨ z + zoff + (to_ - from_) ≤ x + from_) :
    value (mulAdd m x from_ to_ mul z zoff).1 (z + zoff) (to_ - from_)
        + (mulAdd m x from_ to_ mul z zoff).2 * 2 ^ (32 * (to_ - from_))
      = value m (z + zoff) (to_ - from_) + value m (x + from_) (to_ - from_) * (mul % 2 ^ 32)
    ∧ (mulAdd m x from_ to_ mul z zoff).2 < 2 ^ 32
    ∧ ∀ a, (a < z + zoff ∨ z + zoff + (to_ - from_) ≤ a) →
        (mulAdd m x from_ to_ mul z zoff).1 a = m a :=
  mulAdd_spec m x from_ to_ mul z zoff hd

theorem C7_witness :
    (0 + 0 + (2 - 0) ≤ 10 + 0 ∨ 10 + 0 + (2 - 0) ≤ 0 + 0)
    ∧ (value (mulAdd memC7 0 0 2 4294967295 10 0).1 (10 + 0) (2 - 0)
          + (mulAdd memC7 0 0 2 4294967295 10 0).2 * 2 ^ (32 * (2 - 0))
        = value memC7 (10 + 0) (2 - 0) + value memC7 (0 + 0) (2 - 0) * (4294967295 % 2 ^ 32)
      ∧ (mulAdd memC7 0 0 2 4294967295 10 0).2 < 2 ^ 32
      ∧ ∀ a, (a < 10 + 0 ∨ 10 + 0 + (2 - 0) ≤ a) →
          (mulAdd memC7 0 0 2 4294967295 10 0).1 a = memC7 a)
    ∧ (mulAdd memC7 0 0 2 4294967295 10 0).2 = 4
    ∧ rd (mulAdd memC7 0 0 2 4294967295 10 0).1 10 = 2
    ∧ rd (mulAdd memC7 0 0 2 4294967295 10 0).1 11 = 4294967294 :=
  ⟨by decide, C7_mulAdd_exact memC7 0 0 2 4294967295 10 0 (by decide),
   by decide!, by decide!, by decide!⟩

/-- C8 (as stated) fails: on `x = [0xFFFFFFFF, 0]` with `xoff = 0`, `mlen = 0`,
`xlen = 2` and `carry = 1` the precondition `xlen > xoff + mlen` holds, yet `addOne`
returns 1 and leaves `x = [0, 0]`, so the equation over `x[xoff+mlen .. xlen)`
does not hold. -/
theorem C8_addOne_counterexample :
    0 + 0 < 2
    ∧ (addOne memC8 0 0 2 0 1).2 = 1
    ∧ rd (addOne memC8 0 0 2 0 1).1 0 = 0
    ∧ rd (addOne memC8 0 0 2 0 1).1 1 = 0
    ∧ value (addOne memC8 0 0 2 0 1).1 (0 + (0 + 0)) (2 - 0 - 0)
          + (addOne memC8 0 0 2 0 1).2 * 2 ^ (32 * (2 - 0 - 0))
        ≠ value memC8 (0 + (0 + 0)) (2 - 0 - 0) + 1 := by
  decide!

/-- C8 (amended): for `xlen > xoff + mlen`, `addOne` adds the carry word into the
window of `w = min (mlen + 1) (xlen - xoff - mlen)` words starting at `xoff + mlen`
and returns 1 exactly when the addition carries out of that window, else 0:
`value(x'[p..p+w)) + ret * 2^(32w) = value(x[p..p+w)) + carry` with `p = xoff + mlen`,
`ret <= 1`, and cells outside the window are unchanged. -/
theorem C8_addOne_window (m : Mem) (x xoff xlen mlen carry : Nat) (h : xoff + mlen < xlen) :
    value (addOne m x xoff xlen mlen carry).1 (x + (xoff + mlen))
          (min (mlen + 1) (xlen - (xoff + mlen)))
        + (addOne m x xoff xlen mlen carry).2
            * 2 ^ (32 * min (mlen + 1) (xlen - (xoff + mlen)))
      = value m (x + (xoff + mlen)) (min (mlen + 1) (xlen - (xoff + mlen))) + carry % 2 ^ 32
    ∧ (addOne m x xoff xlen mlen carry).2 ≤ 1
    ∧ ∀ a, (a < x + (xoff + mlen)
          ∨ x + (xoff + mlen) + min (mlen + 1) (xlen - (xoff + mlen)) ≤ a) →
        (addOne m x xoff xlen mlen carry).1 a = m a :=
  addOne_spec m x xoff xlen mlen carry _ h rfl

theorem C8_witness :
    0 + 0 < 3
    ∧ (value (addOne memC8w 0 0 3 0 1).1 (0 + (0 + 0)) (min (0 + 1) (3 - (0 + 0)))
          + (addOne memC8w 0 0 3 0 1).2 * 2 ^ (32 * min (0 + 1) (3 - (0 + 0)))
        = value memC8w (0 + (0 + 0)) (min (0 + 1) (3 - (0 + 0))) + 1 % 2 ^ 32
      ∧ (addOne memC8w 0 0 3 0 1).2 ≤ 1
      ∧ ∀ a, (a < 0 + (0 + 0) ∨ 0 + (0 + 0) + min (0 + 1) (3 - (0 + 0)) ≤ a) →
          (addOne memC8w 0 0 3 0 1).1 a = memC8w a)
    ∧ (addOne memC8w 0 0 3 0 1).2 = 1
    ∧ rd (addOne memC8w 0 0 3 0 1).1 0 = 0
    ∧ rd (addOne memC8w 0 0 3 0 1).1 1 = 4294967295 :=
  ⟨by decide, C8_addOne_window memC8w 0 0 3 0 1 (by decide), by decide!, by decide!, by decide!⟩

/-- C9: for `start < end` and `1 <= n <= 31`, `primitiveLeftShift` leaves in
`a[start..end)` the value `value(a[start..end)) * 2^n mod 2^(32*(end-start))` and
changes no cell outside the range; if the top `n` bits of `a[end-1]` are zero the
value is exactly `value * 2^n`, dividing it by `2^n` gives the original value back,
and the logical right shift of the range by `n` bits restores every original word. -/
theorem C9_primitiveLeftShift (m : Mem) (a start end_ n : Nat) (hse : start < end_)
    (hn1 : 1 ≤ n) (hn : n ≤ 31) :
    value (primitiveLeftShift m a start end_ n) (a + start) (end_ - start)
      = value m (a + start) (end_ - start) * 2 ^ n % 2 ^ (32 * (end_ - start))
    ∧ (rd m (a + (end_ - 1)) < 2 ^ (32 - n) →
        value (primitiveLeftShift m a start end_ n) (a + start) (end_ - start)
          = value m (a + start) (end_ - start) * 2 ^ n
        ∧ value (primitiveLeftShift m a start end_ n) (a + start) (end_ - start) / 2 ^ n
          = value m (a + start) (end_ - start)
        ∧ ∀ t, start ≤ t → t < end_ →
            shiftRightWord (primitiveLeftShift m a start end_ n) a end_ n t = rd m (a + t))
    ∧ ∀ b, (b < a + start ∨ a + end_ ≤ b) → primitiveLeftShift m a start end_ n b = m b := by
  have hv := primitiveLeftShift_value m a start end_ n hse hn1 (by omega)
  have hfr := (primitiveLeftShift_words m a start end_ n hse hn1 (by omega)).2.2
  refine ⟨value_eq_mod _ _ _ _ _ hv (value_lt _ _ _), ?_, hfr⟩
  intro htop
  have hz : rd m (a + (end_ - 1)) / 2 ^ (32 - n) = 0 := Nat.div_eq_of_lt htop
  rw [hz, Nat.mul_zero, Nat.add_zero] at hv
  refine ⟨hv, ?_, primitiveLeftShift_roundtrip m a start end_ n hse hn1 (by omega) htop⟩
  rw [hv]
  exact Nat.mul_div_cancel _ (by positivity)

theorem C9_witness :
    (0 < 2 ∧ 1 ≤ 4 ∧ 4 ≤ 31 ∧ rd memC9 (0 + (2 - 1)) < 2 ^ (32 - 4))
    ∧ value (primitiveLeftShift memC9 0 0 2 4) (0 + 0) (2 - 0)
        = value memC9 (0 + 0) (2 - 0) * 2 ^ 4 % 2 ^ (32 * (2 - 0))
    ∧ (value (primitiveLeftShift memC9 0 0 2 4) (0 + 0) (2 - 0)
          = value memC9 (0 + 0) (2 - 0) * 2 ^ 4
        ∧ value (primitiveLeftShift memC9 0 0 2 4) (0 + 0) (2 - 0) / 2 ^ 4
          = value memC9 (0 + 0) (2 - 0)
        ∧ ∀ t, 0 ≤ t → t < 2 →
            shiftRightWord (primitiveLeftShift memC9 0 0 2 4) 0 2 4 t = rd memC9 (0 + t))
    ∧ (∀ b, (b < 0 + 0 ∨ 0 + 2 ≤ b) → primitiveLeftShift memC9 0 0 2 4 b = memC9 b)
    ∧ rd (primitiveLeftShift memC9 0 0 2 4) 0 = 16
    ∧ rd (primitiveLeftShift memC9 0 0 2 4) 1 = 56 :=
  ⟨by decide!,
   (C9_primitiveLeftShift memC9 0 0 2 4 (by decide) (by decide) (by decide)).1,
   (C9_primitiveLeftShift memC9 0 0 2 4 (by decide) (by decide) (by decide)).2.1 (by decide!),
   (C9_primitiveLeftShift memC9 0 0 2 4 (by decide) (by decide) (by decide)).2.2,
   by decide!, by decide!⟩

/-- C10: for `xlen >= 1`, `zlen >= xlen + ylen`, `x` outside the `zlen + ylen + 2`
words of buffer `y`, after `nativeMulQuadInline` the words `y[1..xlen+ylen]` equal
the words `z[1..xlen+ylen]` that `nativeMulQuad` writes for the original operands
into any output `z` not overlapping them, and `y[zlen+1 .. zlen+ylen]` holds the
original `y[1..ylen]`. -/
theorem C10_inline_matches_quad (m : Mem) (x xlen y ylen zlen z : Nat) (hxlen : 1 ≤ xlen)
    (hz : xlen + ylen ≤ zlen)
    (hx : x + xlen < y ∨ y + zlen + ylen + 2 ≤ x + 1)
    (hzx : x + xlen < z + 1 ∨ z + xlen + ylen < x + 1)
    (hzy : y + ylen < z + 1 ∨ z + xlen + ylen < y + 1) :
    (∀ i, i < xlen + ylen → rd (nativeMulQuadInline m x xlen y ylen zlen) (y + 1 + i)
        = rd (nativeMulQuad m x xlen y ylen z) (z + 1 + i))
    ∧ (∀ i, i < ylen → rd (nativeMulQuadInline m x xlen y ylen zlen) (y + zlen + 1 + i)
        = rd m (y + 1 + i))
    ∧ value (nativeMulQuadInline m x xlen y ylen zlen) (y + 1) (xlen + ylen)
        = value m (x + 1) xlen * value m (y + 1) ylen := by
  obtain ⟨e, hcp⟩ := nativeMulQuadInline_spec m x xlen y ylen zlen hxlen hz hx
  obtain ⟨eq, _⟩ := nativeMulQuad_spec m x xlen y ylen z hxlen hzx hzy
  refine ⟨?_, hcp, e⟩
  apply value_inj
  rw [e, eq]

theorem C10_witness :
    (1 ≤ 2 ∧ 2 + 2 ≤ 4 ∧ (0 + 2 < 10 ∨ 10 + 4 + 2 + 2 ≤ 0 + 1)
      ∧ (0 + 2 < 30 + 1 ∨ 30 + 2 + 2 < 0 + 1) ∧ (10 + 2 < 30 + 1 ∨ 30 + 2 + 2 < 10 + 1))
    ∧ ((∀ i, i < 2 + 2 → rd (nativeMulQuadInline memC10 0 2 10 2 4) (10 + 1 + i)
          = rd (nativeMulQuad memC10 0 2 10 2 30) (30 + 1 + i))
      ∧ (∀ i, i < 2 → rd (nativeMulQuadInline memC10 0 2 10 2 4) (10 + 4 + 1 + i)
          = rd memC10 (10 + 1 + i))
      ∧ value (nativeMulQuadInline memC10 0 2 10 2 4) (10 + 1) (2 + 2)
          = value memC10 (0 + 1) 2 * value memC10 (10 + 1) 2)
    ∧ rd (nativeMulQuadInline memC10 0 2 10 2 4) 11 = 21
    ∧ rd (nativeMulQuadInline memC10 0 2 10 2 4) 12 = 32
    ∧ rd (nativeMulQuadInline memC10 0 2 10 2 4) 13 = 4294967294
    ∧ rd (nativeMulQuadInline memC10 0 2 10 2 4) 14 = 4
    ∧ rd (nativeMulQuadInline memC10 0 2 10 2 4) 15 = 7
    ∧ rd (nativeMulQuadInline memC10 0 2 10 2 4) 16 = 4294967295 :=
  ⟨by decide,
   C10_inline_matches_quad memC10 0 2 10 2 4 30 (by decide) (by decide) (by decide)
     (by decide) (by decide),
   by decide!, by decide!, by decide!, by decide!, by decide!, by decide!⟩

/-- Kernel evaluation of `karatsuba` on `memK34` with a fresh arena. -/
theorem memK34_eval :
    (karatsuba 100 ⟨memK34, 400⟩ 0 0 100 0 200 0 68 68 0 34 0).map
        (fun h => value h.mem (200 + 0) (2 * 34))
      = some (2 ^ (32 * 16) + 2 * 2 ^ (32 * 51) - 2 ^ (32 * 33)) := by
  decide!

/-- C2 fails at `len = 34`: with `x = 1`, `y = 2^(32*16) + (2^32 - 1) * 2^(32*33)`,
`parallel = 0`, a zeroed output buffer distinct from the operands and a freshly
allocated arena (`zlength = zoff + zlen`), `karatsuba` returns, but the value it
leaves in `z[0 .. 68)` is `2^(32*16) + 2*2^(32*51) - 2^(32*33)`, which is not the
product `2^(32*16) + 2^(32*34) - 2^(32*33)` of the operands. -/
theorem C2_karatsuba_wrong_product :
    (karatsuba 100 ⟨memK34, 400⟩ 0 0 100 0 200 0 68 68 0 34 0).map
        (fun h => value h.mem (200 + 0) (2 * 34))
      = some (2 ^ (32 * 16) + 2 * 2 ^ (32 * 51) - 2 ^ (32 * 33))
    ∧ value memK34 (0 + (0 + 0)) 34 * value memK34 (100 + (0 + 0)) 34
      = 2 ^ (32 * 16) + 2 ^ (32 * 34) - 2 ^ (32 * 33)
    ∧ (karatsuba 100 ⟨memK34, 400⟩ 0 0 100 0 200 0 68 68 0 34 0).map
        (fun h => value h.mem (200 + 0) (2 * 34))
      ≠ some (value memK34 (0 + (0 + 0)) 34 * value memK34 (100 + (0 + 0)) 34) := by
  have h1 := memK34_eval
  have h2 : value memK34 (0 + (0 + 0)) 34 * value memK34 (100 + (0 + 0)) 34
      = 2 ^ (32 * 16) + 2 ^ (32 * 34) - 2 ^ (32 * 33) := by decide!
  refine ⟨h1, h2, ?_⟩
  rw [h1, h2]
  decide!

/-- C4: `nativeSquareKaratsuba` with `parallel = 0`, for `len >= 1`, an operand
`x[OFF .. OFF+len)` and an output `z[OFF .. OFF+2*len)` that do not overlap, scratch
that is freshly allocated (`zlength` below the carving threshold) and, for the
model, enough fuel (`2*len`): whether `y` is `x` itself or a copy of it, the call
returns and leaves in `z[OFF .. OFF+2*len)` the value `value(x)^2`, word for word
what `squareToLen` writes for `x`. -/
theorem C4_squareKaratsuba (fuel : Nat) (h : Heap) (x len z zlen zlength : Nat) (yCopy : Bool)
    (hlen : 1 ≤ len) (hfuel : len * 2 ≤ fuel)
    (hfresh : 32 < len →
      zlength < OFF + zlen + (len * 2 + (len - len / 2) * 2 + 2 + (len - len / 2) * 2) + 1)
    (hd : x + OFF + len ≤ z + OFF ∨ z + OFF + len * 2 ≤ x + OFF)
    (hx : x + OFF + len ≤ h.brk) (hz : z + OFF + len * 2 ≤ h.brk) :
    ∃ h', nativeSquareKaratsuba fuel h x len z zlen zlength 0 yCopy = some h'
      ∧ value h'.mem (z + OFF) (len * 2) = value h.mem (x + OFF) len ^ 2
      ∧ ∀ i, i < len * 2 → rd h'.mem (z + OFF + i)
          = rd (squareToLen h.mem x OFF len z OFF (2 * len)) (z + OFF + i) := by
  have hsq := (squareToLen_spec h.mem x OFF len z OFF hlen (by omega)).1
  have key : ∃ h', nativeSquareKaratsuba fuel h x len z zlen zlength 0 yCopy = some h'
      ∧ value h'.mem (z + OFF) (len * 2) = value h.mem (x + OFF) len * value h.mem (x + OFF) len := by
    cases yCopy with
    | false =>
      obtain ⟨h', e, v, _⟩ := karatsuba_sq fuel h x OFF x OFF z OFF zlen zlength 0 len 0 hlen hfuel
        (fun _ => hfresh) (by simpa using hd) (by simpa using hd) (by simpa using hx)
        (by simpa using hx) hz (fun _ _ => rfl)
      exact ⟨h', by simpa [nativeSquareKaratsuba] using e, by simpa using v⟩
    | true =>
      have hm : ∀ a, a < h.brk →
          memcpy (calloc h (len + OFF)).mem h.brk x (len + OFF) a = h.mem a := by
        intro a ha
        rw [memcpy_other _ _ _ _ _ (Or.inl ha), calloc_mem_other _ _ _ ha]
      have hc : ∀ t, t < len →
          memcpy (calloc h (len + OFF)).mem h.brk x (len + OFF) (h.brk + (OFF + 0) + t)
            = h.mem (x + (OFF + 0) + t) := by
        intro t ht
        have hO : OFF = 1 := rfl
        unfold memcpy
        rw [if_pos ⟨by omega, by omega⟩, calloc_mem_other _ _ _ (by omega)]
        congr 1
        omega
      obtain ⟨h', e, v, _⟩ := karatsuba_sq fuel
        ⟨memcpy (calloc h (len + OFF)).mem h.brk x (len + OFF), (calloc h (len + OFF)).brk⟩
        x OFF h.brk OFF z OFF zlen zlength 0 len 0 hlen hfuel
        (fun _ => hfresh) (by simpa using hd)
        (Or.inr (by have hO : OFF = 1 := rfl; omega))
        (by simp only [calloc_brk]; omega)
        (by simp only [calloc_brk]; omega)
        (by simp only [calloc_brk]; omega)
        (fun t ht => by
          apply rd_of_eq
          show memcpy (calloc h (len + OFF)).mem h.brk x (len + OFF) (x + (OFF + 0) + t)
            = memcpy (calloc h (len + OFF)).mem h.brk x (len + OFF) (h.brk + (OFF + 0) + t)
          rw [hc t ht]
          exact hm _ (by omega))
      refine ⟨h', by simpa [nativeSquareKaratsuba] using e, ?_⟩
      rw [v]
      have e1 : value (memcpy (calloc h (len + OFF)).mem h.brk x (len + OFF)) (x + (OFF + 0)) len
          = value h.mem (x + OFF) len :=
        value_frame _ _ _ _ (fun b _ hb => hm b (by omega))
      have e2 : value (memcpy (calloc h (len + OFF)).mem h.brk x (len + OFF))
          (h.brk + (OFF + 0)) len = value h.mem (x + OFF) len :=
        value_congr _ _ _ _ _ (fun i hi => rd_of_eq _ _ _ _ (hc i hi))
      show value (memcpy (calloc h (len + OFF)).mem h.brk x (len + OFF)) (x + (OFF + 0)) len
          * value (memcpy (calloc h (len + OFF)).mem h.brk x (len + OFF)) (h.brk + (OFF + 0)) len
        = _
      rw [e1, e2]
  obtain ⟨h', e, v⟩ := key
  refine ⟨h', e, by rw [v, sq], ?_⟩
  apply value_inj
  rw [v, show len * 2 = 2 * len by omega, hsq]

theorem C4_witness :
    (1 ≤ 40 ∧ 40 * 2 ≤ 80
      ∧ (32 < 40 → 81 < OFF + 80 + (40 * 2 + (40 - 40 / 2) * 2 + 2 + (40 - 40 / 2) * 2) + 1)
      ∧ (0 + OFF + 40 ≤ 100 + OFF ∨ 100 + OFF + 40 * 2 ≤ 0 + OFF)
      ∧ 0 + OFF + 40 ≤ (Heap.mk memC4 200).brk ∧ 100 + OFF + 40 * 2 ≤ (Heap.mk memC4 200).brk)
    ∧ ∃ h', nativeSquareKaratsuba 80 (Heap.mk memC4 200) 0 40 100 80 81 0 true = some h'
      ∧ value h'.mem (100 + OFF) (40 * 2) = value (Heap.mk memC4 200).mem (0 + OFF) 40 ^ 2
      ∧ ∀ i, i < 40 * 2 → rd h'.mem (100 + OFF + i)
          = rd (squareToLen (Heap.mk memC4 200).mem 0 OFF 40 100 OFF (2 * 40)) (100 + OFF + i) :=
  ⟨by decide,
   C4_squareKaratsuba 80 (Heap.mk memC4 200) 0 40 100 80 81 true (by decide) (by decide)
     (by decide) (by decide) (by decide) (by decide)⟩

/-- Two memories that agree wordwise on a range have the same value there; so
different values mean some word differs. -/
theorem word_differs (m m' : Mem) (a n : Nat) (h : value m' a n ≠ value m a n) :
    ∃ i, i < n ∧ rd m' (a + i) ≠ rd m (a + i) := by
  by_contra hc
  push_neg at hc
  exact h (value_congr m m' a a n hc)

/-- Kernel evaluation of the carved run on `memDirty`. -/
theorem memDirty_carved_eval :
    (karatsuba 100 ⟨memDirty, 2000⟩ 0 0 100 0 200 0 68 1000 0 34 0).map
      (fun h => value h.mem (200 + 0) (34 * 2)) = some (2 ^ (32 * 51)) := by
  decide!

/-- On `memDirty` both operands are zero, word for word. -/
theorem memDirty_operands (t : Nat) (ht : t < 34) :
    rd memDirty (0 + (0 + 0) + t) = rd memDirty (100 + (0 + 0) + t) := by
  apply rd_of_eq
  unfold memDirty
  rw [if_neg (by omega), if_neg (by omega), if_neg (by omega), if_neg (by omega)]

/-- The operands held by `memDirty` have value zero. -/
theorem memDirty_zero : value memDirty (0 + (0 + 0)) 34 = 0 := by
  decide!

/-- C5 fails at `len = 34`: both operands are zero, `zlen = 68`, and the output
buffer `z[0 .. 1000)` holds two stale words beyond `z[0 .. 68)`.  With
`parallel = 1` `karatsuba` leaves the product, `0`, in `z[0 .. 68)`; with
`parallel = 0` it carves the arena out of the tail of `z` and leaves the value
`2^(32*51)`, so some output word differs. -/
theorem C5_parallel_changes_words :
    ∃ hp h0, karatsuba 100 ⟨memDirty, 2000⟩ 0 0 100 0 200 0 68 1000 0 34 1 = some hp
      ∧ karatsuba 100 ⟨memDirty, 2000⟩ 0 0 100 0 200 0 68 1000 0 34 0 = some h0
      ∧ value hp.mem (200 + 0) (34 * 2)
          = value memDirty (0 + (0 + 0)) 34 * value memDirty (100 + (0 + 0)) 34
      ∧ value hp.mem (200 + 0) (34 * 2) = 0
      ∧ value h0.mem (200 + 0) (34 * 2) = 2 ^ (32 * 51)
      ∧ ∃ i, i < 34 * 2 ∧ rd h0.mem (200 + 0 + i) ≠ rd hp.mem (200 + 0 + i) := by
  obtain ⟨hp, ep, vp, _⟩ := karatsuba_sq 100 ⟨memDirty, 2000⟩ 0 0 100 0 200 0 68 1000 0 34 1
    (by decide) (by decide) (by decide) (by decide) (by decide) (by decide) (by decide)
    (by decide) memDirty_operands
  obtain ⟨h0, e0, v0⟩ := Option.map_eq_some'.mp memDirty_carved_eval
  have vz : value hp.mem (200 + 0) (34 * 2) = 0 := by
    rw [vp]
    show value memDirty (0 + (0 + 0)) 34 * value memDirty (100 + (0 + 0)) 34 = 0
    rw [memDirty_zero, Nat.zero_mul]
  refine ⟨hp, h0, ep, e0, vp, vz, v0, ?_⟩
  apply word_differs
  rw [v0, vz]
  positivity

/-- C6 fails at `len = 34`: both operands are zero, `parallel = 0`, `zlen = 68`,
and the output buffer holds two stale words beyond `z[0 .. 68)`. With the arena
carved out of the tail of `z` (`zlength = 1000`, at least `zoff + zlen + k + 1`)
`karatsuba` leaves the value `2^(32*51)` in `z[0 .. 68)`; with a freshly allocated
arena (`zlength = 68`) it leaves the product, `0`, so some output word differs. -/
theorem C6_carving_changes_words :
    (32 < 34 ∧ 2 * 34 ≤ 68
      ∧ 1000 ≥ 0 + 68 + (34 * 2 + (34 - 34 / 2) * 2 + 2 + (34 - 34 / 2) * 2) + 1
      ∧ 68 < 0 + 68 + (34 * 2 + (34 - 34 / 2) * 2 + 2 + (34 - 34 / 2) * 2) + 1)
    ∧ ∃ hc hf, karatsuba 100 ⟨memDirty, 2000⟩ 0 0 100 0 200 0 68 1000 0 34 0 = some hc
      ∧ karatsuba 100 ⟨memDirty, 2000⟩ 0 0 100 0 200 0 68 68 0 34 0 = some hf
      ∧ value hc.mem (200 + 0) (34 * 2) = 2 ^ (32 * 51)
      ∧ value hf.mem (200 + 0) (34 * 2) = 0
      ∧ ∃ i, i < 34 * 2 ∧ rd hc.mem (200 + 0 + i) ≠ rd hf.mem (200 + 0 + i) := by
  refine ⟨by decide, ?_⟩
  obtain ⟨hc, ec, vc⟩ := Option.map_eq_some'.mp memDirty_carved_eval
  obtain ⟨hf, ef, vf, _⟩ := karatsuba_sq 100 ⟨memDirty, 2000⟩ 0 0 100 0 200 0 68 68 0 34 0
    (by decide) (by decide) (fun _ _ => by decide) (by decide) (by decide) (by decide)
    (by decide) (by decide) memDirty_operands
  have vz : value hf.mem (200 + 0) (34 * 2) = 0 := by
    rw [vf]
    show value memDirty (0 + (0 + 0)) 34 * value memDirty (100 + (0 + 0)) 34 = 0
    rw [memDirty_zero, Nat.zero_mul]
  refine ⟨hc, hf, ec, ef, vc, vz, ?_⟩
  apply word_differs
  rw [vc, vz]
  positivity

/-- The carry of the multiply-accumulate loop stays a 32-bit word. -/
theorem mulAccLoop_carry_lt (x0 : Nat) (hx0 : x0 < 2 ^ 32) :
    ∀ n (m : Mem) (src dst carry : Nat), carry < 2 ^ 32 →
      (mulAccLoop x0 n m src dst carry).2 < 2 ^ 32 := by
  intro n
  induction n with
  | zero => intro m src dst carry hc; exact hc
  | succ n ih =>
    intro m src dst carry hc
    simp only [mulAccLoop]
    apply ih
    have h := mac_lt carry x0 (rd m src) (rd m dst) hc hx0 (rd_lt _ _) (rd_lt _ _)
    rw [Nat.mod_eq_of_lt h]
    exact Nat.div_lt_of_lt_mul (by norm_num at h ⊢; omega)

/-- The carry of the multiply loop stays a 32-bit word. -/
theorem mulLoop_carry_lt (x0 : Nat) (hx0 : x0 < 2 ^ 32) :
    ∀ n (m : Mem) (src dst carry : Nat), carry < 2 ^ 32 →
      (mulLoop x0 n m src dst carry).2 < 2 ^ 32 := by
  intro n
  induction n with
  | zero => intro m src dst carry hc; exact hc
  | succ n ih =>
    intro m src dst carry hc
    simp only [mulLoop]
    apply ih
    have h := mac_lt carry x0 (rd m src) 0 hc hx0 (rd_lt _ _) (by norm_num)
    rw [Nat.add_zero] at h
    rw [Nat.mod_eq_of_lt h]
    exact Nat.div_lt_of_lt_mul (by norm_num at h ⊢; omega)

/-- C11: `primitiveLeftShift` is a no-op when `end <= start` or `n == 0`: the
memory after the call is the memory before it. -/
theorem C11_primitiveLeftShift_noop (m : Mem) (a start end_ n : Nat)
    (h : end_ ≤ start ∨ n = 0) : primitiveLeftShift m a start end_ n = m := by
  unfold primitiveLeftShift
  rw [if_pos h]

theorem C11_witness :
    ((3 ≤ 3 ∨ 4 = 0) ∧ primitiveLeftShift memC9 0 3 3 4 = memC9)
    ∧ ((2 ≤ 0 ∨ 0 = 0) ∧ primitiveLeftShift memC9 0 0 2 0 = memC9) :=
  ⟨⟨by decide, C11_primitiveLeftShift_noop memC9 0 3 3 4 (by decide)⟩,
   ⟨by decide, C11_primitiveLeftShift_noop memC9 0 0 2 0 (by decide)⟩⟩

/-- C13: for `1 <= len <= 32` and an output range that does not overlap the
operands, `karatsuba` returns at once, for any recursion bound (zero included)
and without allocating: the result is the base-case multiply of lines 115-133;
`z[zoff .. zoff+2*len)` then holds `value(x) * value(y)`, word for word what
`nativeMulQuad` with `xlen = ylen = len` writes for the same operand words, and
every other cell is unchanged. -/
theorem C13_karatsuba_base (fuel : Nat) (h : Heap)
    (x xoff y yoff z zoff zlen zlength off len parallel : Nat) (mq : Mem) (xq yq zq : Nat)
    (hlen : 1 ≤ len) (h32 : len ≤ 32)
    (hx : x + (xoff + off) + len ≤ z + zoff ∨ z + zoff + 2 * len ≤ x + (xoff + off))
    (hy : y + (yoff + off) + len ≤ z + zoff ∨ z + zoff + 2 * len ≤ y + (yoff + off))
    (hxq : ∀ i, i < len → rd mq (xq + 1 + i) = rd h.mem (x + (xoff + off) + i))
    (hyq : ∀ i, i < len → rd mq (yq + 1 + i) = rd h.mem (y + (yoff + off) + i))
    (hqx : xq + len < zq + 1 ∨ zq + len + len < xq + 1)
    (hqy : yq + len < zq + 1 ∨ zq + len + len < yq + 1) :
    karatsuba fuel h x xoff y yoff z zoff zlen zlength off len parallel
      = some ⟨kbase h.mem x (xoff + off) y (yoff + off) z zoff len, h.brk⟩
    ∧ value (kbase h.mem x (xoff + off) y (yoff + off) z zoff len) (z + zoff) (2 * len)
      = value h.mem (x + (xoff + off)) len * value h.mem (y + (yoff + off)) len
    ∧ (∀ i, i < 2 * len →
        rd (kbase h.mem x (xoff + off) y (yoff + off) z zoff len) (z + zoff + i)
          = rd (nativeMulQuad mq xq len yq len zq) (zq + 1 + i))
    ∧ ∀ a, (a < z + zoff ∨ z + zoff + 2 * len ≤ a) →
        kbase h.mem x (xoff + off) y (yoff + off) z zoff len a = h.mem a := by
  obtain ⟨e, hfr⟩ := kbase_spec h.mem x (xoff + off) y (yoff + off) z zoff len hlen hx hy
  obtain ⟨eq, _⟩ := nativeMulQuad_spec mq xq len yq len zq hlen hqx hqy
  refine ⟨?_, e, ?_, hfr⟩
  · cases fuel with
    | zero => simp only [karatsuba, if_pos h32]
    | succ f => simp only [karatsuba, if_pos h32]
  · apply value_inj
    rw [e, show 2 * len = len + len by omega, eq,
      value_congr _ _ _ _ _ hxq, value_congr _ _ _ _ _ hyq]

theorem C13_witness :
    (1 ≤ 2 ∧ 2 ≤ 32
      ∧ (0 + (1 + 0) + 2 ≤ 20 + 0 ∨ 20 + 0 + 2 * 2 ≤ 0 + (1 + 0))
      ∧ (10 + (1 + 0) + 2 ≤ 20 + 0 ∨ 20 + 0 + 2 * 2 ≤ 10 + (1 + 0))
      ∧ (0 + 2 < 30 + 1 ∨ 30 + 2 + 2 < 0 + 1) ∧ (10 + 2 < 30 + 1 ∨ 30 + 2 + 2 < 10 + 1))
    ∧ (karatsuba 0 ⟨memC13, 100⟩ 0 1 10 1 20 0 4 4 0 2 0
        = some ⟨kbase memC13 0 (1 + 0) 10 (1 + 0) 20 0 2, 100⟩
      ∧ value (kbase memC13 0 (1 + 0) 10 (1 + 0) 20 0 2) (20 + 0) (2 * 2)
        = value memC13 (0 + (1 + 0)) 2 * value memC13 (10 + (1 + 0)) 2
      ∧ (∀ i, i < 2 * 2 → rd (kbase memC13 0 (1 + 0) 10 (1 + 0) 20 0 2) (20 + 0 + i)
          = rd (nativeMulQuad memC13 0 2 10 2 30) (30 + 1 + i))
      ∧ ∀ a, (a < 20 + 0 ∨ 20 + 0 + 2 * 2 ≤ a) →
          kbase memC13 0 (1 + 0) 10 (1 + 0) 20 0 2 a = memC13 a)
    ∧ rd (kbase memC13 0 (1 + 0) 10 (1 + 0) 20 0 2) 20 = 21
    ∧ rd (kbase memC13 0 (1 + 0) 10 (1 + 0) 20 0 2) 21 = 32
    ∧ rd (kbase memC13 0 (1 + 0) 10 (1 + 0) 20 0 2) 22 = 4294967294
    ∧ rd (kbase memC13 0 (1 + 0) 10 (1 + 0) 20 0 2) 23 = 4 :=
  ⟨by decide,
   C13_karatsuba_base 0 ⟨memC13, 100⟩ 0 1 10 1 20 0 4 4 0 2 0 memC13 0 10 30 (by decide)
     (by decide) (by decide) (by decide) (fun _ _ => rfl) (fun _ _ => rfl) (by decide)
     (by decide),
   by decide!, by decide!, by decide!, by decide!⟩

/-- C19: in the multiply loops of `nativeMulQuad`, the `karatsuba` base case and
`mulAdd`, for a 32-bit multiplier `x0` and an incoming carry below `2^32` the
accumulator `carry + x0 * y + z` is at most `2^64 - 1`, so one loop iteration
computed modulo `2^64` is the iteration computed over the naturals, the carry
after `>>= 32` is again below `2^32`, after any number of iterations too, and
the `(jint)` cast of `mulAdd`'s final carry drops nothing. -/
theorem C19_no_accumulator_wrap (x0 carry : Nat) (m : Mem) (src dst n : Nat)
    (hx0 : x0 < 2 ^ 32) (hc : carry < 2 ^ 32) :
    carry + x0 * rd m src + rd m dst ≤ 2 ^ 64 - 1
    ∧ (carry + x0 * rd m src + rd m dst) / 2 ^ 32 < 2 ^ 32
    ∧ (carry + x0 * rd m src) / 2 ^ 32 < 2 ^ 32
    ∧ mulAccLoop x0 (n + 1) m src dst carry
        = mulAccLoop x0 n (wr m dst (carry + x0 * rd m src + rd m dst)) (src + 1) (dst + 1)
            ((carry + x0 * rd m src + rd m dst) / 2 ^ 32)
    ∧ mulLoop x0 (n + 1) m src dst carry
        = mulLoop x0 n (wr m dst (carry + x0 * rd m src)) (src + 1) (dst + 1)
            ((carry + x0 * rd m src) / 2 ^ 32)
    ∧ (mulAccLoop x0 n m src dst carry).2 < 2 ^ 32
    ∧ (mulLoop x0 n m src dst carry).2 < 2 ^ 32
    ∧ ∀ mul x from_ to_ z zoff, (mulAdd m x from_ to_ mul z zoff).2
        = (mulAccLoop (mul % 2 ^ 32) (to_ - from_) m (x + from_) (z + zoff) 0).2 := by
  have h := mac_lt carry x0 (rd m src) (rd m dst) hc hx0 (rd_lt _ _) (rd_lt _ _)
  have h' : carry + x0 * rd m src < 2 ^ 64 := by omega
  refine ⟨by omega, Nat.div_lt_of_lt_mul (by norm_num at h ⊢; omega),
    Nat.div_lt_of_lt_mul (by norm_num at h' ⊢; omega), ?_, ?_,
    mulAccLoop_carry_lt x0 hx0 n m src dst carry hc,
    mulLoop_carry_lt x0 hx0 n m src dst carry hc, ?_⟩
  · simp only [mulAccLoop]
    rw [Nat.mod_eq_of_lt h]
  · simp only [mulLoop]
    rw [Nat.mod_eq_of_lt h']
  · intro mul x from_ to_ z zoff
    simp only [mulAdd]
    exact Nat.mod_eq_of_lt
      (mulAccLoop_carry_lt _ (Nat.mod_lt _ (by norm_num)) _ _ _ _ _ (by norm_num))

theorem C19_witness :
    (4294967295 < 2 ^ 32 ∧ 4294967295 < 2 ^ 32)
    ∧ 4294967295 + 4294967295 * rd memC12 0 + rd memC12 10 ≤ 2 ^ 64 - 1
    ∧ (4294967295 + 4294967295 * rd memC12 0 + rd memC12 10) / 2 ^ 32 < 2 ^ 32
    ∧ (4294967295 + 4294967295 * rd memC12 0) / 2 ^ 32 < 2 ^ 32
    ∧ mulAccLoop 4294967295 (1 + 1) memC12 0 10 4294967295
        = mulAccLoop 4294967295 1
            (wr memC12 10 (4294967295 + 4294967295 * rd memC12 0 + rd memC12 10)) (0 + 1) (10 + 1)
            ((4294967295 + 4294967295 * rd memC12 0 + rd memC12 10) / 2 ^ 32)
    ∧ mulLoop 4294967295 (1 + 1) memC12 0 10 4294967295
        = mulLoop 4294967295 1 (wr memC12 10 (4294967295 + 4294967295 * rd memC12 0)) (0 + 1)
            (10 + 1) ((4294967295 + 4294967295 * rd memC12 0) / 2 ^ 32)
    ∧ (mulAccLoop 4294967295 1 memC12 0 10 4294967295).2 < 2 ^ 32
    ∧ (mulLoop 4294967295 1 memC12 0 10 4294967295).2 < 2 ^ 32
    ∧ ∀ mul x from_ to_ z zoff, (mulAdd memC12 x from_ to_ mul z zoff).2
        = (mulAccLoop (mul % 2 ^ 32) (to_ - from_) memC12 (x + from_) (z + zoff) 0).2 :=
  ⟨by decide, C19_no_accumulator_wrap 4294967295 4294967295 memC12 0 10 1 (by decide) (by decide)⟩

/-- C12: carry chaining of `mulAdd`, for `from <= mid <= to` and `x` outside the
`z` words involved.  Run `mulAdd` over `x[from..mid)` at `zoff`, add the returned
carry into the number held by `z` from position `zoff+(mid-from)` up to
`zoff+(to-from)+e` (any memory `m2` that differs from the first result only there
and holds that sum, `k` being the carry out of the top of that window, `k = 0` when
the sum fits), then run `mulAdd` over `x[mid..to)` at `zoff+(mid-from)`.  The `z`
words with the final carry as the word above `z[zoff+(to-from)-1]` (and `k` above
the window) have the same numeric value as after a single `mulAdd` over
`x[from..to)` at `zoff`. -/
theorem C12_mulAdd_chain (m : Mem) (x from_ mid to_ mul z zoff e : Nat) (m2 : Mem) (k : Nat)
    (hfm : from_ ≤ mid) (hmt : mid ≤ to_)
    (hd : x + to_ ≤ z + zoff ∨ z + zoff + (to_ - from_) + e ≤ x + from_)
    (hfr : ∀ a, (a < z + (zoff + (mid - from_)) ∨ z + (zoff + (mid - from_)) + (to_ - mid + e) ≤ a) →
      m2 a = (mulAdd m x from_ mid mul z zoff).1 a)
    (hadd : value m2 (z + (zoff + (mid - from_))) (to_ - mid + e) + k * 2 ^ (32 * (to_ - mid + e))
      = value (mulAdd m x from_ mid mul z zoff).1 (z + (zoff + (mid - from_))) (to_ - mid + e)
        + (mulAdd m x from_ mid mul z zoff).2) :
    value (mulAdd m2 x mid to_ mul z (zoff + (mid - from_))).1 (z + zoff) (to_ - from_ + e)
        + (mulAdd m2 x mid to_ mul z (zoff + (mid - from_))).2 * 2 ^ (32 * (to_ - from_))
        + k * 2 ^ (32 * (to_ - from_ + e))
      = value (mulAdd m x from_ to_ mul z zoff).1 (z + zoff) (to_ - from_ + e)
        + (mulAdd m x from_ to_ mul z zoff).2 * 2 ^ (32 * (to_ - from_)) := by
  obtain ⟨n1, rfl⟩ : ∃ n1, mid = from_ + n1 := ⟨mid - from_, by omega⟩
  obtain ⟨n2, rfl⟩ : ∃ n2, to_ = from_ + n1 + n2 := ⟨to_ - (from_ + n1), by omega⟩
  rw [show from_ + n1 - from_ = n1 by omega, show from_ + n1 + n2 - (from_ + n1) = n2 by omega]
    at hfr hadd
  rw [show from_ + n1 - from_ = n1 by omega, show from_ + n1 + n2 - from_ = n1 + n2 by omega]
  rw [show from_ + n1 + n2 - from_ = n1 + n2 by omega] at hd
  obtain ⟨E1, _, f1⟩ := mulAdd_spec m x from_ (from_ + n1) mul z zoff (by omega)
  obtain ⟨E2, _, f3⟩ := mulAdd_spec m2 x (from_ + n1) (from_ + n1 + n2) mul z (zoff + n1) (by omega)
  obtain ⟨Es, _, fs⟩ := mulAdd_spec m x from_ (from_ + n1 + n2) mul z zoff (by omega)
  rw [show from_ + n1 - from_ = n1 by omega] at E1 f1
  rw [show from_ + n1 + n2 - (from_ + n1) = n2 by omega] at E2 f3
  rw [show from_ + n1 + n2 - from_ = n1 + n2 by omega] at Es fs
  generalize mulAdd m x from_ (from_ + n1) mul z zoff = r1 at E1 f1 hfr hadd
  generalize mulAdd m2 x (from_ + n1) (from_ + n1 + n2) mul z (zoff + n1) = r3 at E2 f3 ⊢
  generalize mulAdd m x from_ (from_ + n1 + n2) mul z zoff = rs at Es fs ⊢
  -- the operand words are the same in all memories
  have hx2 : value m2 (x + (from_ + n1)) n2 = value m (x + (from_ + n1)) n2 :=
    value_frame _ _ _ _ (fun b h1 h2 => by rw [hfr b (by omega), f1 b (by omega)])
  have hxs : value m (x + from_) (n1 + n2)
      = value m (x + from_) n1 + 2 ^ (32 * n1) * value m (x + (from_ + n1)) n2 := by
    rw [value_split, Nat.add_assoc]
  -- splitting the windows
  have hA : z + (zoff + n1) = z + zoff + n1 := by omega
  rw [hA] at E2 f3 hfr hadd
  have s3 : value r3.1 (z + zoff) (n1 + n2 + e) = value r1.1 (z + zoff) n1
      + 2 ^ (32 * n1) * (value r3.1 (z + zoff + n1) n2
        + 2 ^ (32 * n2) * value m2 (z + zoff + n1 + n2) e) := by
    rw [Nat.add_assoc, value_split, value_split,
      value_frame m2 r3.1 (z + zoff) n1 (fun b h1 h2 => f3 b (by omega)),
      value_frame r1.1 m2 (z + zoff) n1 (fun b h1 h2 => hfr b (by omega)),
      value_frame m2 r3.1 (z + zoff + n1 + n2) e (fun b h1 h2 => f3 b (by omega))]
  have ss : value rs.1 (z + zoff) (n1 + n2 + e) = value rs.1 (z + zoff) (n1 + n2)
      + 2 ^ (32 * (n1 + n2)) * value m (z + zoff + n1 + n2) e := by
    rw [value_split, show z + zoff + (n1 + n2) = z + zoff + n1 + n2 by omega,
      value_frame m rs.1 (z + zoff + n1 + n2) e (fun b h1 h2 => fs b (by omega))]
  have s2 : value m2 (z + zoff + n1) (n2 + e) = value m2 (z + zoff + n1) n2
      + 2 ^ (32 * n2) * value m2 (z + zoff + n1 + n2) e := value_split _ _ _ _
  have s1 : value r1.1 (z + zoff + n1) (n2 + e) = value m (z + zoff + n1) n2
      + 2 ^ (32 * n2) * value m (z + zoff + n1 + n2) e := by
    rw [value_frame m r1.1 (z + zoff + n1) (n2 + e) (fun b h1 h2 => f1 b (by omega)), value_split]
  have sm : value m (z + zoff) (n1 + n2) = value m (z + zoff) n1
      + 2 ^ (32 * n1) * value m (z + zoff + n1) n2 := value_split _ _ _ _
  rw [s3, ss]
  rw [s2, s1] at hadd
  rw [hx2] at E2
  rw [hxs, sm] at Es
  rw [show 32 * (n1 + n2 + e) = 32 * n1 + 32 * n2 + 32 * e by ring,
    show 32 * (n1 + n2) = 32 * n1 + 32 * n2 by ring, pow_add, pow_add, pow_add]
  rw [show 32 * (n1 + n2) = 32 * n1 + 32 * n2 by ring, pow_add] at Es
  rw [show 32 * (n2 + e) = 32 * n2 + 32 * e by ring, pow_add] at hadd
  generalize (2:ℕ) ^ (32 * n1) = P1 at *
  generalize (2:ℕ) ^ (32 * n2) = P2 at *
  generalize (2:ℕ) ^ (32 * e) = Pe at *
  generalize value r1.1 (z + zoff) n1 = a1 at *
  generalize value r3.1 (z + zoff + n1) n2 = V3 at *
  generalize value m2 (z + zoff + n1 + n2) e = T2 at *
  generalize value m2 (z + zoff + n1) n2 = V2 at *
  generalize value rs.1 (z + zoff) (n1 + n2) = Vs at *
  generalize value m (z + zoff + n1 + n2) e = T at *
  generalize value m (z + zoff + n1) n2 = Zh at *
  generalize value m (z + zoff) n1 = Zl at *
  generalize value m (x + from_) n1 = Xl at *
  generalize value m (x + (from_ + n1)) n2 = Xh at *
  generalize mul % 2 ^ 32 = μ at *
  zify at E1 E2 Es hadd ⊢
  linear_combination E1 + (P1 : ℤ) * E2 + (P1 : ℤ) * hadd - Es

theorem C12_witness :
    (0 ≤ 1 ∧ 1 ≤ 2 ∧ (0 + 2 ≤ 10 + 0 ∨ 10 + 0 + (2 - 0) + 1 ≤ 0 + 0)
      ∧ (∀ a, (a < 10 + (0 + (1 - 0)) ∨ 10 + (0 + (1 - 0)) + (2 - 1 + 1) ≤ a) →
          wr (wr (mulAdd memC12 0 0 1 4294967295 10 0).1 11 4294967294) 12 6 a
            = (mulAdd memC12 0 0 1 4294967295 10 0).1 a)
      ∧ value (wr (wr (mulAdd memC12 0 0 1 4294967295 10 0).1 11 4294967294) 12 6)
              (10 + (0 + (1 - 0))) (2 - 1 + 1)
            + 0 * 2 ^ (32 * (2 - 1 + 1))
          = value (mulAdd memC12 0 0 1 4294967295 10 0).1 (10 + (0 + (1 - 0))) (2 - 1 + 1)
            + (mulAdd memC12 0 0 1 4294967295 10 0).2)
    ∧ value (mulAdd (wr (wr (mulAdd memC12 0 0 1 4294967295 10 0).1 11 4294967294) 12 6)
            0 1 2 4294967295 10 (0 + (1 - 0))).1 (10 + 0) (2 - 0 + 1)
          + (mulAdd (wr (wr (mulAdd memC12 0 0 1 4294967295 10 0).1 11 4294967294) 12 6)
            0 1 2 4294967295 10 (0 + (1 - 0))).2 * 2 ^ (32 * (2 - 0))
          + 0 * 2 ^ (32 * (2 - 0 + 1))
        = value (mulAdd memC12 0 0 2 4294967295 10 0).1 (10 + 0) (2 - 0 + 1)
          + (mulAdd memC12 0 0 2 4294967295 10 0).2 * 2 ^ (32 * (2 - 0)) :=
  ⟨⟨by decide, by decide, by decide,
    fun a ha => by rw [wr_other _ _ _ a (by omega), wr_other _ _ _ a (by omega)], by decide!⟩,
   C12_mulAdd_chain memC12 0 0 1 2 4294967295 10 0 1
     (wr (wr (mulAdd memC12 0 0 1 4294967295 10 0).1 11 4294967294) 12 6) 0
     (by decide) (by decide) (by decide)
     (fun a ha => by rw [wr_other _ _ _ a (by omega), wr_other _ _ _ a (by omega)])
     (by decide!)⟩

/-- One iteration of the off-diagonal loop: the call of `addOne` returns 0 and the
bound on the accumulated value is passed on to the next iteration. -/
theorem sqOff_step (x z xend zend cnt : Nat) (m : Mem) (i off : Nat)
    (hxe : xend = i + (cnt + 1)) (hze : zend = off + 2 * (cnt + 1))
    (hd : x + i + (cnt + 1) ≤ z + off ∨ z + off + 2 * (cnt + 1) ≤ x + i)
    (hb : value m (z + off) (2 * (cnt + 1)) + crossW m (x + i) (cnt + 1)
      < 2 ^ (32 * (2 * (cnt + 1)))) :
    (addOne (mulAdd m x (i + 1) xend (m (x + i)) z (off + 1)).1 z off zend (cnt + 1)
        (mulAdd m x (i + 1) xend (m (x + i)) z (off + 1)).2).2 = 0
    ∧ value (addOne (mulAdd m x (i + 1) xend (m (x + i)) z (off + 1)).1 z off zend (cnt + 1)
          (mulAdd m x (i + 1) xend (m (x + i)) z (off + 1)).2).1 (z + (off + 2)) (2 * cnt)
        + crossW (addOne (mulAdd m x (i + 1) xend (m (x + i)) z (off + 1)).1 z off zend (cnt + 1)
          (mulAdd m x (i + 1) xend (m (x + i)) z (off + 1)).2).1 (x + (i + 1)) cnt
      < 2 ^ (32 * (2 * cnt)) := by
  obtain ⟨e1, hc1, f1⟩ := mulAdd_spec m x (i + 1) xend (m (x + i)) z (off + 1) (by omega)
  rw [show xend - (i + 1) = cnt by omega] at e1 f1
  generalize mulAdd m x (i + 1) xend (m (x + i)) z (off + 1) = r at e1 hc1 f1 ⊢
  obtain ⟨e2, hc2, f2⟩ := addOne_spec r.1 z off zend (cnt + 1) r.2 (cnt + 1) (by omega) (by omega)
  rw [Nat.mod_eq_of_lt hc1] at e2
  generalize addOne r.1 z off zend (cnt + 1) r.2 = s at e2 hc2 f2 ⊢
  have hA : z + (off + 1) = z + off + 1 := by omega
  have hP : z + (off + (cnt + 1)) = z + off + (cnt + 1) := by omega
  rw [hA] at e1 f1
  rw [hP] at e2 f2
  have g1 : value s.1 (z + off) (cnt + 1) = value r.1 (z + off) (cnt + 1) :=
    value_frame _ _ _ _ (fun b hb1 hb2 => f2 b (by omega))
  have g2 : rd r.1 (z + off) = rd m (z + off) := rd_of_eq _ _ _ _ (f1 _ (by omega))
  have g3 : value r.1 (z + off + (cnt + 1)) (cnt + 1) = value m (z + off + (cnt + 1)) (cnt + 1) :=
    value_frame _ _ _ _ (fun b hb1 hb2 => f1 b (by omega))
  have hw2 : 2 * (cnt + 1) = (cnt + 1) + (cnt + 1) := by ring
  have hpw : (2:ℕ) ^ (32 * (2 * (cnt + 1))) = 2 ^ (32 * (cnt + 1)) * 2 ^ (32 * (cnt + 1)) := by
    rw [show 32 * (2 * (cnt + 1)) = 32 * (cnt + 1) + 32 * (cnt + 1) by ring, pow_add]
  have hstep : value s.1 (z + off) (2 * (cnt + 1)) + s.2 * 2 ^ (32 * (2 * (cnt + 1)))
      = value m (z + off) (2 * (cnt + 1))
        + 2 ^ 32 * (rd m (x + i) * value m (x + (i + 1)) cnt) := by
    have hv : ∀ mm : Mem, value mm (z + off) (2 * (cnt + 1)) = value mm (z + off) (cnt + 1)
        + 2 ^ (32 * (cnt + 1)) * value mm (z + off + (cnt + 1)) (cnt + 1) := fun mm =>
      (congrArg (value mm (z + off)) hw2).trans (value_split mm (z + off) (cnt + 1) (cnt + 1))
    rw [hv s.1, hv m, g1, value_succ r.1, value_succ m, g2, hpw, pow_succ32]
    rw [g3] at e2
    have hk : m (x + i) % 2 ^ 32 = rd m (x + i) := rfl
    rw [hk] at e1
    generalize value s.1 (z + off + (cnt + 1)) (cnt + 1) = V2 at e2 ⊢
    generalize value m (z + off + (cnt + 1)) (cnt + 1) = M2 at e2 ⊢
    generalize value r.1 (z + off + 1) cnt = V1 at e1 ⊢
    generalize value m (z + off + 1) cnt = M1 at e1 ⊢
    generalize value m (x + (i + 1)) cnt = T at e1 ⊢
    generalize rd m (x + i) = w at e1 ⊢
    generalize rd m (z + off) = w0
    rw [pow_succ32] at e2
    generalize (2:ℕ) ^ (32 * cnt) = P at e1 e2 ⊢
    zify at e1 e2 ⊢
    linear_combination (2 ^ 32 : ℤ) * e1 + (2 ^ 32 * (P : ℤ)) * e2
  have hcr : crossW m (x + i) (cnt + 1)
      = 2 ^ 32 * (rd m (x + i) * value m (x + (i + 1)) cnt) + 2 ^ 64 * crossW m (x + (i + 1)) cnt := by
    rw [crossW, show x + i + 1 = x + (i + 1) by omega]
  rw [hcr] at hb
  have hs0 : s.2 = 0 := by
    rcases Nat.le_one_iff_eq_zero_or_eq_one.mp hc2 with h | h
    · exact h
    · rw [h] at hstep
      omega
  refine ⟨hs0, ?_⟩
  rw [hs0] at hstep
  simp only [Nat.zero_mul, Nat.add_zero] at hstep
  have hxs : ∀ t, t < cnt → rd s.1 (x + (i + 1) + t) = rd m (x + (i + 1) + t) := by
    intro t ht
    apply rd_of_eq
    rw [f2 _ (by omega), f1 _ (by omega)]
  have hC : crossW s.1 (x + (i + 1)) cnt = crossW m (x + (i + 1)) cnt := crossW_congr _ _ _ _ hxs
  have hsplit : value s.1 (z + off) (2 * (cnt + 1))
      = value s.1 (z + off) 2 + 2 ^ 64 * value s.1 (z + (off + 2)) (2 * cnt) := by
    rw [show 2 * (cnt + 1) = 2 + 2 * cnt by ring, value_split,
      show z + off + 2 = z + (off + 2) by omega]
  have hpw2 : (2:ℕ) ^ (32 * (2 * (cnt + 1))) = 2 ^ 64 * 2 ^ (32 * (2 * cnt)) := by
    rw [show 32 * (2 * (cnt + 1)) = 64 + 32 * (2 * cnt) by ring, pow_add]
  rw [hC]
  rw [hpw2] at hb
  have : 2 ^ 64 * (value s.1 (z + (off + 2)) (2 * cnt) + crossW m (x + (i + 1)) cnt)
      < 2 ^ 64 * 2 ^ (32 * (2 * cnt)) := by
    calc 2 ^ 64 * (value s.1 (z + (off + 2)) (2 * cnt) + crossW m (x + (i + 1)) cnt)
        ≤ value s.1 (z + off) 2 + 2 ^ 64 * value s.1 (z + (off + 2)) (2 * cnt)
          + 2 ^ 64 * crossW m (x + (i + 1)) cnt := by
          rw [Nat.mul_add]; omega
      _ < 2 ^ 64 * 2 ^ (32 * (2 * cnt)) := by
          rw [← hsplit, hstep]; omega
  exact Nat.lt_of_mul_lt_mul_left this

/-- Every call of `addOne` in the off-diagonal loop returns 0. -/
theorem sqOffRets_spec (x z xend zend : Nat) :
    ∀ cnt (m : Mem) (i off : Nat), xend = i + cnt → zend = off + 2 * cnt →
      (x + i + cnt ≤ z + off ∨ z + off + 2 * cnt ≤ x + i) →
      value m (z + off) (2 * cnt) + crossW m (x + i) cnt < 2 ^ (32 * (2 * cnt)) →
      (sqOffRets x z xend zend cnt m i cnt off).length = cnt
      ∧ ∀ c, c ∈ sqOffRets x z xend zend cnt m i cnt off → c = 0 := by
  intro cnt
  induction cnt with
  | zero =>
    intro m i off _ _ _ _
    simp [sqOffRets]
  | succ cnt ih =>
    intro m i off hxe hze hd hb
    obtain ⟨h0, hb'⟩ := sqOff_step x z xend zend cnt m i off hxe hze hd hb
    simp only [sqOffRets, Nat.add_sub_cancel]
    obtain ⟨hl, hall⟩ := ih _ (i + 1) (off + 2) (by omega) (by omega) (by omega) hb'
    refine ⟨by rw [List.length_cons, hl], ?_⟩
    intro c hc
    rcases List.mem_cons.mp hc with h | h
    · rw [h]; exact h0
    · exact hall c h

/-- After the diagonal pass the bound needed by the off-diagonal loop holds, and the
two passes together leave half the square. -/
theorem squareSweeps_spec (m : Mem) (x xoff xlen z zoff : Nat) (hlen : 1 ≤ xlen)
    (hd : x + xoff + xlen ≤ z + zoff ∨ z + zoff + 2 * xlen ≤ x + xoff) :
    value (sqDiag x z xlen m (xlen + xoff - 1) (2 * xlen + zoff) 0) (z + zoff) (2 * xlen)
        + crossW (sqDiag x z xlen m (xlen + xoff - 1) (2 * xlen + zoff) 0) (x + xoff) xlen
      < 2 ^ (32 * (2 * xlen))
    ∧ value (squareSweeps m x xoff xlen z zoff (2 * xlen)) (z + zoff) (2 * xlen)
      = value m (x + xoff) xlen * value m (x + xoff) xlen / 2 := by
  simp only [squareSweeps]
  rw [show xlen + xoff - xoff = xlen by omega]
  obtain ⟨e1, f1⟩ := sqDiag_spec x z xoff zoff xlen m (xlen + xoff - 1) (2 * xlen + zoff) 0
    (by omega) (by omega) hd
  generalize sqDiag x z xlen m (xlen + xoff - 1) (2 * xlen + zoff) 0 = m1 at e1 f1 ⊢
  simp only [Nat.zero_mod, Nat.mul_zero, Nat.add_zero] at e1
  have hx1 : ∀ t, t < xlen → rd m1 (x + xoff + t) = rd m (x + xoff + t) :=
    fun t ht => rd_of_eq _ _ _ _ (f1 _ (by omega))
  have hC1 : crossW m1 (x + xoff) xlen = crossW m (x + xoff) xlen := crossW_congr _ _ _ _ hx1
  have hsq := sq_expand m xlen (x + xoff)
  have hxlt := value_lt m (x + xoff) xlen
  have hsqlt : value m (x + xoff) xlen * value m (x + xoff) xlen < 2 ^ (32 * (2 * xlen)) := by
    rw [show 32 * (2 * xlen) = 32 * xlen + 32 * xlen by ring, pow_add]
    exact Nat.mul_lt_mul'' hxlt hxlt
  generalize value m (x + xoff) xlen * value m (x + xoff) xlen = SQ at hsq hsqlt ⊢
  have hb : value m1 (z + zoff) (2 * xlen) + crossW m1 (x + xoff) xlen
      < 2 ^ (32 * (2 * xlen)) := by rw [e1, hC1]; omega
  refine ⟨hb, ?_⟩
  obtain ⟨e2, _⟩ := sqOff_spec x z (xlen + xoff) (2 * xlen + zoff) xlen m1 xoff zoff (by omega)
    (by omega) hd hb
  rw [e2, e1, hC1]
  omega

/-- C16: for `xlen >= 1`, `zlen = 2*xlen` and an operand that does not overlap the
output, when `squareToLen` reaches line 304 the range `z[zoff..zoff+2*xlen)` holds
`floor(value(x)^2 / 2)`; hence the top bit of `z[zoff+2*xlen-1]` is zero there and
`primitiveLeftShift(z, zoff, zlen, 1)` exactly doubles the value of the range. -/
theorem C16_squareToLen_shift_precondition (m : Mem) (x xoff xlen z zoff : Nat)
    (hlen : 1 ≤ xlen)
    (hd : x + xoff + xlen ≤ z + zoff ∨ z + zoff + 2 * xlen ≤ x + xoff) :
    value (squareSweeps m x xoff xlen z zoff (2 * xlen)) (z + zoff) (2 * xlen)
      = value m (x + xoff) xlen ^ 2 / 2
    ∧ rd (squareSweeps m x xoff xlen z zoff (2 * xlen)) (z + (2 * xlen + zoff - 1)) < 2 ^ 31
    ∧ value (primitiveLeftShift (squareSweeps m x xoff xlen z zoff (2 * xlen)) z zoff
          (2 * xlen + zoff) 1) (z + zoff) (2 * xlen)
      = value (squareSweeps m x xoff xlen z zoff (2 * xlen)) (z + zoff) (2 * xlen) * 2
    ∧ squareToLen m x xoff xlen z zoff (2 * xlen)
      = wr (primitiveLeftShift (squareSweeps m x xoff xlen z zoff (2 * xlen)) z zoff
            (2 * xlen + zoff) 1) (z + zoff)
          (rd (primitiveLeftShift (squareSweeps m x xoff xlen z zoff (2 * xlen)) z zoff
              (2 * xlen + zoff) 1) (z + zoff)
            ||| (rd (primitiveLeftShift (squareSweeps m x xoff xlen z zoff (2 * xlen)) z zoff
              (2 * xlen + zoff) 1) (x + xoff) &&& 1)) := by
  obtain ⟨_, e2⟩ := squareSweeps_spec m x xoff xlen z zoff hlen hd
  have hxlt := value_lt m (x + xoff) xlen
  have hsqlt : value m (x + xoff) xlen * value m (x + xoff) xlen < 2 ^ (32 * (2 * xlen)) := by
    rw [show 32 * (2 * xlen) = 32 * xlen + 32 * xlen by ring, pow_add]
    exact Nat.mul_lt_mul'' hxlt hxlt
  have e3 := primitiveLeftShift_value (squareSweeps m x xoff xlen z zoff (2 * xlen)) z zoff
    (2 * xlen + zoff) 1 (by omega) (by norm_num) (by norm_num)
  rw [show 2 * xlen + zoff - zoff = 2 * xlen by omega] at e3
  have hdef : squareToLen m x xoff xlen z zoff (2 * xlen)
      = wr (primitiveLeftShift (squareSweeps m x xoff xlen z zoff (2 * xlen)) z zoff
            (2 * xlen + zoff) 1) (z + zoff)
          (rd (primitiveLeftShift (squareSweeps m x xoff xlen z zoff (2 * xlen)) z zoff
              (2 * xlen + zoff) 1) (z + zoff)
            ||| (rd (primitiveLeftShift (squareSweeps m x xoff xlen z zoff (2 * xlen)) z zoff
              (2 * xlen + zoff) 1) (x + xoff) &&& 1)) := rfl
  generalize squareSweeps m x xoff xlen z zoff (2 * xlen) = m2 at e2 e3 hdef ⊢
  -- the top word
  obtain ⟨n, hn⟩ : ∃ n, 2 * xlen = n + 1 := ⟨2 * xlen - 1, by omega⟩
  have htopv : value m2 (z + zoff) (2 * xlen)
      = value m2 (z + zoff) n + 2 ^ (32 * n) * rd m2 (z + (2 * xlen + zoff - 1)) := by
    rw [hn, value_snoc, show z + (n + 1 + zoff - 1) = z + zoff + n by omega]
  have htop : rd m2 (z + (2 * xlen + zoff - 1)) < 2 ^ 31 := by
    by_contra hge
    push_neg at hge
    have h1 : 2 ^ (32 * n) * 2 ^ 31 ≤ 2 ^ (32 * n) * rd m2 (z + (2 * xlen + zoff - 1)) :=
      Nat.mul_le_mul_left _ hge
    have h2 : (2:ℕ) ^ (32 * (2 * xlen)) = 2 ^ (32 * n) * 2 ^ 31 * 2 := by
      rw [hn, show 32 * (n + 1) = 32 * n + 31 + 1 by ring, pow_add, pow_add, pow_one]
    rw [h2] at hsqlt
    rw [htopv] at e2
    generalize (2:ℕ) ^ (32 * n) * 2 ^ 31 = Q at h1 hsqlt
    generalize (2:ℕ) ^ (32 * n) * rd m2 (z + (2 * xlen + zoff - 1)) = R at h1 e2
    omega
  refine ⟨by rw [e2, sq], htop, ?_, hdef⟩
  have hz : rd m2 (z + (2 * xlen + zoff - 1)) / 2 ^ (32 - 1) = 0 :=
    Nat.div_eq_of_lt (by norm_num at htop ⊢; exact htop)
  rw [hz, Nat.mul_zero, Nat.add_zero, pow_one] at e3
  exact e3

theorem C16_witness :
    (1 ≤ 2 ∧ (0 + 1 + 2 ≤ 10 + 0 ∨ 10 + 0 + 2 * 2 ≤ 0 + 1))
    ∧ (value (squareSweeps memC16 0 1 2 10 0 (2 * 2)) (10 + 0) (2 * 2)
        = value memC16 (0 + 1) 2 ^ 2 / 2
      ∧ rd (squareSweeps memC16 0 1 2 10 0 (2 * 2)) (10 + (2 * 2 + 0 - 1)) < 2 ^ 31
      ∧ value (primitiveLeftShift (squareSweeps memC16 0 1 2 10 0 (2 * 2)) 10 0
            (2 * 2 + 0) 1) (10 + 0) (2 * 2)
        = value (squareSweeps memC16 0 1 2 10 0 (2 * 2)) (10 + 0) (2 * 2) * 2
      ∧ squareToLen memC16 0 1 2 10 0 (2 * 2)
        = wr (primitiveLeftShift (squareSweeps memC16 0 1 2 10 0 (2 * 2)) 10 0
              (2 * 2 + 0) 1) (10 + 0)
            (rd (primitiveLeftShift (squareSweeps memC16 0 1 2 10 0 (2 * 2)) 10 0
                (2 * 2 + 0) 1) (10 + 0)
              ||| (rd (primitiveLeftShift (squareSweeps memC16 0 1 2 10 0 (2 * 2)) 10 0
                (2 * 2 + 0) 1) (0 + 1) &&& 1)))
    ∧ rd (squareSweeps memC16 0 1 2 10 0 4) 13 = 2147483647
    ∧ rd (squareSweeps memC16 0 1 2 10 0 4) 10 = 0 :=
  ⟨by decide, C16_squareToLen_shift_precondition memC16 0 1 2 10 0 (by decide) (by decide),
   by decide!, by decide!⟩

/-- C20: for `xlen >= 1`, `zlen = 2*xlen` and an operand that does not overlap the
output, `squareToLen` calls `addOne` exactly `xlen` times and every one of these
calls returns 0, so discarding the returned value loses no carry. -/
theorem C20_squareToLen_addOne_returns_zero (m : Mem) (x xoff xlen z zoff : Nat)
    (hlen : 1 ≤ xlen)
    (hd : x + xoff + xlen ≤ z + zoff ∨ z + zoff + 2 * xlen ≤ x + xoff) :
    (squareToLenCarries m x xoff xlen z zoff (2 * xlen)).length = xlen
    ∧ ∀ c, c ∈ squareToLenCarries m x xoff xlen z zoff (2 * xlen) → c = 0 := by
  obtain ⟨hb, _⟩ := squareSweeps_spec m x xoff xlen z zoff hlen hd
  simp only [squareToLenCarries]
  rw [show xlen + xoff - xoff = xlen by omega]
  exact sqOffRets_spec x z (xlen + xoff) (2 * xlen + zoff) xlen _ xoff zoff (by omega) (by omega)
    hd hb

theorem C20_witness :
    (1 ≤ 2 ∧ (0 + 1 + 2 ≤ 10 + 0 ∨ 10 + 0 + 2 * 2 ≤ 0 + 1))
    ∧ ((squareToLenCarries memC16 0 1 2 10 0 (2 * 2)).length = 2
      ∧ ∀ c, c ∈ squareToLenCarries memC16 0 1 2 10 0 (2 * 2) → c = 0)
    ∧ squareToLenCarries memC16 0 1 2 10 0 4 = [0, 0] :=
  ⟨by decide, C20_squareToLen_addOne_returns_zero memC16 0 1 2 10 0 (by decide) (by decide),
   by decide!⟩

/-- The recursive case of `karatsuba` (lines 136-240), with the length of the
middle multiply written as `middleLen`. -/
theorem karatsuba_rec (fuel : Nat) (h : Heap)
    (x xoff y yoff z zoff zlen zlength off len parallel : Nat) (hlen : 32 < len) :
    karatsuba (fuel + 1) h x xoff y yoff z zoff zlen zlength off len parallel
      = (karatsuba fuel
          ⟨ksum (ksum (arena h z zoff zlen zlength len parallel).heap.mem len (len / 2)
              ((arena h z zoff zlen zlength len parallel).tmp
                + (arena h z zoff zlen zlength len parallel).x2offl_b2) (x + (xoff + off)))
            len (len / 2)
              ((arena h z zoff zlen zlength len parallel).tmp
                + ((arena h z zoff zlen zlength len parallel).x2offl_b2 + (len - len / 2) + 1))
              (y + (yoff + off)),
           (arena h z zoff zlen zlength len parallel).heap.brk⟩
          (arena h z zoff zlen zlength len parallel).tmp
          (arena h z zoff zlen zlength len parallel).x2offl_b2
          (arena h z zoff zlen zlength len parallel).tmp
          ((arena h z zoff zlen zlength len parallel).x2offl_b2 + (len - len / 2) + 1)
          (arena h z zoff zlen zlength len parallel).tmp
          (arena h z zoff zlen zlength len parallel).tmpoff
          ((arena h z zoff zlen zlength len parallel).tmpoff + (len - len / 2) * 2
            + (len - len / 2) * 2 + 3)
          (arena h z zoff zlen zlength len parallel).zlength 0
          (middleLen
            (ksum (ksum (arena h z zoff zlen zlength len parallel).heap.mem len (len / 2)
              ((arena h z zoff zlen zlength len parallel).tmp
                + (arena h z zoff zlen zlength len parallel).x2offl_b2) (x + (xoff + off)))
            len (len / 2)
              ((arena h z zoff zlen zlength len parallel).tmp
                + ((arena h z zoff zlen zlength len parallel).x2offl_b2 + (len - len / 2) + 1))
              (y + (yoff + off)))
            (arena h z zoff zlen zlength len parallel).tmp
            (arena h z zoff zlen zlength len parallel).x2offl_b2
            (arena h z zoff zlen zlength len parallel).y2offl_b2 (len - len / 2))
          (parallel - 1)).bind (fun h1 =>
        (karatsuba fuel h1 x xoff y yoff (arena h z zoff zlen zlength len parallel).tmp
          ((arena h z zoff zlen zlength len parallel).tmpoff
            + (middleLen
            (ksum (ksum (arena h z zoff zlen zlength len parallel).heap.mem len (len / 2)
              ((arena h z zoff zlen zlength len parallel).tmp
                + (arena h z zoff zlen zlength len parallel).x2offl_b2) (x + (xoff + off)))
            len (len / 2)
              ((arena h z zoff zlen zlength len parallel).tmp
                + ((arena h z zoff zlen zlength len parallel).x2offl_b2 + (len - len / 2) + 1))
              (y + (yoff + off)))
            (arena h z zoff zlen zlength len parallel).tmp
            (arena h z zoff zlen zlength len parallel).x2offl_b2
            (arena h z zoff zlen zlength len parallel).y2offl_b2 (len - len / 2)) * 2)
          ((arena h z zoff zlen zlength len parallel).tmpoff + (len - len / 2) * 2
            + (len - len / 2) * 2 + 3)
          (arena h z zoff zlen zlength len parallel).zlength off (len / 2) (parallel - 1)).bind
        (fun h2 =>
        (karatsuba fuel h2 x xoff y yoff (arena h z zoff zlen zlength len parallel).tmp
          ((arena h z zoff zlen zlength len parallel).tmpoff
            + (middleLen
            (ksum (ksum (arena h z zoff zlen zlength len parallel).heap.mem len (len / 2)
              ((arena h z zoff zlen zlength len parallel).tmp
                + (arena h z zoff zlen zlength len parallel).x2offl_b2) (x + (xoff + off)))
            len (len / 2)
              ((arena h z zoff zlen zlength len parallel).tmp
                + ((arena h z zoff zlen zlength len parallel).x2offl_b2 + (len - len / 2) + 1))
              (y + (yoff + off)))
            (arena h z zoff zlen zlength len parallel).tmp
            (arena h z zoff zlen zlength len parallel).x2offl_b2
            (arena h z zoff zlen zlength len parallel).y2offl_b2 (len - len / 2)) * 2
            + len / 2 * 2)
          ((arena h z zoff zlen zlength len parallel).tmpoff + (len - len / 2) * 2
            + (len - len / 2) * 2 + 3)
          (arena h z zoff zlen zlength len parallel).zlength (off + len / 2) (len - len / 2)
          (parallel - 1)).bind
        (fun h3 =>
        (kcombine fuel h3.mem z zoff (arena h z zoff zlen zlength len parallel).tmp
          (arena h z zoff zlen zlength len parallel).tmpoff len (len / 2)
          (middleLen
            (ksum (ksum (arena h z zoff zlen zlength len parallel).heap.mem len (len / 2)
              ((arena h z zoff zlen zlength len parallel).tmp
                + (arena h z zoff zlen zlength len parallel).x2offl_b2) (x + (xoff + off)))
            len (len / 2)
              ((arena h z zoff zlen zlength len parallel).tmp
                + ((arena h z zoff zlen zlength len parallel).x2offl_b2 + (len - len / 2) + 1))
              (y + (yoff + off)))
            (arena h z zoff zlen zlength len parallel).tmp
            (arena h z zoff zlen zlength len parallel).x2offl_b2
            (arena h z zoff zlen zlength len parallel).y2offl_b2 (len - len / 2))).map
          (fun m4 => ⟨m4, h3.brk⟩)))) := by
  have hn : ¬ len ≤ 32 := by omega
  rw [karatsuba]
  simp only [if_neg hn, middleLen]
  generalize arena h z zoff zlen zlength len parallel = ar
  cases karatsuba fuel _ ar.tmp ar.x2offl_b2 ar.tmp _ ar.tmp ar.tmpoff _ ar.zlength 0 _ _ with
  | none => rfl
  | some h1 =>
    simp only [Option.some_bind]
    cases karatsuba fuel h1 x xoff y yoff ar.tmp _ _ ar.zlength off (len / 2) _ with
    | none => rfl
    | some h2 =>
      simp only [Option.some_bind]
      cases karatsuba fuel h2 x xoff y yoff ar.tmp _ _ ar.zlength (off + len / 2) _ _ with
      | none => rfl
      | some h3 =>
        simp only [Option.some_bind]
        cases kcombine fuel h3.mem z zoff ar.tmp ar.tmpoff len (len / 2) _ with
        | none => rfl
        | some m4 => rfl

/-- C14 fails at `len = 34` (operands of `memK34`, fresh zeroed arena at address
400, `b = l_b = 17`): the two sums are stored correctly, each with its carry-out
word, and `y_low + y_high = 2^(32*17)` needs `l_b + 1 = 18` words; but line 186
chooses `r = 17`, and the 17 words at `y2offl_b1` hold `0`, not `y_low + y_high`. -/
theorem C14_middle_length_drops_word :
    ((arena ⟨memK34, 400⟩ 200 0 68 68 34 0).tmpoff = 0
      ∧ (arena ⟨memK34, 400⟩ 200 0 68 68 34 0).tmp = 400
      ∧ (arena ⟨memK34, 400⟩ 200 0 68 68 34 0).x2offl_b2 = 104
      ∧ (arena ⟨memK34, 400⟩ 200 0 68 68 34 0).y2offl_b2 = 138)
    ∧ value sumsK34 (400 + 104) (17 + 1) = value memK34 0 17 + value memK34 (0 + 17) 17
    ∧ value sumsK34 (400 + (104 + 17 + 1)) (17 + 1)
        = value memK34 100 17 + value memK34 (100 + 17) 17
    ∧ value memK34 100 17 + value memK34 (100 + 17) 17 = 2 ^ (32 * 17)
    ∧ middleLen sumsK34 400 104 138 17 = 17
    ∧ value sumsK34 (400 + (104 + 17 + 1)) (middleLen sumsK34 400 104 138 17) = 0
    ∧ value sumsK34 (400 + (104 + 17 + 1)) (middleLen sumsK34 400 104 138 17)
        ≠ value memK34 100 17 + value memK34 (100 + 17) 17 := by
  decide!

/-- C18: on the allocating path of `karatsuba` for `len > 32` (`b = len/2`,
`l_b = len - b`, `r` either `l_b` or `l_b + 1`) the arena starts at offset 0 and has
`S = 2*len + 4*l_b + 4` zeroed words; the regions of `m` (`2r` words at 0), `p0`
(`2b` words at `2r`), `p1` (`2*l_b` words at `2r+2b`), `xsum` (`l_b+1` words at
`x2offl_b2`) and `ysum` (`l_b+1` words at `y2offl_b1 = x2offl_b2 + l_b + 1`) follow
one another without overlap and end at or before `S`; the indices read at line 186,
by the `memcpy` and by the three accumulation loops, the operands and the
`2*n`-word outputs of the three sub-calls are below `S`; and the two operand sums
write only inside `[x2offl_b2, S)`. -/
theorem C18_fresh_arena_layout (h : Heap) (z zoff zlen zlength len parallel r X Y b l_b S : Nat)
    (hlen : 32 < len) (hb : b = len / 2) (hl : l_b = len - b) (hS : S = 2 * len + 4 * l_b + 4)
    (hpath : ¬ (parallel = 0
      ∧ zlength ≥ zoff + zlen + (len * 2 + (len - len / 2) * 2 + 2 + (len - len / 2) * 2) + 1))
    (hr : r = l_b ∨ r = l_b + 1)
    (hX : X + len ≤ h.brk) (hY : Y + len ≤ h.brk) :
    ((arena h z zoff zlen zlength len parallel).tmpoff = 0
      ∧ (arena h z zoff zlen zlength len parallel).tmp = h.brk
      ∧ (arena h z zoff zlen zlength len parallel).zlength = S
      ∧ (arena h z zoff zlen zlength len parallel).heap = calloc h S
      ∧ (arena h z zoff zlen zlength len parallel).x2offl_b2 = 2 * len + 2 * l_b + 2
      ∧ (arena h z zoff zlen zlength len parallel).y2offl_b2 = 2 * len + 4 * l_b + 2)
    ∧ (∀ a, h.brk ≤ a → a < h.brk + S → (calloc h S).mem a = 0)
    ∧ (0 + 2 * r + 2 * b + 2 * l_b ≤ 2 * len + 2 * l_b + 2
      ∧ (2 * len + 2 * l_b + 2) + (l_b + 1) + (l_b + 1) ≤ S)
    ∧ ((2 * len + 2 * l_b + 2) + l_b < S ∧ 2 * len + 4 * l_b + 2 < S
      ∧ 0 + 2 * r + 2 * len ≤ S
      ∧ 0 + 2 * r - 1 ≤ S ∧ (0 + 2 * r + 2 * b) + 2 * l_b ≤ S ∧ (0 + 2 * r) + 2 * b ≤ S)
    ∧ ((2 * len + 2 * l_b + 2) + r ≤ S ∧ (2 * len + 2 * l_b + 2 + l_b + 1) + r ≤ S
      ∧ 0 + 2 * r ≤ S ∧ (0 + 2 * r) + 2 * b ≤ S ∧ (0 + 2 * r + 2 * b) + 2 * l_b ≤ S
      ∧ r < len ∧ b < len ∧ l_b < len ∧ 1 ≤ b ∧ 1 ≤ l_b ∧ 1 ≤ r)
    ∧ ∀ a, (a < h.brk + (2 * len + 2 * l_b + 2) ∨ h.brk + S ≤ a) →
        ksum (ksum (calloc h S).mem len b (h.brk + (2 * len + 2 * l_b + 2)) X) len b
          (h.brk + ((2 * len + 2 * l_b + 2) + l_b + 1)) Y a = (calloc h S).mem a := by
  subst hb hl hS
  have hk : len * 2 + (len - len / 2) * 2 + 2 + (len - len / 2) * 2 + 2
      = 2 * len + 4 * (len - len / 2) + 4 := by omega
  refine ⟨?_, fun a h1 h2 => calloc_mem_zero h _ a h1 h2, by omega, by omega, by omega, ?_⟩
  · simp only [arena, if_neg hpath, hk]
    refine ⟨trivial, trivial, trivial, trivial, by omega, by omega⟩
  · obtain ⟨b, d, hd, rfl⟩ : ∃ b d, d ≤ 1 ∧ len = b * 2 + d :=
      ⟨len / 2, len % 2, by omega, by omega⟩
    have hb : (b * 2 + d) / 2 = b := by omega
    rw [hb, show b * 2 + d - b = b + d by omega]
    obtain ⟨_, _, fr⟩ := ksums_spec (calloc h (2 * (b * 2 + d) + 4 * (b + d) + 4)).mem X Y h.brk
      (2 * (b * 2 + d) + 2 * (b + d) + 2) b d hd
      (fun a h1 h2 => by
        unfold rd
        rw [calloc_mem_zero h _ a (by omega) (by omega)]
        rfl)
      hX hY
    intro a ha
    exact fr a (by omega)

theorem C18_witness :
    (32 < 34 ∧ 17 = 34 / 2 ∧ 17 = 34 - 17 ∧ 140 = 2 * 34 + 4 * 17 + 4
      ∧ ¬ (0 = 0 ∧ 68 ≥ 0 + 68 + (34 * 2 + (34 - 34 / 2) * 2 + 2 + (34 - 34 / 2) * 2) + 1)
      ∧ (18 = 17 ∨ 18 = 17 + 1)
      ∧ 0 + 34 ≤ (Heap.mk memK34 400).brk ∧ 100 + 34 ≤ (Heap.mk memK34 400).brk)
    ∧ ((arena ⟨memK34, 400⟩ 200 0 68 68 34 0).tmpoff = 0
      ∧ (arena ⟨memK34, 400⟩ 200 0 68 68 34 0).tmp = (Heap.mk memK34 400).brk
      ∧ (arena ⟨memK34, 400⟩ 200 0 68 68 34 0).zlength = 140
      ∧ (arena ⟨memK34, 400⟩ 200 0 68 68 34 0).heap = calloc ⟨memK34, 400⟩ 140
      ∧ (arena ⟨memK34, 400⟩ 200 0 68 68 34 0).x2offl_b2 = 2 * 34 + 2 * 17 + 2
      ∧ (arena ⟨memK34, 400⟩ 200 0 68 68 34 0).y2offl_b2 = 2 * 34 + 4 * 17 + 2)
    ∧ (∀ a, (Heap.mk memK34 400).brk ≤ a → a < (Heap.mk memK34 400).brk + 140 →
        (calloc ⟨memK34, 400⟩ 140).mem a = 0)
    ∧ (0 + 2 * 18 + 2 * 17 + 2 * 17 ≤ 2 * 34 + 2 * 17 + 2
      ∧ (2 * 34 + 2 * 17 + 2) + (17 + 1) + (17 + 1) ≤ 140)
    ∧ ((2 * 34 + 2 * 17 + 2) + 17 < 140 ∧ 2 * 34 + 4 * 17 + 2 < 140
      ∧ 0 + 2 * 18 + 2 * 34 ≤ 140
      ∧ 0 + 2 * 18 - 1 ≤ 140 ∧ (0 + 2 * 18 + 2 * 17) + 2 * 17 ≤ 140 ∧ (0 + 2 * 18) + 2 * 17 ≤ 140)
    ∧ ((2 * 34 + 2 * 17 + 2) + 18 ≤ 140 ∧ (2 * 34 + 2 * 17 + 2 + 17 + 1) + 18 ≤ 140
      ∧ 0 + 2 * 18 ≤ 140 ∧ (0 + 2 * 18) + 2 * 17 ≤ 140 ∧ (0 + 2 * 18 + 2 * 17) + 2 * 17 ≤ 140
      ∧ 18 < 34 ∧ 17 < 34 ∧ 17 < 34 ∧ 1 ≤ 17 ∧ 1 ≤ 17 ∧ 1 ≤ 18)
    ∧ ∀ a, (a < (Heap.mk memK34 400).brk + (2 * 34 + 2 * 17 + 2)
          ∨ (Heap.mk memK34 400).brk + 140 ≤ a) →
        ksum (ksum (calloc ⟨memK34, 400⟩ 140).mem 34 17
            ((Heap.mk memK34 400).brk + (2 * 34 + 2 * 17 + 2)) 0) 34 17
          ((Heap.mk memK34 400).brk + ((2 * 34 + 2 * 17 + 2) + 17 + 1)) 100 a
          = (calloc ⟨memK34, 400⟩ 140).mem a :=
  ⟨by decide,
   C18_fresh_arena_layout ⟨memK34, 400⟩ 200 0 68 68 34 0 18 0 100 17 17 140 (by decide)
     (by decide) (by decide) (by decide) (by decide) (by decide) (by decide) (by decide)⟩

/-- A product of two sums of a `b`-word and a `(b+d)`-word number fits in
`2*(b+d) + 1` words. -/
theorem sums_product_lt (b d xl xh yl yh : Nat) (hxl : xl < 2 ^ (32 * b))
    (hyl : yl < 2 ^ (32 * b)) (hxh : xh < 2 ^ (32 * b) * 2 ^ (32 * d))
    (hyh : yh < 2 ^ (32 * b) * 2 ^ (32 * d)) :
    (xl + xh) * (yl + yh) < 2 ^ (32 * (b * 2 + 2 * d + 1)) := by
  have h1 : 2 ^ (32 * b) * 1 ≤ 2 ^ (32 * b) * 2 ^ (32 * d) :=
    Nat.mul_le_mul_left _ (Nat.one_le_two_pow)
  have hs : xl + xh < 2 * (2 ^ (32 * b) * 2 ^ (32 * d)) := by omega
  have ht : yl + yh < 2 * (2 ^ (32 * b) * 2 ^ (32 * d)) := by omega
  rw [show 32 * (b * 2 + 2 * d + 1) = 32 + ((32 * b + 32 * d) + (32 * b + 32 * d)) by ring,
    pow_add, pow_add, pow_add]
  generalize (2:ℕ) ^ (32 * b) * 2 ^ (32 * d) = Q at hs ht
  calc (xl + xh) * (yl + yh) < (2 * Q) * (2 * Q) := Nat.mul_lt_mul'' hs ht
    _ = 4 * (Q * Q) := by ring
    _ ≤ 2 ^ 32 * (Q * Q) := Nat.mul_le_mul_right _ (by norm_num)

/-- C15: the combination step of `karatsuba` for `len > 32`, `b = len/2`, `r` equal
to `len-b` or `len-b+1`, a scratch range that does not overlap the output, and
enough fuel for the final ripple.  If the scratch holds `m = (x_low+x_high) *
(y_low+y_high)` in `2r` words, `p0 = x_low*y_low` in `2b` words at offset `2r` and
`p1 = x_high*y_high` in `2(len-b)` words at offset `2r+2b`, then the signed residual
`x0` after the `memcpy` and the three accumulation loops is 0 or 1, the step
returns, `value(z[zoff..zoff+2*len)) = p0 + (m - p0 - p1) * 2^(32b) + p1 * 2^(64b)
= (x_low + 2^(32b) x_high) * (y_low + 2^(32b) y_high)`, and no cell outside
`z[zoff..zoff+2*len)` is changed, so the ripple stops below `zoff+2*len`. -/
theorem C15_karatsuba_combination (fuel : Nat) (m : Mem)
    (z zoff tmp tmpoff len r xl xh yl yh : Nat)
    (hlen : 32 < len) (hr : r = len - len / 2 ∨ r = len - len / 2 + 1)
    (hdis : tmp + tmpoff + (r * 2 + len * 2) ≤ z + zoff ∨ z + zoff + len * 2 ≤ tmp + tmpoff)
    (hfuel : len * 2 ≤ fuel + 1)
    (hxl : xl < 2 ^ (32 * (len / 2))) (hyl : yl < 2 ^ (32 * (len / 2)))
    (hxh : xh < 2 ^ (32 * (len - len / 2))) (hyh : yh < 2 ^ (32 * (len - len / 2)))
    (hM : value m (tmp + tmpoff) (r * 2) = (xl + xh) * (yl + yh))
    (hP0 : value m (tmp + (tmpoff + r * 2)) (len / 2 * 2) = xl * yl)
    (hP1 : value m (tmp + (tmpoff + r * 2 + len / 2 * 2)) ((len - len / 2) * 2) = xh * yh) :
    ((kloops m z zoff tmp tmpoff len (len / 2) r).2 = 0
      ∨ (kloops m z zoff tmp tmpoff len (len / 2) r).2 = 1)
    ∧ ∃ m', kcombine fuel m z zoff tmp tmpoff len (len / 2) r = some m'
      ∧ value m' (z + zoff) (len * 2)
          = xl * yl + ((xl + xh) * (yl + yh) - xl * yl - xh * yh) * 2 ^ (32 * (len / 2))
            + xh * yh * 2 ^ (64 * (len / 2))
      ∧ value m' (z + zoff) (len * 2)
          = (xl + 2 ^ (32 * (len / 2)) * xh) * (yl + 2 ^ (32 * (len / 2)) * yh)
      ∧ ∀ a, (a < z + zoff ∨ z + zoff + len * 2 ≤ a) → m' a = m a := by
  obtain ⟨b, d, hd, rfl⟩ : ∃ b d, d ≤ 1 ∧ len = b * 2 + d :=
    ⟨len / 2, len % 2, by omega, by omega⟩
  have hb : (b * 2 + d) / 2 = b := by omega
  rw [hb] at hr hxl hyl hxh hyh hP0 hP1 ⊢
  rw [show b * 2 + d - b = b + d by omega] at hr hxh hyh hP1
  obtain ⟨e, he, rfl⟩ : ∃ e, e ≤ 1 ∧ r = b + d + e := by
    rcases hr with h | h
    · exact ⟨0, by omega, by omega⟩
    · exact ⟨1, by omega, by omega⟩
  rw [show 32 * (b + d) = 32 * b + 32 * d by ring, pow_add] at hxh hyh
  obtain ⟨ha1, ha2, ha3⟩ := karatsuba_arith (2 ^ (32 * b)) (2 ^ (32 * d)) xl xh yl yh hxl hyl
    hxh hyh
  have hMlt : (xl + xh) * (yl + yh) < 2 ^ (32 * (b * 2 + 2 * d + e)) := by
    rcases Nat.le_one_iff_eq_zero_or_eq_one.mp he with h0 | h1
    · rw [← hM, h0, show (b + d + 0) * 2 = b * 2 + 2 * d + 0 by ring]
      exact value_lt _ _ _
    · rw [h1]
      exact sums_product_lt b d xl xh yl yh hxl hyl hxh hyh
  have hMv : value m (tmp + tmpoff) (b * 2 + 2 * d + e) = (xl + xh) * (yl + yh) := by
    rw [show (b + d + e) * 2 = (b * 2 + 2 * d + e) + e by ring, value_split] at hM
    have hlt := value_lt m (tmp + tmpoff) (b * 2 + 2 * d + e)
    generalize value m (tmp + tmpoff) (b * 2 + 2 * d + e) = V at hM hlt ⊢
    generalize value m (tmp + tmpoff + (b * 2 + 2 * d + e)) e = top at hM
    generalize (xl + xh) * (yl + yh) = M at hM hMlt ⊢
    generalize (2:ℕ) ^ (32 * (b * 2 + 2 * d + e)) = P at hM hMlt hlt
    rcases Nat.eq_zero_or_pos top with h0 | hpos
    · rw [h0] at hM; omega
    · exfalso
      have : P * 1 ≤ P * top := Nat.mul_le_mul_left _ hpos
      omega
  have hP1' : value m (tmp + (tmpoff + (b + d + e) * 2 + b * 2)) (b * 2 + 2 * d) = xh * yh := by
    rw [← hP1, show (b + d) * 2 = b * 2 + 2 * d by ring]
  have hpw2 : (2:ℕ) ^ (32 * (b * 2)) = 2 ^ (32 * b) * 2 ^ (32 * b) := by
    rw [show 32 * (b * 2) = 32 * b + 32 * b by ring, pow_add]
  have hpw64 : (2:ℕ) ^ (64 * b) = 2 ^ (32 * b) * 2 ^ (32 * b) := by
    rw [show 64 * b = 32 * b + 32 * b by ring, pow_add]
  have hpwl : (2:ℕ) ^ (32 * ((b * 2 + d) * 2))
      = 2 ^ (32 * b) * (2 ^ (32 * b) * 2 ^ (32 * d)) * (2 ^ (32 * b) * (2 ^ (32 * b) * 2 ^ (32 * d))) := by
    rw [show 32 * ((b * 2 + d) * 2) = (32 * b + (32 * b + 32 * d)) + (32 * b + (32 * b + 32 * d))
      by ring, pow_add, pow_add, pow_add]
  obtain ⟨⟨m4, hk4, v4, fr4⟩, hres⟩ := kcombine_full fuel m z zoff tmp tmpoff b d e hd he
    (by omega) (by omega) hfuel ((xl + xh) * (yl + yh)) (xl * yl) (xh * yh) hMv hP0 hP1' ha1 hMlt
    (by rw [hpw2, hpwl, ha2]; exact ha3)
  refine ⟨hres, m4, hk4, ?_, ?_, fr4⟩
  · rw [hpw2] at v4
    rw [hpw64]
    generalize value m4 (z + zoff) ((b * 2 + d) * 2) = V at v4 ⊢
    generalize (2:ℕ) ^ (32 * b) = Wb at v4 ha1 ⊢
    generalize (xl + xh) * (yl + yh) = M at v4 ha1 ⊢
    generalize xl * yl = P0 at v4 ha1 ⊢
    generalize xh * yh = P1 at v4 ha1 ⊢
    obtain ⟨mid, rfl⟩ : ∃ mid, M = P0 + P1 + mid := ⟨M - (P0 + P1), by omega⟩
    rw [show P0 + P1 + mid - P0 - P1 = mid by omega]
    have h1 : Wb * (P0 + P1 + mid) = Wb * (P0 + P1) + mid * Wb := by ring
    have h2 : Wb * Wb * P1 = P1 * (Wb * Wb) := by ring
    rw [h1, h2] at v4
    omega
  · rw [hpw2] at v4
    rw [← ha2]
    generalize value m4 (z + zoff) ((b * 2 + d) * 2) = V at v4 ⊢
    generalize (2:ℕ) ^ (32 * b) = Wb at v4 ha1 ⊢
    generalize (xl + xh) * (yl + yh) = M at v4 ha1 ⊢
    generalize xl * yl = P0 at v4 ha1 ⊢
    generalize xh * yh = P1 at v4 ha1 ⊢
    obtain ⟨mid, rfl⟩ : ∃ mid, M = P0 + P1 + mid := ⟨M - (P0 + P1), by omega⟩
    rw [show P0 + P1 + mid - P0 - P1 = mid by omega]
    have h1 : Wb * (P0 + P1 + mid) = Wb * (P0 + P1) + Wb * mid := by ring
    rw [h1] at v4
    omega

theorem C15_witness :
    (32 < 33 ∧ (17 = 33 - 33 / 2 ∨ 17 = 33 - 33 / 2 + 1)
      ∧ (100 + 0 + (17 * 2 + 33 * 2) ≤ 300 + 0 ∨ 300 + 0 + 33 * 2 ≤ 100 + 0)
      ∧ 33 * 2 ≤ 66 + 1
      ∧ 1 < 2 ^ (32 * (33 / 2)) ∧ 1 < 2 ^ (32 * (33 - 33 / 2))
      ∧ value memC15 (100 + 0) (17 * 2) = (1 + 1) * (1 + 1)
      ∧ value memC15 (100 + (0 + 17 * 2)) (33 / 2 * 2) = 1 * 1
      ∧ value memC15 (100 + (0 + 17 * 2 + 33 / 2 * 2)) ((33 - 33 / 2) * 2) = 1 * 1)
    ∧ ((kloops memC15 300 0 100 0 33 (33 / 2) 17).2 = 0
      ∨ (kloops memC15 300 0 100 0 33 (33 / 2) 17).2 = 1)
    ∧ ∃ m', kcombine 66 memC15 300 0 100 0 33 (33 / 2) 17 = some m'
      ∧ value m' (300 + 0) (33 * 2)
          = 1 * 1 + ((1 + 1) * (1 + 1) - 1 * 1 - 1 * 1) * 2 ^ (32 * (33 / 2))
            + 1 * 1 * 2 ^ (64 * (33 / 2))
      ∧ value m' (300 + 0) (33 * 2)
          = (1 + 2 ^ (32 * (33 / 2)) * 1) * (1 + 2 ^ (32 * (33 / 2)) * 1)
      ∧ ∀ a, (a < 300 + 0 ∨ 300 + 0 + 33 * 2 ≤ a) → m' a = memC15 a :=
  ⟨by decide!,
   C15_karatsuba_combination 66 memC15 300 0 100 0 33 17 1 1 1 1 (by decide) (by decide)
     (by decide) (by decide) (by decide!) (by decide!) (by decide!) (by decide!) (by decide!)
     (by decide!) (by decide!)⟩

theorem FiniteMem_wr (m : Mem) (a v : Nat) (h : FiniteMem m) : FiniteMem (wr m a v) := by
  obtain ⟨N, hN⟩ := h
  refine ⟨N + a + 1, fun c hc => ?_⟩
  rw [wr_other m a v c (by omega)]
  exact hN c (by omega)

theorem FiniteMem_mulLoop (x0 : Nat) :
    ∀ n (m : Mem) (src dst carry : Nat), FiniteMem m →
      FiniteMem (mulLoop x0 n m src dst carry).1 := by
  intro n
  induction n with
  | zero => intro m _ _ _ h; exact h
  | succ n ih =>
    intro m src dst carry h
    simp only [mulLoop]
    exact ih _ _ _ _ (FiniteMem_wr _ _ _ h)

theorem FiniteMem_mulAccLoop (x0 : Nat) :
    ∀ n (m : Mem) (src dst carry : Nat), FiniteMem m →
      FiniteMem (mulAccLoop x0 n m src dst carry).1 := by
  intro n
  induction n with
  | zero => intro m _ _ _ h; exact h
  | succ n ih =>
    intro m src dst carry h
    simp only [mulAccLoop]
    exact ih _ _ _ _ (FiniteMem_wr _ _ _ h)

theorem FiniteMem_kbaseRows (x y z yoffoff len : Nat) :
    ∀ n (m : Mem) (i l mm : Nat), FiniteMem m →
      FiniteMem (kbaseRows x y z yoffoff len n m i l mm) := by
  intro n
  induction n with
  | zero => intro m _ _ _ h; exact h
  | succ n ih =>
    intro m i l mm h
    simp only [kbaseRows]
    exact ih _ _ _ _ (FiniteMem_wr _ _ _ (FiniteMem_mulAccLoop _ _ _ _ _ _ h))

theorem FiniteMem_kbase (m : Mem) (x xoffoff y yoffoff z zoff len : Nat) (h : FiniteMem m) :
    FiniteMem (kbase m x xoffoff y yoffoff z zoff len) := by
  simp only [kbase]
  exact FiniteMem_kbaseRows _ _ _ _ _ _ _ _ _ _
    (FiniteMem_wr _ _ _ (FiniteMem_mulLoop _ _ _ _ _ _ h))

theorem FiniteMem_calloc (h : Heap) (n : Nat) (hf : FiniteMem h.mem) :
    FiniteMem (calloc h n).mem := by
  obtain ⟨N, hN⟩ := hf
  refine ⟨N, fun c hc => ?_⟩
  unfold calloc
  simp only
  split
  · rfl
  · exact hN c hc

theorem FiniteMem_arena (h : Heap) (z zoff zlen zlength len parallel : Nat)
    (hf : FiniteMem h.mem) : FiniteMem (arena h z zoff zlen zlength len parallel).heap.mem := by
  unfold arena
  simp only
  split
  · exact hf
  · exact FiniteMem_calloc _ _ hf

theorem FiniteMem_addLoop :
    ∀ n (m : Mem) (dst s1 s2 carry : Nat), FiniteMem m →
      FiniteMem (addLoop n m dst s1 s2 carry).1 := by
  intro n
  induction n with
  | zero => intro m _ _ _ _ h; exact h
  | succ n ih =>
    intro m dst s1 s2 carry h
    simp only [addLoop]
    exact ih _ _ _ _ _ (FiniteMem_wr _ _ _ h)

theorem FiniteMem_sumTop (m : Mem) (len carry top src : Nat) (h : FiniteMem m) :
    FiniteMem (sumTop m len carry top src) := by
  have h1 : FiniteMem (if len % 2 ≠ 0 then wr m top (m src) else m) := by
    split
    · exact FiniteMem_wr _ _ _ h
    · exact h
  simp only [sumTop]
  generalize (if len % 2 ≠ 0 then wr m top (m src) else m) = m1 at h1 ⊢
  split
  · split
    · exact FiniteMem_wr _ _ _ (FiniteMem_wr _ _ _ h1)
    · exact FiniteMem_wr _ _ _ h1
  · exact h1

theorem FiniteMem_ksum (m : Mem) (len b dst src : Nat) (h : FiniteMem m) :
    FiniteMem (ksum m len b dst src) := by
  simp only [ksum]
  exact FiniteMem_sumTop _ _ _ _ _ (FiniteMem_addLoop _ _ _ _ _ _ h)

theorem FiniteMem_memcpy (m : Mem) (dst src n : Nat) (h : FiniteMem m) :
    FiniteMem (memcpy m dst src n) := by
  obtain ⟨N, hN⟩ := h
  refine ⟨N + dst + n, fun c hc => ?_⟩
  rw [memcpy_other m dst src n c (by omega)]
  exact hN c (by omega)

theorem FiniteMem_combA :
    ∀ n (m : Mem) (x0 : Int) (j i k l : Nat), FiniteMem m →
      FiniteMem (combA n m x0 j i k l).1 := by
  intro n
  induction n with
  | zero => intro m _ _ _ _ _ h; exact h
  | succ n ih =>
    intro m x0 j i k l h
    simp only [combA]
    exact ih _ _ _ _ _ _ (FiniteMem_wr _ _ _ h)

theorem FiniteMem_combB :
    ∀ n (m : Mem) (x0 : Int) (j i k : Nat), FiniteMem m →
      FiniteMem (combB n m x0 j i k).1 := by
  intro n
  induction n with
  | zero => intro m _ _ _ _ h; exact h
  | succ n ih =>
    intro m x0 j i k h
    simp only [combB]
    exact ih _ _ _ _ _ (FiniteMem_wr _ _ _ h)

theorem FiniteMem_combC :
    ∀ n (m : Mem) (x0 : Int) (j i : Nat), FiniteMem m →
      FiniteMem (combC n m x0 j i).1 := by
  intro n
  induction n with
  | zero => intro m _ _ _ h; exact h
  | succ n ih =>
    intro m x0 j i h
    simp only [combC]
    exact ih _ _ _ _ (FiniteMem_wr _ _ _ h)

theorem FiniteMem_kloops (m : Mem) (z zoff tmp tmpoff len b r : Nat) (h : FiniteMem m) :
    FiniteMem (kloops m z zoff tmp tmpoff len b r).1 := by
  simp only [kloops]
  exact FiniteMem_combC _ _ _ _ _ (FiniteMem_combB _ _ _ _ _ _
    (FiniteMem_combA _ _ _ _ _ _ _ (FiniteMem_memcpy _ _ _ _ h)))

/-- The loop `while (++z[j++] == 0);` stops at the latest on the first zero cell. -/
theorem ripple_terminates :
    ∀ k (m : Mem) (a : Nat), (∀ c, a + k ≤ c → m c = 0) →
      ∃ m', ripple (k + 1) m a = some m' ∧ FiniteMem m' := by
  intro k
  induction k with
  | zero =>
    intro m a hz
    have h0 : rd m a = 0 := by unfold rd; rw [hz a (by omega)]; rfl
    have h1 : rd (wr m a (rd m a + 1)) a ≠ 0 := by rw [rd_wr_same, h0]; norm_num
    refine ⟨wr m a (rd m a + 1), ?_, FiniteMem_wr _ _ _ ⟨a, fun c hc => hz c (by omega)⟩⟩
    simp only [ripple, if_neg h1]
  | succ k ih =>
    intro m a hz
    by_cases h1 : rd (wr m a (rd m a + 1)) a = 0
    · obtain ⟨m', e, f⟩ := ih (wr m a (rd m a + 1)) (a + 1) (fun c hc => by
        rw [wr_other _ _ _ c (by omega)]; exact hz c (by omega))
      refine ⟨m', ?_, f⟩
      rw [ripple]
      simp only [if_pos h1]
      exact e
    · refine ⟨wr m a (rd m a + 1), ?_,
        FiniteMem_wr _ _ _ ⟨a + (k + 1), fun c hc => hz c hc⟩⟩
      rw [ripple]
      simp only [if_neg h1]

/-- More fuel does not change the result of the ripple loop. -/
theorem ripple_mono :
    ∀ f (m : Mem) (a : Nat) (r : Mem), ripple f m a = some r → ripple (f + 1) m a = some r := by
  intro f
  induction f with
  | zero => intro m a r h; simp [ripple] at h
  | succ f ih =>
    intro m a r h
    rw [ripple] at h ⊢
    by_cases h1 : rd (wr m a (rd m a + 1)) a = 0
    · simp only [if_pos h1] at h ⊢
      exact ih _ _ _ h
    · simp only [if_neg h1] at h ⊢
      exact h

theorem ripple_mono_le (f f' : Nat) (hf : f ≤ f') (m : Mem) (a : Nat) (r : Mem)
    (h : ripple f m a = some r) : ripple f' m a = some r := by
  induction f' with
  | zero =>
    have : f = 0 := by omega
    rw [this] at h; exact h
  | succ n ih =>
    rcases Nat.lt_or_ge f (n + 1) with h1 | h1
    · exact ripple_mono _ _ _ _ (ih (by omega))
    · have : f = n + 1 := by omega
      rw [this] at h; exact h

/-- The combination step: the loops of lines 217-233, then the ripple of line 239. -/
theorem kcombine_eq (fuel : Nat) (m : Mem) (z zoff tmp tmpoff len b r : Nat) :
    kcombine fuel m z zoff tmp tmpoff len b r
      = if (kloops m z zoff tmp tmpoff len b r).2 ≠ 0 then
          ripple fuel (kloops m z zoff tmp tmpoff len b r).1
            (z + (zoff + b + b * 2 + (tmpoff + (len - b) * 2 - (tmpoff + b * 2))
              + (tmpoff + r * 2 - 1
                - (tmpoff + b * 2 + (tmpoff + (len - b) * 2 - (tmpoff + b * 2))))))
        else some (kloops m z zoff tmp tmpoff len b r).1 := rfl

theorem kcombine_mono (f : Nat) (m : Mem) (z zoff tmp tmpoff len b r : Nat) (m' : Mem)
    (h : kcombine f m z zoff tmp tmpoff len b r = some m') :
    kcombine (f + 1) m z zoff tmp tmpoff len b r = some m' := by
  rw [kcombine_eq] at h ⊢
  by_cases h1 : (kloops m z zoff tmp tmpoff len b r).2 ≠ 0
  · rw [if_pos h1] at h ⊢
    exact ripple_mono _ _ _ _ h
  · rw [if_neg h1] at h ⊢
    exact h

theorem kcombine_terminates (m : Mem) (z zoff tmp tmpoff len b r : Nat) (hm : FiniteMem m) :
    ∃ f m', kcombine f m z zoff tmp tmpoff len b r = some m' ∧ FiniteMem m' := by
  have hk := FiniteMem_kloops m z zoff tmp tmpoff len b r hm
  by_cases h1 : (kloops m z zoff tmp tmpoff len b r).2 ≠ 0
  · obtain ⟨N, hN⟩ := hk
    obtain ⟨m', e, f⟩ := ripple_terminates N (kloops m z zoff tmp tmpoff len b r).1
      (z + (zoff + b + b * 2 + (tmpoff + (len - b) * 2 - (tmpoff + b * 2))
        + (tmpoff + r * 2 - 1
          - (tmpoff + b * 2 + (tmpoff + (len - b) * 2 - (tmpoff + b * 2))))))
      (fun c hc => hN c (by omega))
    exact ⟨N + 1, m', by rw [kcombine_eq, if_pos h1]; exact e, f⟩
  · exact ⟨0, _, by rw [kcombine_eq, if_neg h1], hk⟩

/-- More fuel does not change the result of `karatsuba`. -/
theorem karatsuba_mono :
    ∀ f (h : Heap) (x xoff y yoff z zoff zlen zlength off len parallel : Nat) (r : Heap),
      karatsuba f h x xoff y yoff z zoff zlen zlength off len parallel = some r →
      karatsuba (f + 1) h x xoff y yoff z zoff zlen zlength off len parallel = some r := by
  intro f
  induction f with
  | zero =>
    intro h x xoff y yoff z zoff zlen zlength off len parallel r hr
    by_cases h32 : len ≤ 32
    · simp only [karatsuba, if_pos h32] at hr ⊢
      exact hr
    · simp [karatsuba, if_neg h32] at hr
  | succ f ih =>
    intro h x xoff y yoff z zoff zlen zlength off len parallel r hr
    by_cases h32 : len ≤ 32
    · simp only [karatsuba, if_pos h32] at hr ⊢
      exact hr
    · have hlen : 32 < len := by omega
      rw [karatsuba_rec _ _ _ _ _ _ _ _ _ _ _ _ _ hlen] at hr ⊢
      obtain ⟨h1, e1, hr⟩ := Option.bind_eq_some.mp hr
      rw [ih _ _ _ _ _ _ _ _ _ _ _ _ _ e1, Option.some_bind]
      obtain ⟨h2, e2, hr⟩ := Option.bind_eq_some.mp hr
      rw [ih _ _ _ _ _ _ _ _ _ _ _ _ _ e2, Option.some_bind]
      obtain ⟨h3, e3, hr⟩ := Option.bind_eq_some.mp hr
      rw [ih _ _ _ _ _ _ _ _ _ _ _ _ _ e3, Option.some_bind]
      obtain ⟨m4, e4, hr⟩ := Option.map_eq_some'.mp hr
      rw [kcombine_mono _ _ _ _ _ _ _ _ _ _ e4, Option.map_some', hr]

theorem karatsuba_mono_le (f f' : Nat) (hf : f ≤ f') (h : Heap)
    (x xoff y yoff z zoff zlen zlength off len parallel : Nat) (r : Heap)
    (hr : karatsuba f h x xoff y yoff z zoff zlen zlength off len parallel = some r) :
    karatsuba f' h x xoff y yoff z zoff zlen zlength off len parallel = some r := by
  induction f' with
  | zero =>
    have : f = 0 := by omega
    rw [this] at hr; exact hr
  | succ n ih =>
    rcases Nat.lt_or_ge f (n + 1) with h1 | h1
    · exact karatsuba_mono _ _ _ _ _ _ _ _ _ _ _ _ _ _ (ih (by omega))
    · have : f = n + 1 := by omega
      rw [this] at hr; exact hr

theorem kcombine_mono_le (f f' : Nat) (hf : f ≤ f') (m : Mem) (z zoff tmp tmpoff len b r : Nat)
    (m' : Mem) (h : kcombine f m z zoff tmp tmpoff len b r = some m') :
    kcombine f' m z zoff tmp tmpoff len b r = some m' := by
  induction f' with
  | zero =>
    have : f = 0 := by omega
    rw [this] at h; exact h
  | succ n ih =>
    rcases Nat.lt_or_ge f (n + 1) with h1 | h1
    · exact kcombine_mono _ _ _ _ _ _ _ _ _ _ (ih (by omega))
    · have : f = n + 1 := by omega
      rw [this] at h; exact h

theorem middleLen_bounds (m2 : Mem) (tmp p q l_b : Nat) :
    l_b ≤ middleLen m2 tmp p q l_b ∧ middleLen m2 tmp p q l_b ≤ l_b + 1 := by
  unfold middleLen
  split <;> omega

/-- On a memory with finitely many non-zero cells `karatsuba` returns, given enough
fuel, and leaves such a memory; by induction on a bound of `len`. -/
theorem karatsuba_terminates_aux :
    ∀ n len, len ≤ n → ∀ (h : Heap) (x xoff y yoff z zoff zlen zlength off parallel : Nat),
      FiniteMem h.mem →
      ∃ f h', karatsuba f h x xoff y yoff z zoff zlen zlength off len parallel = some h'
        ∧ FiniteMem h'.mem := by
  intro n
  induction n with
  | zero =>
    intro len hl h x xoff y yoff z zoff zlen zlength off parallel hfin
    have h32 : len ≤ 32 := by omega
    exact ⟨0, ⟨kbase h.mem x (xoff + off) y (yoff + off) z zoff len, h.brk⟩,
        by simp only [karatsuba, if_pos h32], FiniteMem_kbase _ _ _ _ _ _ _ _ hfin⟩
  | succ n ih =>
    intro len hl h x xoff y yoff z zoff zlen zlength off parallel hfin
    by_cases h32 : len ≤ 32
    · exact ⟨0, ⟨kbase h.mem x (xoff + off) y (yoff + off) z zoff len, h.brk⟩,
        by simp only [karatsuba, if_pos h32], FiniteMem_kbase _ _ _ _ _ _ _ _ hfin⟩
    · have hlen : 32 < len := by omega
      have key := fun F => karatsuba_rec F h x xoff y yoff z zoff zlen zlength off len parallel hlen
      have hm2 := FiniteMem_ksum _ len (len / 2)
        ((arena h z zoff zlen zlength len parallel).tmp
          + ((arena h z zoff zlen zlength len parallel).x2offl_b2 + (len - len / 2) + 1))
        (y + (yoff + off))
        (FiniteMem_ksum _ len (len / 2)
          ((arena h z zoff zlen zlength len parallel).tmp
            + (arena h z zoff zlen zlength len parallel).x2offl_b2) (x + (xoff + off))
          (FiniteMem_arena h z zoff zlen zlength len parallel hfin))
      generalize arena h z zoff zlen zlength len parallel = ar at key hm2
      generalize ksum (ksum ar.heap.mem len (len / 2) (ar.tmp + ar.x2offl_b2) (x + (xoff + off)))
        len (len / 2) (ar.tmp + (ar.x2offl_b2 + (len - len / 2) + 1)) (y + (yoff + off)) = m2
        at key hm2
      have hr := middleLen_bounds m2 ar.tmp ar.x2offl_b2 ar.y2offl_b2 (len - len / 2)
      generalize middleLen m2 ar.tmp ar.x2offl_b2 ar.y2offl_b2 (len - len / 2) = r at key hr
      obtain ⟨f1, h1, e1, fin1⟩ := ih r (by omega) ⟨m2, ar.heap.brk⟩ ar.tmp ar.x2offl_b2 ar.tmp
        (ar.x2offl_b2 + (len - len / 2) + 1) ar.tmp ar.tmpoff
        (ar.tmpoff + (len - len / 2) * 2 + (len - len / 2) * 2 + 3) ar.zlength 0 (parallel - 1) hm2
      obtain ⟨f2, h2, e2, fin2⟩ := ih (len / 2) (by omega) h1 x xoff y yoff ar.tmp
        (ar.tmpoff + r * 2) (ar.tmpoff + (len - len / 2) * 2 + (len - len / 2) * 2 + 3)
        ar.zlength off (parallel - 1) fin1
      obtain ⟨f3, h3, e3, fin3⟩ := ih (len - len / 2) (by omega) h2 x xoff y yoff ar.tmp
        (ar.tmpoff + r * 2 + len / 2 * 2)
        (ar.tmpoff + (len - len / 2) * 2 + (len - len / 2) * 2 + 3)
        ar.zlength (off + len / 2) (parallel - 1) fin2
      obtain ⟨f4, m4, e4, fin4⟩ := kcombine_terminates h3.mem z zoff ar.tmp ar.tmpoff len
        (len / 2) r fin3
      refine ⟨f1 + f2 + f3 + f4 + 1, ⟨m4, h3.brk⟩, ?_, fin4⟩
      rw [key (f1 + f2 + f3 + f4),
        karatsuba_mono_le f1 (f1 + f2 + f3 + f4) (by omega) _ _ _ _ _ _ _ _ _ _ _ _ _ e1,
        Option.some_bind,
        karatsuba_mono_le f2 (f1 + f2 + f3 + f4) (by omega) _ _ _ _ _ _ _ _ _ _ _ _ _ e2,
        Option.some_bind,
        karatsuba_mono_le f3 (f1 + f2 + f3 + f4) (by omega) _ _ _ _ _ _ _ _ _ _ _ _ _ e3,
        Option.some_bind,
        kcombine_mono_le f4 (f1 + f2 + f3 + f4) (by omega) _ _ _ _ _ _ _ _ _ e4,
        Option.map_some']

/-- The memory `memK34` has finitely many non-zero cells. -/
theorem memK34_finite : FiniteMem memK34 :=
  ⟨134, fun a ha => by
    unfold memK34
    rw [if_neg (by omega), if_neg (by omega), if_neg (by omega)]⟩

/-- C17: `karatsuba` terminates.  For `len > 32` the three recursive calls have
lengths `b = len/2`, `len-b` and `r` with `len-b <= r <= len-b+1`, all at least 1
and strictly smaller than `len`, so the recursion reaches the base case
`len <= 32`; and on a memory with finitely many non-zero cells the call returns for
every large enough bound on the recursion depth and on the final ripple loop. -/
theorem C17_karatsuba_terminates (h : Heap)
    (x xoff y yoff z zoff zlen zlength off len parallel : Nat) (hfin : FiniteMem h.mem) :
    (32 < len → 1 ≤ len / 2 ∧ len / 2 < len ∧ 1 ≤ len - len / 2 ∧ len - len / 2 < len
      ∧ ∀ (m2 : Mem) (tmp p q : Nat), 1 ≤ middleLen m2 tmp p q (len - len / 2)
          ∧ middleLen m2 tmp p q (len - len / 2) < len)
    ∧ ∃ fuel, ∀ fuel', fuel ≤ fuel' →
        ∃ h', karatsuba fuel' h x xoff y yoff z zoff zlen zlength off len parallel = some h' := by
  constructor
  · intro hlen
    refine ⟨by omega, by omega, by omega, by omega, fun m2 tmp p q => ?_⟩
    have := middleLen_bounds m2 tmp p q (len - len / 2)
    omega
  · obtain ⟨f, h', e, _⟩ := karatsuba_terminates_aux len len (le_refl _) h x xoff y yoff z zoff
      zlen zlength off parallel hfin
    exact ⟨f, fun f' hf => ⟨h', karatsuba_mono_le f f' hf _ _ _ _ _ _ _ _ _ _ _ _ _ e⟩⟩

theorem C17_witness :
    FiniteMem (Heap.mk memK34 400).mem
    ∧ (32 < 34 → 1 ≤ 34 / 2 ∧ 34 / 2 < 34 ∧ 1 ≤ 34 - 34 / 2 ∧ 34 - 34 / 2 < 34
      ∧ ∀ (m2 : Mem) (tmp p q : Nat), 1 ≤ middleLen m2 tmp p q (34 - 34 / 2)
          ∧ middleLen m2 tmp p q (34 - 34 / 2) < 34)
    ∧ ∃ fuel, ∀ fuel', fuel ≤ fuel' →
        ∃ h', karatsuba fuel' ⟨memK34, 400⟩ 0 0 100 0 200 0 68 68 0 34 0 = some h' :=
  ⟨memK34_finite, C17_karatsuba_terminates ⟨memK34, 400⟩ 0 0 100 0 200 0 68 68 0 34 0
    memK34_finite⟩

end BigInt
